import Mathlib

/-!
Verification development for the `pydlx` dancing-links library.

The core under study is `dancing_link/network.py` (the list-based `Network`
and `NetworkColour` classes), together with `dancing_link/utility.py`
(`create_network`, `mrv`, `progress`) and `dancing_link/link.py`
(the object-based `Column`/`Link` arena that `create_network` builds).

Python's mutable arrays are modelled as Lean `List`s inside a state record;
`list[int | None]` fields become `List (Option Nat)`.  Reads and writes use
`List.getD` / `List.set`, which agree with Python indexing whenever the index
is in bounds (all runs that the theorems below talk about stay in bounds;
Python would raise on the out-of-bounds paths, which no verified run takes).
`while` loops become fuel-indexed recursions; every theorem about a loop
either supplies enough fuel explicitly or proves that the given fuel
suffices.
-/

namespace Pydlx

/-- An exact-cover matrix, as in `network.py`: a list of rows of integers. -/
abbrev XMatrix := List (List Int)

/-- The list-based arena of `Network.__init__` (network.py).  One field per
Python list attribute; `spacerSer` models the `self._spacer` counter.  The
`top` list is what the code calls both `self.top` and `self.len` (the `len`
property returns `self.top`): entries `0..W` hold column sizes, option-node
entries hold the (1-based) column id, spacer entries hold the decreasing
serial `0, -1, -2, …`. -/
structure Net where
  name : List String
  left : List Nat
  right : List Nat
  top : List Int
  up : List (Option Nat)
  down : List (Option Nat)
  spacerSer : Int
deriving Repr, DecidableEq

/-- The empty arena at the start of `Network.__init__`. -/
def Net.empty : Net := ⟨[], [], [], [], [], [], 0⟩

/-- Read `self.left[i]`. -/
def leftN (s : Net) (i : Nat) : Nat := s.left.getD i 0

/-- Read `self.right[i]`. -/
def rightN (s : Net) (i : Nat) : Nat := s.right.getD i 0

/-- Read `self.top[i]` (= `self.len[i]`). -/
def topI (s : Net) (i : Nat) : Int := s.top.getD i 0

/-- Read `self.up[i]` as the raw optional value. -/
def upO (s : Net) (i : Nat) : Option Nat := s.up.getD i none

/-- Read `self.down[i]` as the raw optional value. -/
def downO (s : Net) (i : Nat) : Option Nat := s.down.getD i none

/-- Read `self.up[i]` where the code uses it as an integer id (never `None`
on the executed paths). -/
def upN (s : Net) (i : Nat) : Nat := (upO s i).getD 0

/-- Read `self.down[i]` where the code uses it as an integer id. -/
def downN (s : Net) (i : Nat) : Nat := (downO s i).getD 0

/-- `Network.add_column` (network.py lines 90-101): append a column node
with self-loop links; the name defaults to `str(id)` when falsy. -/
def addColumn (s : Net) (nm : Option String) : Net × Nat :=
  let id := s.up.length
  (⟨ s.name ++ [match nm with
      | none => toString id
      | some n => if n = "" then toString id else n],
     s.left ++ [id], s.right ++ [id], s.top ++ [0],
     s.up ++ [some id], s.down ++ [some id], s.spacerSer ⟩, id)

/-- `Network._add_down(i, j)`: splice node `j` directly below node `i`. -/
def addDown (s : Net) (i j : Nat) : Net :=
  let s1 : Net := { s with up := s.up.set j (some i) }
  let s2 : Net := { s1 with down := s1.down.set j (downO s1 i) }
  let s3 : Net := { s2 with up := s2.up.set (downN s2 i) (some j) }
  { s3 with down := s3.down.set i (some j) }

/-- `Network._add_bottom(i, j)`: splice node `j` at the bottom of column `i`
and bump the column size. -/
def addBottom (s : Net) (i j : Nat) : Net :=
  let u := upN s i
  let s1 := addDown s u j
  { s1 with top := s1.top.set i (topI s1 i + 1) }

/-- `Network._add_right(i, j)`: splice column `j` to the right of column `i`. -/
def addRightOp (s : Net) (i j : Nat) : Net :=
  let s1 : Net := { s with left := s.left.set j i }
  let s2 : Net := { s1 with right := s1.right.set j (rightN s1 i) }
  let s3 : Net := { s2 with left := s2.left.set (rightN s2 i) j }
  { s3 with right := s3.right.set i j }

/-- `Network.add_link(top)` (network.py lines 103-116).  `top = some c` is
the option-node case (`c ≥ 1` always, so Python's `if top:` is true);
`top = none` is the spacer case, which records the decreasing serial. -/
def addLink (s : Net) (t : Option Nat) : Net × Nat :=
  let id := s.up.length
  let s0 : Net := { s with up := s.up ++ [some id], down := s.down ++ [some id] }
  match t with
  | some tp =>
      let s1 : Net := { s0 with top := s0.top ++ [(tp : Int)] }
      (addBottom s1 tp id, id)
  | none =>
      ({ s0 with top := s0.top ++ [s0.spacerSer], spacerSer := s0.spacerSer - 1 }, id)

/-- The header-creation loop of `Network.__init__` (lines 50-60): iterate
over `zip_longest(matrix[0], names, fillvalue="")`, creating one column per
position and splicing the first `primary` of them into the root's ring. -/
def addHeaders (s : Net) (count primary : Nat) (names : List String) : Net :=
  go s 0 0 count
where
  go (s : Net) (k leftVar : Nat) : Nat → Net
    | 0 => s
    | rem + 1 =>
      let p := addColumn s (some (names.getD k ""))
      let s2 := if k < primary then addRightOp p.1 leftVar p.2 else p.1
      go s2 (k + 1) p.2 rem

/-- One row of the node-creation loop (lines 65-77): emit the spacer, set its
`up` to the previous row's first node, create one option node per nonzero
entry (columns are 1-based), then set the spacer's `down` to the last node
created so far (`link` is *not* reset per row, exactly as in the source). -/
def addRow (s : Net) (first link : Option Nat) (row : List Int) :
    Net × Option Nat × Option Nat :=
  let pr := addLink s none
  let spacer := pr.2
  let s2 : Net := { pr.1 with up := pr.1.up.set spacer first }
  let r3 := goRow s2 none link row 1
  (({ r3.1 with down := r3.1.down.set spacer r3.2.2 } : Net), r3.2.1, r3.2.2)
where
  goRow (s : Net) (first link : Option Nat) (row : List Int) (index : Nat) :
      Net × Option Nat × Option Nat :=
    match row with
    | [] => (s, first, link)
    | val :: rest =>
      if val ≠ 0 then
        let pr := addLink s (some index)
        let first' := match first with
          | none => some pr.2
          | some f => some f
        goRow pr.1 first' (some pr.2) rest (index + 1)
      else
        goRow s first link rest (index + 1)

/-- The whole node-creation phase (lines 62-83): fold `addRow` over the rows,
then emit the final spacer with `up = first` and `down = None`. -/
def addRows (s : Net) (rows : XMatrix) : Net :=
  go s none none rows
where
  go (s : Net) (first link : Option Nat) : XMatrix → Net
    | [] =>
      let pr := addLink s none
      let s2 : Net := { pr.1 with up := pr.1.up.set pr.2 first }
      { s2 with down := s2.down.set pr.2 none }
    | row :: rest =>
      let r := addRow s first link row
      go r.1 r.2.1 r.2.2 rest

/-- The body of `Network.__init__` after the `primary` check (lines 39-83),
with the `primary` count already resolved. -/
def buildArena (matrix : XMatrix) (names : List String) (primary : Nat) : Net :=
  let width := (matrix.headD []).length
  let count := max width names.length
  let s1 := (addColumn Net.empty none).1
  let s2 := addHeaders s1 count primary names
  addRows s2 matrix

/-- `Network.__init__` (network.py lines 13-83).  `matrix[0]` on an empty
matrix raises `IndexError`; an explicit `primary` outside the open interval
`(0, width)` raises `ValueError`; otherwise the arena is built. -/
def networkInit (matrix : XMatrix) (names : List String) (primary? : Option Int) :
    Except String Net :=
  match matrix with
  | [] => .error "IndexError"
  | r0 :: _ =>
    let width := r0.length
    match primary? with
    | none => .ok (buildArena matrix names width)
    | some p =>
        if 0 < p ∧ p < (width : Int) then .ok (buildArena matrix names p.toNat)
        else .error "ValueError: Require 0 < primary < width."

/-! ### Link operations of the plain `Network` (network.py lines 138-193) -/

/-- One unlink step of `Network.hide`: remove `q` from its column's vertical
ring and decrement the column size (`x = top[q]`, `u = up[q]`, `d = down[q]`;
`down[u] = d; up[d] = u; len[x] -= 1`). -/
def vunlink (s : Net) (q : Nat) : Net :=
  let x := topI s q
  let u := upN s q
  let d := downN s q
  let s1 : Net := { s with down := s.down.set u (some d) }
  let s2 : Net := { s1 with up := s1.up.set d (some u) }
  { s2 with top := s2.top.set x.toNat (topI s2 x.toNat - 1) }

/-- One relink step of `Network.unhide`: restore `q` into its column's ring
(`down[u] = q; up[d] = q; len[x] += 1`). -/
def vrelink (s : Net) (q : Nat) : Net :=
  let x := topI s q
  let u := upN s q
  let d := downN s q
  let s1 : Net := { s with down := s.down.set u (some q) }
  let s2 : Net := { s1 with up := s1.up.set d (some q) }
  { s2 with top := s2.top.set x.toNat (topI s2 x.toNat + 1) }

/-- The loop of `Network.hide(p)` (lines 164-178): walk `q` rightwards from
`p+1`, bouncing from a spacer to its `up` link, unlinking every non-spacer
node until the walk returns to `p`. -/
def hideGo (s : Net) (p : Nat) : Nat → Nat → Net
  | _, 0 => s
  | q, fuel + 1 =>
    if q = p then s
    else if topI s q ≤ 0 then hideGo s p (upN s q) fuel
    else hideGo (vunlink s q) p (q + 1) fuel

/-- `Network.hide(p)`, with fuel bounded by the arena size. -/
def hide (s : Net) (p : Nat) : Net := hideGo s p (p + 1) (s.up.length + 1)

/-- The loop of `Network.unhide(p)` (lines 180-193): walk `q` leftwards from
`p-1`, bouncing from a spacer to its `down` link, relinking every non-spacer
node until the walk returns to `p`. -/
def unhideGo (s : Net) (p : Nat) : Nat → Nat → Net
  | _, 0 => s
  | q, fuel + 1 =>
    if q = p then s
    else if topI s q ≤ 0 then unhideGo s p (downN s q) fuel
    else unhideGo (vrelink s q) p (q - 1) fuel

/-- `Network.unhide(p)`, with fuel bounded by the arena size. -/
def unhide (s : Net) (p : Nat) : Net := unhideGo s p (p - 1) (s.up.length + 1)

/-- The vertical loop of `Network.cover(i)` (lines 140-143): hide every
option in column `i`'s ring, walking `down` from `i`. -/
def coverGo (s : Net) (i : Nat) : Nat → Nat → Net
  | _, 0 => s
  | p, fuel + 1 =>
    if p = i then s
    else
      let s' := hide s p
      coverGo s' i (downN s' p) fuel

/-- `Network.cover(i)` (lines 138-149): hide all options of column `i`, then
unlink `i` from the horizontal ring. -/
def cover (s : Net) (i : Nat) : Net :=
  let s1 := coverGo s i (downN s i) (s.up.length + 1)
  let l := leftN s1 i
  let r := rightN s1 i
  let s2 : Net := { s1 with right := s1.right.set l r }
  { s2 with left := s2.left.set r l }

/-- The vertical loop of `Network.uncover(i)`: unhide every option in column
`i`'s ring, walking `up` from `i`. -/
def uncoverGo (s : Net) (i : Nat) : Nat → Nat → Net
  | _, 0 => s
  | p, fuel + 1 =>
    if p = i then s
    else
      let s' := unhide s p
      uncoverGo s' i (upN s' p) fuel

/-- `Network.uncover(i)` (lines 151-162): relink `i` into the horizontal
ring, then unhide all options of column `i`. -/
def uncover (s : Net) (i : Nat) : Net :=
  let l := leftN s i
  let r := rightN s i
  let s1 : Net := { s with right := s.right.set l i }
  let s2 : Net := { s1 with left := s1.left.set r i }
  uncoverGo s2 i (upN s2 i) (s2.up.length + 1)

/-! ### The colour variant `NetworkColour` (network.py lines 319-434) -/

/-- The arena of `NetworkColour`: the plain arena plus the `self.colour`
list (`None` on the header slots, an integer on every other node). -/
structure NetC extends Net where
  colour : List (Option Int)
deriving Repr, DecidableEq

/-- Read `self.colour[i]` where the code uses it as an integer (option nodes
and spacers; header slots hold `None` and are only ever written). -/
def colourI (s : NetC) (i : Nat) : Int := (s.colour.getD i none).getD 0

/-- Insert a value into an ascending list (helper for `colourValues`). -/
def insAsc (v : Int) : List Int → List Int
  | [] => [v]
  | x :: xs => if v ≤ x then v :: x :: xs else x :: insAsc v xs

/-- Sort a list of integers ascending (helper for `colourValues`). -/
def sortAsc (l : List Int) : List Int := l.foldr insAsc []

/-- The distinct colour values of the secondary entries, minus `{0, 1}`.
The source collects them in a Python `set` and enumerates it; for the small
positive matrix values used throughout this library, CPython's set order is
ascending value order, which is what we embed. -/
def colourValues (matrix : XMatrix) (primary : Nat) : List Int :=
  sortAsc
    (((matrix.map (fun row => row.drop primary)).flatten.filter
        (fun v => v ≠ 0 ∧ v ≠ 1)).foldl
      (fun acc v => if acc.contains v then acc else acc ++ [v]) [])

/-- `self.colour_map.get(val, 0)`: the dense 1-based id of a colour value,
or `0` when the value is not in the map (in particular for `val = 1`). -/
def colourMapGet (colours : List Int) (v : Int) : Int :=
  match colours.indexOf? v with
  | some idx => (idx : Int) + 1
  | none => 0

/-- The colour entries contributed by one row (lines 348-358): one entry per
nonzero value (0 for primary columns, the mapped colour for secondary ones)
followed by the `0` entry for the row's trailing spacer. -/
def colourRow (colours : List Int) (primary : Nat) (row : List Int) : List (Option Int) :=
  go row 0 ++ [some 0]
where
  go : List Int → Nat → List (Option Int)
    | [], _ => []
    | v :: rest, index =>
      if v ≠ 0 then
        (some (if index < primary then 0 else colourMapGet colours v)) :: go rest (index + 1)
      else go rest (index + 1)

/-- `NetworkColour.__init__` (lines 321-358): run the plain build, splice the
first spacer into a horizontal ring with the secondary headers (the
`left.insert` / `right += 1` block), and construct the colour list.  An
omitted `primary` would make `primary + 1` a `TypeError` in Python, so it is
an error here. -/
def networkColourInit (matrix : XMatrix) (names : List String)
    (primary? : Option Int) : Except String NetC :=
  match networkInit matrix names primary? with
  | .error e => .error e
  | .ok s =>
    match primary? with
    | none => .error "TypeError: unsupported operand type(s) for +"
    | some pI =>
      let primary := pI.toNat
      let width := (matrix.headD []).length
      let spacer := width + 1
      let left' := s.left.take (primary + 1) ++ [spacer] ++ s.left.drop (primary + 1)
      let right' :=
        ((List.range' (primary + 1) (spacer - (primary + 1))).foldl
          (fun l idx => l.set idx (l.getD idx 0 + 1)) s.right) ++ [primary + 1]
      let colours := colourValues matrix primary
      let colour :=
        (List.replicate s.name.length none ++ [some 0]) ++
          (matrix.map (colourRow colours primary)).flatten
      .ok { s with left := left', right := right', colour := colour }

/-- One unlink step of `NetworkColour.hide` — identical to the plain one but
on the colour arena. -/
def vunlinkC (s : NetC) (q : Nat) : NetC :=
  let x := topI s.toNet q
  let u := upN s.toNet q
  let d := downN s.toNet q
  let s1 : NetC := { s with down := s.down.set u (some d) }
  let s2 : NetC := { s1 with up := s1.up.set d (some u) }
  { s2 with top := s2.top.set x.toNat (topI s2.toNet x.toNat - 1) }

/-- One relink step of `NetworkColour.unhide`. -/
def vrelinkC (s : NetC) (q : Nat) : NetC :=
  let x := topI s.toNet q
  let u := upN s.toNet q
  let d := downN s.toNet q
  let s1 : NetC := { s with down := s.down.set u (some q) }
  let s2 : NetC := { s1 with up := s1.up.set d (some q) }
  { s2 with top := s2.top.set x.toNat (topI s2.toNet x.toNat + 1) }

/-- The loop of `NetworkColour.hide(p)` (lines 360-375): as the plain hide,
but a node with `colour < 0` is skipped (left linked, size untouched). -/
def hideCGo (s : NetC) (p : Nat) : Nat → Nat → NetC
  | _, 0 => s
  | q, fuel + 1 =>
    if q = p then s
    else if topI s.toNet q ≤ 0 then hideCGo s p (upN s.toNet q) fuel
    else if colourI s q ≥ 0 then hideCGo (vunlinkC s q) p (q + 1) fuel
    else hideCGo s p (q + 1) fuel

/-- `NetworkColour.hide(p)`. -/
def hideC (s : NetC) (p : Nat) : NetC := hideCGo s p (p + 1) (s.up.length + 1)

/-- The loop of `NetworkColour.unhide(p)` (lines 377-391). -/
def unhideCGo (s : NetC) (p : Nat) : Nat → Nat → NetC
  | _, 0 => s
  | q, fuel + 1 =>
    if q = p then s
    else if topI s.toNet q ≤ 0 then unhideCGo s p (downN s.toNet q) fuel
    else if colourI s q ≥ 0 then unhideCGo (vrelinkC s q) p (q - 1) fuel
    else unhideCGo s p (q - 1) fuel

/-- `NetworkColour.unhide(p)`. -/
def unhideC (s : NetC) (p : Nat) : NetC := unhideCGo s p (p - 1) (s.up.length + 1)

/-- The vertical loop of the inherited `cover` on a colour network: `hide`
dispatches to `NetworkColour.hide`. -/
def coverCGo (s : NetC) (i : Nat) : Nat → Nat → NetC
  | _, 0 => s
  | p, fuel + 1 =>
    if p = i then s
    else
      let s' := hideC s p
      coverCGo s' i (downN s'.toNet p) fuel

/-- `cover(i)` as executed by a `NetworkColour` (inherited body, overridden
`hide`). -/
def coverC (s : NetC) (i : Nat) : NetC :=
  let s1 := coverCGo s i (downN s.toNet i) (s.up.length + 1)
  let l := leftN s1.toNet i
  let r := rightN s1.toNet i
  let s2 : NetC := { s1 with right := s1.right.set l r }
  { s2 with left := s2.left.set r l }

/-- The vertical loop of the inherited `uncover` on a colour network. -/
def uncoverCGo (s : NetC) (i : Nat) : Nat → Nat → NetC
  | _, 0 => s
  | p, fuel + 1 =>
    if p = i then s
    else
      let s' := unhideC s p
      uncoverCGo s' i (upN s'.toNet p) fuel

/-- `uncover(i)` as executed by a `NetworkColour`. -/
def uncoverC (s : NetC) (i : Nat) : NetC :=
  let l := leftN s.toNet i
  let r := rightN s.toNet i
  let s1 : NetC := { s with right := s.right.set l i }
  let s2 : NetC := { s1 with left := s1.left.set r i }
  uncoverCGo s2 i (upN s2.toNet i) (s2.up.length + 1)

/-- The loop of `NetworkColour.purify(p)` (lines 409-421), after the header
slot write: walk column `i` downward; a node of the committed colour is
marked `-1`, any other node is hidden. -/
def purifyGo (s : NetC) (c : Int) (i : Nat) : Nat → Nat → NetC
  | _, 0 => s
  | q, fuel + 1 =>
    if q = i then s
    else if colourI s q = c then
      let s' : NetC := { s with colour := s.colour.set q (some (-1)) }
      purifyGo s' c i (downN s'.toNet q) fuel
    else
      let s' := hideC s q
      purifyGo s' c i (downN s'.toNet q) fuel

/-- `NetworkColour.purify(p)`: record the colour on the header slot, then
sweep the column. -/
def purify (s : NetC) (p : Nat) : NetC :=
  let c := colourI s p
  let i := (topI s.toNet p).toNat
  let s1 : NetC := { s with colour := s.colour.set i (some c) }
  purifyGo s1 c i (downN s1.toNet i) (s1.up.length + 1)

/-- The loop of `NetworkColour.unpurify(p)` (lines 423-434): walk column `i`
upward; a node with negative colour gets colour `c` back, any other node is
unhidden.  (Note the header slot is *not* reset.) -/
def unpurifyGo (s : NetC) (c : Int) (i : Nat) : Nat → Nat → NetC
  | _, 0 => s
  | q, fuel + 1 =>
    if q = i then s
    else if colourI s q < 0 then
      let s' : NetC := { s with colour := s.colour.set q (some c) }
      unpurifyGo s' c i (upN s'.toNet q) fuel
    else
      let s' := unhideC s q
      unpurifyGo s' c i (upN s'.toNet q) fuel

/-- `NetworkColour.unpurify(p)`. -/
def unpurify (s : NetC) (p : Nat) : NetC :=
  let c := colourI s p
  let i := (topI s.toNet p).toNat
  unpurifyGo s c i (upN s.toNet i) (s.up.length + 1)

/-- `NetworkColour.commit(p, j)` (lines 393-399): dispatch on `colour[p]`. -/
def commitC (s : NetC) (p j : Nat) : NetC :=
  let c := colourI s p
  if c = 0 then coverC s j
  else if c > 0 then purify s p
  else s

/-- `NetworkColour.uncommit(p, j)` (lines 401-407): dispatch on `colour[p]`. -/
def uncommitC (s : NetC) (p j : Nat) : NetC :=
  let c := colourI s p
  if c = 0 then uncoverC s j
  else if c > 0 then unpurify s p
  else s

/-! ### The search driver `Network.search` (network.py lines 195-308)

The generator is embedded as a fuel-indexed function returning the list of
yield snapshots, the final contents of the shared `sol` list, and the final
arena.  The `sol` argument models the *single* Python list object that the
generator mutates in place and yields at every `yield sol`: an append is
`sol ++ [x]`, the `sol[-1] = x` assignment replaces the last entry, and
`del sol[-1]` drops it.  `choose` is the `choose` parameter of `search`
(its shipped default, `utility.mrv`, reads `.size` off `Network.right` —
a plain Python list — and so cannot run on this arena; the theorems that
execute `search` therefore pass a chooser explicitly, as the signature
allows).  `interval` is `None`, so the progress-printing block is dead code
and the `choices`/`branches` bookkeeping (popped in step X8 exactly like
`sol`) does not influence yields or the arena and is not tracked here. -/

/-- The step-X5 loop "cover the items ≠ i of the option containing x":
walk `p` from `x+1` with spacer bounce via `up`, calling `commit(p, j)` —
which for the plain `Network` is `cover(j)` — on every non-spacer node. -/
def commitRowGo (s : Net) (x : Nat) : Nat → Nat → Net
  | _, 0 => s
  | p, fuel + 1 =>
    if p = x then s
    else
      let j := topI s p
      if j ≤ 0 then commitRowGo s x (upN s p) fuel
      else commitRowGo (cover s j.toNat) x (p + 1) fuel

/-- The step-X6 loop: the reverse walk from `x-1` with spacer bounce via
`down`, calling `uncommit(p, j)` — for the plain `Network`, `uncover(j)`. -/
def uncommitRowGo (s : Net) (x : Nat) : Nat → Nat → Net
  | _, 0 => s
  | p, fuel + 1 =>
    if p = x then s
    else
      let j := topI s p
      if j ≤ 0 then uncommitRowGo s x (downN s p) fuel
      else uncommitRowGo (uncover s j.toNat) x (p - 1) fuel

mutual
/-- `Network.search` at one level: either yield (horizontal ring empty) or
choose, cover, and run the X5 loop, finishing with step X7/X8. -/
def searchF (ch : Net → Nat) : Nat → Net → List Nat →
    Option (List (List Nat) × List Nat × Net)
  | 0, _, _ => none
  | fuel + 1, s, sol =>
    if rightN s 0 = 0 then some ([sol], sol, s)
    else
      let i := ch s
      let s1 := cover s i
      let x := downN s1 i
      let sol1 := sol ++ [x]
      match tryF ch fuel i x s1 sol1 with
      | none => none
      | some (ys, sol2, s2) =>
        let s3 := uncover s2 i
        some (ys, sol2.dropLast, s3)

/-- The `while x != i` loop of `Network.search` (steps X5/X6): commit the
row of `x`, recurse, uncommit it, advance `x = down[x]` and overwrite
`sol[-1]`. -/
def tryF (ch : Net → Nat) : Nat → Nat → Nat → Net → List Nat →
    Option (List (List Nat) × List Nat × Net)
  | 0, _, _, _, _ => none
  | fuel + 1, i, x, s, sol =>
    if x = i then some ([], sol, s)
    else
      let s1 := commitRowGo s x (x + 1) (s.up.length + 1)
      match searchF ch fuel s1 sol with
      | none => none
      | some (ys1, sol1, s2) =>
        let s3 := uncommitRowGo s2 x (x - 1) (s2.up.length + 1)
        let x' := downN s3 x
        let sol2 := sol1.set (sol1.length - 1) x'
        match tryF ch fuel i x' s3 sol2 with
        | none => none
        | some (ys2, sol3, s4) => some (ys1 ++ ys2, sol3, s4)
end

/-- The step-X5 loop as executed by a `NetworkColour`: `commit` dispatches
through `NetworkColour.commit`. -/
def commitRowCGo (s : NetC) (x : Nat) : Nat → Nat → NetC
  | _, 0 => s
  | p, fuel + 1 =>
    if p = x then s
    else
      let j := topI s.toNet p
      if j ≤ 0 then commitRowCGo s x (upN s.toNet p) fuel
      else commitRowCGo (commitC s p j.toNat) x (p + 1) fuel

/-- The step-X6 loop as executed by a `NetworkColour`. -/
def uncommitRowCGo (s : NetC) (x : Nat) : Nat → Nat → NetC
  | _, 0 => s
  | p, fuel + 1 =>
    if p = x then s
    else
      let j := topI s.toNet p
      if j ≤ 0 then uncommitRowCGo s x (downN s.toNet p) fuel
      else uncommitRowCGo (uncommitC s p j.toNat) x (p - 1) fuel

mutual
/-- `Network.search` as inherited by `NetworkColour` (same body, overridden
`cover`/`hide`/`commit`/`uncommit`). -/
def searchCF (ch : NetC → Nat) : Nat → NetC → List Nat →
    Option (List (List Nat) × List Nat × NetC)
  | 0, _, _ => none
  | fuel + 1, s, sol =>
    if rightN s.toNet 0 = 0 then some ([sol], sol, s)
    else
      let i := ch s
      let s1 := coverC s i
      let x := downN s1.toNet i
      let sol1 := sol ++ [x]
      match tryCF ch fuel i x s1 sol1 with
      | none => none
      | some (ys, sol2, s2) =>
        let s3 := uncoverC s2 i
        some (ys, sol2.dropLast, s3)

/-- The `while x != i` loop of the colour search. -/
def tryCF (ch : NetC → Nat) : Nat → Nat → Nat → NetC → List Nat →
    Option (List (List Nat) × List Nat × NetC)
  | 0, _, _, _, _ => none
  | fuel + 1, i, x, s, sol =>
    if x = i then some ([], sol, s)
    else
      let s1 := commitRowCGo s x (x + 1) (s.up.length + 1)
      match searchCF ch fuel s1 sol with
      | none => none
      | some (ys1, sol1, s2) =>
        let s3 := uncommitRowCGo s2 x (x - 1) (s2.up.length + 1)
        let x' := downN s3.toNet x
        let sol2 := sol1.set (sol1.length - 1) x'
        match tryCF ch fuel i x' s3 sol2 with
        | none => none
        | some (ys2, sol3, s4) => some (ys1 ++ ys2, sol3, s4)
end

/-! ### A working chooser

The `choose` parameter of `search` expects a function from the network to an
item id.  The shipped default (`utility.mrv`) is written against the
object-based arena of `link.py` and fails on the list-based `Network`
(`Network.right` is a plain list, which has no `.size`); the concrete
theorems below therefore pass this minimum-remaining-values chooser, the
behaviour section 4.4 of the specification describes, as an explicit
argument. -/

/-- Collect the horizontal ring: follow `right` from the root until the walk
returns to the root. -/
def ringWalkGo (s : Net) : Nat → Nat → List Nat
  | _, 0 => []
  | j, fuel + 1 => if j = 0 then [] else j :: ringWalkGo s (rightN s j) fuel

/-- The item ids on the root's horizontal ring, in ring order. -/
def ringWalk (s : Net) : List Nat := ringWalkGo s (rightN s 0) (s.right.length + 1)

/-- The first element of `l` minimising `f` (ties keep the earlier one). -/
def firstMinBy (l : List Nat) (f : Nat → Int) : Nat :=
  match l with
  | [] => 0
  | x :: xs => xs.foldl (fun b y => if f y < f b then y else b) x

/-- Minimum-remaining-values chooser on the list-based arena: the first item
in ring order whose size (`len[i]`) is smallest. -/
def chooseMin (s : Net) : Nat := firstMinBy (ringWalk s) (topI s)

/-- The same chooser for the colour arena. -/
def chooseMinC (s : NetC) : Nat := chooseMin s.toNet

/-! ### Progress accounting (`utility.progress`, utility.py lines 129-143) -/

/-- `progress(choices, branches)`: start from `0.5` and, for each pair of
`zip(choices[::-1], branches[::-1])`, run `retval += c - 1; retval /= l`.
Modelled over `ℚ`; on the inputs the claims mention every intermediate
float is exactly representable, so the rational value is the float value. -/
def progress (choices branches : List Int) : ℚ :=
  (choices.reverse.zip branches.reverse).foldl
    (fun retval p => (retval + (p.1 : ℚ) - 1) / (p.2 : ℚ)) (1 / 2)

/-- The fold the specification describes (section 4.5): `p = 0.5; for (c, b)
in zip(reverse(choices), reverse(branches)): p = (p + c − 1) / b`, written
as a bare recursion over the two reversed vectors. -/
def specProgressGo : ℚ → List Int → List Int → ℚ
  | p, c :: cs, b :: bs => specProgressGo ((p + (c : ℚ) - 1) / (b : ℚ)) cs bs
  | p, _, _ => p

/-- The specification's progress estimate. -/
def specProgress (choices branches : List Int) : ℚ :=
  specProgressGo (1 / 2) choices.reverse branches.reverse

/-- A `foldl` over a `zip` is the simultaneous recursion. -/
theorem foldl_zip_eq_specProgressGo (cs bs : List Int) (acc : ℚ) :
    (cs.zip bs).foldl (fun retval p => (retval + (p.1 : ℚ) - 1) / (p.2 : ℚ)) acc =
      specProgressGo acc cs bs := by
  induction cs generalizing bs acc with
  | nil => cases bs <;> rfl
  | cons c cs ih =>
    cases bs with
    | nil => rfl
    | cons b bs =>
      simp only [List.zip_cons_cons, List.foldl_cons, specProgressGo]
      exact ih bs _

/-- Claim C9: for equal-length integer vectors `choices` and `branches` with
positive branch counts, `progress` equals the spec's fold over the reversed
vectors, and `progress([1,3], [2,4])` is exactly `0.3125 = 5/16`. -/
theorem progress_eq_spec_fold (choices branches : List Int)
    (_hlen : choices.length = branches.length)
    (_hpos : ∀ b ∈ branches, 0 < b) :
    progress choices branches = specProgress choices branches ∧
      progress [1, 3] [2, 4] = 5 / 16 := by
  refine ⟨?_, ?_⟩
  · unfold progress specProgress
    exact foldl_zip_eq_specProgressGo _ _ _
  · show ((1 / 2 + ((3 : ℤ) : ℚ) - 1) / ((4 : ℤ) : ℚ) + ((1 : ℤ) : ℚ) - 1) /
        ((2 : ℤ) : ℚ) = 5 / 16
    norm_num

/-- Witness for C9 at `choices = [1,3]`, `branches = [2,4]`. -/
theorem progress_eq_spec_fold_witness :
    progress [1, 3] [2, 4] = specProgress [1, 3] [2, 4] ∧
      progress [1, 3] [2, 4] = 5 / 16 :=
  progress_eq_spec_fold [1, 3] [2, 4] (by decide)
    (by intro b hb; fin_cases hb <;> norm_num)

set_option maxRecDepth 100000
set_option maxHeartbeats 3200000

/-! ### The concrete networks the specification's scenarios use -/

/-- Knuth's 7-item example (specification section 8, scenario 2). -/
def knuth7 : XMatrix :=
  [[0, 0, 1, 0, 1, 1, 0],
   [1, 0, 0, 1, 0, 0, 1],
   [0, 1, 1, 0, 0, 1, 0],
   [1, 0, 0, 1, 0, 0, 0],
   [0, 1, 0, 0, 0, 0, 1],
   [0, 0, 0, 1, 1, 0, 1]]

/-- The `Network` built from the 7-item example. -/
def knuth7Net : Net := buildArena knuth7 ["A", "B", "C", "D", "E", "F", "G"] 7

/-- The no-solution example `[[0,1],[0,0]]` (scenario 1), built with default
arguments (`primary = width`). -/
def noSolNet : Net := buildArena [[0, 1], [0, 0]] [] 2

/-- The XCC colour example (scenario 4 and `test_network.py`): five items
`p q r x y`, `primary = 3`. -/
def xccMatrix : XMatrix :=
  [[1, 1, 0, 1, 2],
   [1, 0, 1, 2, 1],
   [1, 0, 0, 3, 0],
   [0, 1, 0, 2, 0],
   [0, 0, 1, 0, 3]]

/-- The `NetworkColour` built from the XCC example. -/
def xccNet : NetC :=
  match networkColourInit xccMatrix ["p", "q", "r", "x", "y"] (some 3) with
  | .ok s => s
  | .error _ => ⟨Net.empty, []⟩

/-! ### Row recovery (specification section 6): walk ids forward to the
spacer, then jump to the spacer's `up` link and read the row's columns. -/

/-- Walk forward from a node to the first spacer at or after it. -/
def rowScanGo (s : Net) : Nat → Nat → Nat
  | n, 0 => n
  | n, fuel + 1 => if topI s n ≤ 0 then n else rowScanGo s (n + 1) fuel

/-- The first node of the option row containing `node`. -/
def rowFirst (s : Net) (node : Nat) : Nat :=
  upN s (rowScanGo s node (s.up.length + 1))

/-- The column ids of a row, reading forward from its first node. -/
def rowColsGo (s : Net) : Nat → Nat → List Nat
  | _, 0 => []
  | n, fuel + 1 =>
    if topI s n ≤ 0 then [] else (topI s n).toNat :: rowColsGo s (n + 1) fuel

/-- The column ids covered by the option row containing `node`. -/
def rowColumnsOf (s : Net) (node : Nat) : List Nat :=
  rowColsGo s (rowFirst s node) (s.up.length + 1)

/-! ### Claims C1, C4, C6 — the search driver

`Network.search` defaults its `choose` parameter to `utility.mrv`, which is
written against the object arena of `link.py`: it evaluates
`root.right.size`.  On a `Network`, `self.right` is a plain Python list, so
the very first call `choose(self)` raises
`AttributeError: 'list' object has no attribute 'size'` —搜索 can
therefore never emit a solution for any network whose horizontal ring is
non-empty.  The theorems below document the two halves of that verdict:
the freshly built networks all have `right[0] ≠ 0`, so level 0 always
reaches step X3 and calls the chooser; and with a well-typed
minimum-remaining-values chooser substituted for the broken default, the
emitted vectors do satisfy the specification's solution property. -/

/-- Claim C1 (supporting theorem for the `mrv` code bug): the 7-item network
has `right[0] = 1 ≠ 0`, so `search` invokes its default chooser (which
raises); with an explicit MRV chooser the search emits exactly the vector
`[21, 10, 24]`, restores the arena, and the decoded rows cover each of the
seven primary items exactly once. -/
theorem search_emits_exact_cover :
    rightN knuth7Net 0 = 1 ∧
    searchF chooseMin 200 knuth7Net [] = some ([[21, 10, 24]], [], knuth7Net) ∧
    (([21, 10, 24].map (rowColumnsOf knuth7Net)).flatten.length = 7 ∧
      (List.range' 1 7).all
        (fun c => ([21, 10, 24].map (rowColumnsOf knuth7Net)).flatten.count c = 1)) := by
  refine ⟨by decide!, by decide!, by decide!⟩

/-- Claim C6 (supporting theorem for the `mrv` code bug): the network built
from `[[0,1],[0,0]]` with default arguments has `right[0] = 1 ≠ 0`, so
`search` must call its (ill-typed) default chooser; with a working MRV
chooser substituted, the search yields nothing and restores the arena —
the behaviour the claim expects of the shipped default. -/
theorem search_no_solution_empty :
    (networkInit [[0, 1], [0, 0]] [] none).toOption = some noSolNet ∧
    rightN noSolNet 0 = 1 ∧
    searchF chooseMin 50 noSolNet [] = some ([], [], noSolNet) := by
  refine ⟨by decide!, by decide!, by decide!⟩

/-- Claim C4 (supporting theorem): fully consuming the colour search on the
XCC example (with a working chooser) emits `[20, 12]` and restores every
link, size and option-node colour — but the header colour slots of items
`x` (id 4) and `y` (id 5) end at the committed colour `1` instead of their
post-build value `None`, so the arena does *not* equal its post-build state
field-for-field. -/
theorem search_colour_not_restored :
    (networkColourInit xccMatrix ["p", "q", "r", "x", "y"] (some 3)).toOption = some xccNet ∧
    (searchCF chooseMinC 300 xccNet []).map (fun r => r.1) = some [[20, 12]] ∧
    (searchCF chooseMinC 300 xccNet []).map (fun r => r.2.2.toNet) = some xccNet.toNet ∧
    (searchCF chooseMinC 300 xccNet []).map
        (fun r => (r.2.2.colour.getD 4 none, r.2.2.colour.getD 5 none)) =
      some (some 1, some 1) ∧
    xccNet.colour.getD 4 none = none ∧ xccNet.colour.getD 5 none = none ∧
    (searchCF chooseMinC 300 xccNet []).map (fun r => r.2.2) ≠ some xccNet := by
  refine ⟨by decide!, by decide!, by decide!, by decide!, by decide!, by decide!, by decide!⟩

/-! ### Claim C2 — commit/uncommit on a fresh colour network -/

/-- Claim C2, counterexample: in the freshly built XCC network, node 10 is
an option node with colour `1 > 0`; `commit(10, 5)` dispatches to
`purify(10)`, which marks node 10 itself with colour `−1` (there is no
`q ≠ p` guard) and writes the committed colour into header 5's colour slot;
the immediately following `uncommit(10, 5)` then matches neither dispatch
branch and restores nothing, so the arena differs from the pre-commit
state. -/
theorem commit_uncommit_not_inverse :
    colourI xccNet 10 = 1 ∧
    colourI (commitC xccNet 10 5) 10 = -1 ∧
    (commitC xccNet 10 5).colour.getD 5 none = some 1 ∧
    uncommitC (commitC xccNet 10 5) 10 5 = commitC xccNet 10 5 ∧
    uncommitC (commitC xccNet 10 5) 10 5 ≠ xccNet := by
  refine ⟨by decide!, by decide!, by decide!, by decide!, by decide!⟩

/-- Claim C2 as amended: when `commit(p, j)` leaves node `p` with a negative
colour — which is what `purify` does to `p` itself whenever `p` is still
linked in its column's ring, as in a freshly built network — the immediately
following `uncommit(p, j)` takes neither the `c == 0` nor the `c > 0`
branch and leaves every field exactly as `commit` left it, so the
pre-commit state (node `p`'s colour, the header's colour slot, the hidden
siblings) is *not* restored. -/
theorem uncommit_after_commit_noop (s : NetC) (p j : Nat)
    (h : colourI (commitC s p j) p < 0) :
    uncommitC (commitC s p j) p j = commitC s p j := by
  unfold uncommitC
  rw [if_neg (by omega), if_neg (by omega)]

/-- Witness for the amended C2 at the XCC example, `p = 10`, `j = 5`. -/
theorem uncommit_after_commit_noop_witness :
    colourI (commitC xccNet 10 5) 10 < 0 ∧
      uncommitC (commitC xccNet 10 5) 10 5 = commitC xccNet 10 5 :=
  ⟨by decide!, uncommit_after_commit_noop xccNet 10 5 (by decide!)⟩

/-! ### Claim C7 — spacer fields, counterexample with an all-zero row -/

/-- The network built (with default arguments) from `[[1],[0],[1]]`, whose
middle row is all-zero. -/
def zeroRowNet : Net := buildArena [[1], [0], [1]] [] 1

/-- Claim C7, counterexample: in the network built from `[[1],[0],[1]]` the
arena is `[root 0, header 1, spacer 2, node 3, spacer 4, spacer 5, node 6,
spacer 7]` — row 1 (all-zero) contributes no option nodes, which the
adjacent spacer ids 4 and 5 exhibit.  The claim requires `down[4]` to be
the id of the last option node of row 1 and `up[5]` the id of the first
option node of row 1; instead `down[4] = 3` (a node of row 0, the stale
`link` value) and `up[5] = None` although spacer 5 is not the first
spacer. -/
theorem spacer_fields_zero_row :
    (networkInit [[1], [0], [1]] [] none).toOption = some zeroRowNet ∧
    zeroRowNet.up.length = 8 ∧
    (topI zeroRowNet 2 ≤ 0 ∧ topI zeroRowNet 4 ≤ 0 ∧
      topI zeroRowNet 5 ≤ 0 ∧ topI zeroRowNet 7 ≤ 0) ∧
    (topI zeroRowNet 3 = 1 ∧ topI zeroRowNet 6 = 1) ∧
    downO zeroRowNet 4 = some 3 ∧
    upO zeroRowNet 5 = none := by
  refine ⟨by decide!, by decide!, by decide!, by decide!, by decide!, by decide!⟩

/-! ### Claim C5 — build-time validation of `Network.__init__` -/

/-- Claim C5, counterexample: the matrix `[[1]]` is well-formed (one row,
one column, `W = 1`) and the explicit `primary = 1` lies inside `[0, W]`,
so the claim requires construction to succeed; but the check is
`not 0 < primary < width`, which rejects `primary = width`. -/
theorem networkInit_rejects_primary_eq_width :
    networkInit [[1]] [] (some 1) =
      .error "ValueError: Require 0 < primary < width." := rfl

/-- Claim C5 as amended: `Network.__init__` validates only the `primary`
argument.  On a nonempty rectangular matrix (the regime on which the
embedding and the Python code agree index-for-index), construction with an
explicit `primary` raises `ValueError` exactly when `primary` is outside
the *open* interval `(0, W)` — so `primary = 0` and `primary = W` are
rejected too — and construction with `primary` omitted always succeeds
(ragged or otherwise malformed rows are not themselves checked); the empty
matrix fails at `matrix[0]` with an uncontrolled `IndexError`. -/
theorem networkInit_ok_iff (r0 : List Int) (rows : XMatrix) (names : List String)
    (p : Int) (p? : Option Int)
    (_hrect : ∀ row ∈ rows, row.length = r0.length) :
    (networkInit (r0 :: rows) names none).isOk = true ∧
    ((networkInit (r0 :: rows) names (some p)).isOk = true ↔
      0 < p ∧ p < (r0.length : Int)) ∧
    (networkInit [] names p?).isOk = false := by
  refine ⟨rfl, ?_, rfl⟩
  by_cases h : 0 < p ∧ p < (r0.length : Int)
  · simp [networkInit, h, Except.isOk, Except.toBool]
  · simp [networkInit, h, Except.isOk, Except.toBool]

/-- Witness for the amended C5 at the 2-column matrix `[[1,0],[0,1]]` with
`primary = 1`. -/
theorem networkInit_ok_iff_witness :
    ((networkInit [[1, 0], [0, 1]] [] none).isOk = true ∧
      ((networkInit [[1, 0], [0, 1]] [] (some 1)).isOk = true ↔
        0 < (1 : Int) ∧ (1 : Int) < ((2 : Nat) : Int)) ∧
      (networkInit [] [] (some 1)).isOk = false) ∧
    (networkInit [[1, 0], [0, 1]] [] (some 1)).isOk = true := by
  refine ⟨networkInit_ok_iff [1, 0] [[0, 1]] [] 1 (some 1) (by decide), by decide!⟩

/-! ### Claim C10 — the shared mutable solution list

`Network.search` yields the *same* Python list object `sol` at every
`yield sol`: recursive calls receive the object by reference, candidate
moves overwrite `sol[-1]` in place, and backtracking pops it.  In the
embedding that one object is the threaded `sol` component; the yield
snapshots record what a caller would see if it copied the list at each
yield, while the final `sol` component is the contents of the object
itself once the generator is exhausted.  A caller that stores the yielded
object without copying therefore observes, for *every* yield, the final
contents — which the theorem shows to be the initial (empty) list. -/

/-- Replacing the last element of `pre ++ [a]` gives `pre ++ [b]`
(the `sol[-1] = x` assignment). -/
theorem set_last_append (pre : List Nat) (a b : Nat) :
    (pre ++ [a]).set pre.length b = pre ++ [b] := by
  induction pre with
  | nil => rfl
  | cons x xs ih => simp [List.set, ih]

/-- The stack discipline of `sol` in `search`: every `sol.append` is
matched by the `del sol[-1]` of step X8, and the X5 loop only ever
overwrites the last entry; so a completed call returns `sol` exactly as it
received it (and the X5 loop returns it with the last entry replaced by
the exhausted item header `i`). -/
theorem searchF_tryF_sol (fuel : Nat) :
    (∀ (ch : Net → Nat) (s : Net) (sol : List Nat) r,
      searchF ch fuel s sol = some r → r.2.1 = sol) ∧
    (∀ (ch : Net → Nat) (i x : Nat) (s : Net) (pre : List Nat) r,
      tryF ch fuel i x s (pre ++ [x]) = some r → r.2.1 = pre ++ [i]) := by
  induction fuel with
  | zero =>
    exact ⟨(fun _ _ _ _ h => nomatch h), (fun _ _ _ _ _ _ h => nomatch h)⟩
  | succ fuel ih =>
    constructor
    · intro ch s sol r h
      rw [searchF] at h
      by_cases hr : rightN s 0 = 0
      · rw [if_pos hr] at h
        cases h
        rfl
      · rw [if_neg hr] at h
        dsimp only at h
        split at h
        · cases h
        · rename_i ys sol2 s2 htry
          cases h
          have h2 := ih.2 ch (ch s) (downN (cover s (ch s)) (ch s)) (cover s (ch s))
            sol (ys, sol2, s2) htry
          simpa using congrArg List.dropLast h2
    · intro ch i x s pre r h
      rw [tryF] at h
      by_cases hxi : x = i
      · rw [if_pos hxi] at h
        cases h
        rw [hxi]
      · rw [if_neg hxi] at h
        dsimp only at h
        split at h
        · cases h
        · rename_i ys1 sol1 s2 hsr
          have h1 := ih.1 ch (commitRowGo s x (x + 1) (s.up.length + 1))
            (pre ++ [x]) (ys1, sol1, s2) hsr
          dsimp only at h1
          subst h1
          have hset : (pre ++ [x]).set ((pre ++ [x]).length - 1)
              (downN (uncommitRowGo s2 x (x - 1) (s2.up.length + 1)) x) =
              pre ++ [downN (uncommitRowGo s2 x (x - 1) (s2.up.length + 1)) x] := by
            simp only [List.length_append, List.length_cons, List.length_nil,
              Nat.add_sub_cancel]
            exact set_last_append pre x _
          rw [hset] at h
          split at h
          · cases h
          · rename_i ys2 sol3 s4 htry
            cases h
            have h2 := ih.2 ch i (downN (uncommitRowGo s2 x (x - 1) (s2.up.length + 1)) x)
              (uncommitRowGo s2 x (x - 1) (s2.up.length + 1)) pre (ys2, sol3, s4) htry
            exact h2

/-- Claim C10: `search` yields the one shared `sol` object at every yield,
overwrites or pops it in place on every resume, and ends with it equal to
the (empty) list it started from; so once the generator is exhausted every
previously yielded solution vector — each being that same object — is
empty, and a caller that materialises the sequence without copying observes
no solution contents. -/
theorem search_sol_empty_after_exhaustion (ch : Net → Nat) (fuel : Nat) (s : Net)
    (ys : List (List Nat)) (sol' : List Nat) (s' : Net)
    (h : searchF ch fuel s [] = some (ys, sol', s')) : sol' = [] :=
  (searchF_tryF_sol fuel).1 ch s [] (ys, sol', s') h

/-- The multiple-solutions example `[[1,0,1],[0,1,0],[1,1,1]]` (scenario 3). -/
def multiNet : Net := buildArena [[1, 0, 1], [0, 1, 0], [1, 1, 1]] ["A", "B", "C"] 3

/-- Witness for C10 on the two-solution example: the generator yields twice
and the shared solution object ends empty. -/
theorem search_sol_empty_after_exhaustion_witness :
    (searchF chooseMin 100 multiNet []).map (fun r => r.2.1) = some [] ∧
    (searchF chooseMin 100 multiNet []).map (fun r => r.1.length) = some 2 := by
  have h : searchF chooseMin 100 multiNet [] = some ([[5, 8], [10]], [], multiNet) := by
    decide!
  refine ⟨?_, by rw [h]; rfl⟩
  rw [h]
  exact congrArg some
    (search_sol_empty_after_exhaustion chooseMin 100 multiNet [[5, 8], [10]] [] multiNet h)

/-! ### The object-based arena of `link.py` and `utility.create_network`

`DancingLink` registers every instance in a process-wide list and addresses
neighbours by id arithmetic, so the object graph *is* an arena: the record
below holds one list per attribute.  `name`/`size`/`left`/`right` exist only
on `Column` objects, which are created first and therefore occupy the ids
`0..count`; those lists simply stay shorter than `up`/`down`.  The `colour`
attribute exists on `ColumnColour` (`None`) and `LinkColour` objects; in the
plain variant (`maxval == 1`) the attribute is absent, modelled as `none`. -/

structure DNet where
  name : List String
  left : List Nat
  right : List Nat
  size : List Nat
  up : List (Option Nat)
  down : List (Option Nat)
  column : List (Option Nat)
  colour : List (Option Int)
deriving Repr, DecidableEq

/-- The empty instance registry. -/
def DNet.empty : DNet := ⟨[], [], [], [], [], [], [], []⟩

/-- Read `node.right` (column ids only). -/
def rightD (s : DNet) (i : Nat) : Nat := s.right.getD i 0

/-- Read `node.size` (column ids only). -/
def sizeD (s : DNet) (i : Nat) : Nat := s.size.getD i 0

/-- Read `node.up` as the raw optional value. -/
def upDO (s : DNet) (i : Nat) : Option Nat := s.up.getD i none

/-- Read `node.down` as the raw optional value. -/
def downDO (s : DNet) (i : Nat) : Option Nat := s.down.getD i none

/-- Read `node.up` as an id. -/
def upD (s : DNet) (i : Nat) : Nat := (upDO s i).getD 0

/-- Read `node.down` as an id. -/
def downD (s : DNet) (i : Nat) : Nat := (downDO s i).getD 0

/-- `Column.__init__`: register a column with self-loop links (name defaults
to `str(id)` when falsy; `ColumnColour` additionally has `colour = None`). -/
def dAddColumn (s : DNet) (nm : Option String) : DNet × Nat :=
  let id := s.up.length
  (⟨ s.name ++ [match nm with
      | none => toString id
      | some n => if n = "" then toString id else n],
     s.left ++ [id], s.right ++ [id], s.size ++ [0],
     s.up ++ [some id], s.down ++ [some id],
     s.column ++ [none], s.colour ++ [none] ⟩, id)

/-- `DancingLink._add_down(self = i, node = j)`. -/
def dAddDown (s : DNet) (i j : Nat) : DNet :=
  let s1 : DNet := { s with up := s.up.set j (some i) }
  let s2 : DNet := { s1 with down := s1.down.set j (downDO s1 i) }
  let s3 : DNet := { s2 with up := s2.up.set (downD s2 i) (some j) }
  { s3 with down := s3.down.set i (some j) }

/-- `Column.add_bottom(node = j)` on column `c`. -/
def dAddBottom (s : DNet) (c j : Nat) : DNet :=
  let u := upD s c
  let s1 := dAddDown s u j
  { s1 with size := s1.size.set c (sizeD s1 c + 1) }

/-- `Column.add_right(node = j)` on column `i`. -/
def dAddRight (s : DNet) (i j : Nat) : DNet :=
  let s1 : DNet := { s with left := s.left.set j i }
  let s2 : DNet := { s1 with right := s1.right.set j (rightD s1 i) }
  let s3 : DNet := { s2 with left := s2.left.set (rightD s2 i) j }
  { s3 with right := s3.right.set i j }

/-- `Link.__init__` / `LinkColour.__init__`: register a link; a non-`None`
column means the node is spliced at the column's bottom. -/
def dAddLink (s : DNet) (col : Option Nat) (colr : Option Int) : DNet × Nat :=
  let id := s.up.length
  let s0 : DNet :=
    { s with
      up := s.up ++ [some id]
      down := s.down ++ [some id]
      column := s.column ++ [col]
      colour := s.colour ++ [colr] }
  match col with
  | some c => (dAddBottom s0 c id, id)
  | none => (s0, id)

/-- The header loop of `create_network` (utility.py lines 60-71): one column
per `zip_longest(matrix[0], names, "")` position, splicing those with
`index < primary` into the root's ring.  `primary` is an `Int` because the
resolution arithmetic (`width - secondary`) can go negative. -/
def dAddHeaders (s : DNet) (count : Nat) (primary : Int) (names : List String) : DNet :=
  go s 0 0 count
where
  go (s : DNet) (k leftVar : Nat) : Nat → DNet
    | 0 => s
    | rem + 1 =>
      let p := dAddColumn s (some (names.getD k ""))
      let s2 := if (k : Int) < primary then dAddRight p.1 leftVar p.2 else p.1
      go s2 (k + 1) p.2 rem

/-- One row of the node loop of `create_network` (lines 76-91): emit the
spacer (colour `0` in the colour variant), create one link per nonzero
entry of `zip(row, headers)`, and record the spacer's `down`. -/
def dAddRow (s : DNet) (first link : Option Nat) (row : List Int)
    (headerCount : Nat) (primary : Int) (colourMode : Bool) :
    DNet × Option Nat × Option Nat :=
  let spcol : Option Int := if colourMode then some 0 else none
  let pr := dAddLink s none spcol
  let spacer := pr.2
  let s2 : DNet := { pr.1 with up := pr.1.up.set spacer first }
  let r3 := goRow s2 none link row 0
  (({ r3.1 with down := r3.1.down.set spacer r3.2.2 } : DNet), r3.2.1, r3.2.2)
where
  goRow (s : DNet) (first link : Option Nat) (row : List Int) (index : Nat) :
      DNet × Option Nat × Option Nat :=
    match row with
    | [] => (s, first, link)
    | val :: rest =>
      if index < headerCount then
        if val ≠ 0 then
          let colr : Option Int :=
            if colourMode then
              (if (index : Int) ≥ primary then some (val - 1) else some 0)
            else none
          let pr := dAddLink s (some (index + 1)) colr
          let first' := match first with
            | none => some pr.2
            | some f => some f
          goRow pr.1 first' (some pr.2) rest (index + 1)
        else goRow s first link rest (index + 1)
      else (s, first, link)

/-- The node phase of `create_network` (lines 73-96): all rows, then the
final spacer with `up = first` and `down = None`. -/
def dAddRows (s : DNet) (rows : XMatrix) (headerCount : Nat) (primary : Int)
    (colourMode : Bool) : DNet :=
  go s none none rows
where
  go (s : DNet) (first link : Option Nat) : XMatrix → DNet
    | [] =>
      let spcol : Option Int := if colourMode then some 0 else none
      let pr := dAddLink s none spcol
      let s2 : DNet := { pr.1 with up := pr.1.up.set pr.2 first }
      { s2 with down := s2.down.set pr.2 none }
    | row :: rest =>
      let r := dAddRow s first link row headerCount primary colourMode
      go r.1 r.2.1 r.2.2 rest

/-- The build part of `create_network`, after class selection and
primary/secondary resolution. -/
def dBuild (matrix : XMatrix) (names : List String) (primary : Int)
    (colourMode : Bool) : DNet :=
  let width := (matrix.headD []).length
  let count := max width names.length
  let s1 := (dAddColumn DNet.empty none).1
  let s2 := dAddHeaders s1 count primary names
  dAddRows s2 matrix count primary colourMode

/-- `create_network` (utility.py lines 13-98).  `max(max(_) for _ in
matrix)` raises `ValueError` on an empty matrix or an empty row; the
primary/secondary resolution raises the documented `ValueError`s; then the
network is built (`ColumnColour`/`LinkColour` when any value exceeds 1). -/
def objCreate (matrix : XMatrix) (names : List String)
    (primary? secondary? : Option Int) : Except String DNet :=
  match matrix with
  | [] => .error "ValueError: max() arg is an empty sequence"
  | _ :: _ =>
    if matrix.any (fun row => row.isEmpty) then
      .error "ValueError: max() arg is an empty sequence"
    else
      let maxval := matrix.flatten.foldl max (matrix.flatten.headD 0)
      let width := (matrix.headD []).length
      let build := fun (p : Int) => dBuild matrix names p (maxval ≠ 1)
      match primary?, secondary? with
      | none, none => .ok (build width)
      | none, some sec =>
          if sec < 0 then .error "ValueError: 'secondary' must be non-negative."
          else .ok (build ((width : Int) - sec))
      | some p, none =>
          if p < 0 then .error "ValueError: 'primary' must be non-negative."
          else .ok (build p)
      | some p, some sec =>
          if p ≠ (width : Int) - sec then
            .error "ValueError: 'primary' and 'secondary' must sum to matrix width."
          else .ok (build p)

/-- `utility.mrv` (lines 100-112): scan the horizontal ring from
`root.right`, keeping the first column whose `size` is strictly below the
running minimum (initialised to `root.right.size + 1`). -/
def mrvGo (s : DNet) : Nat → Nat → Nat → Nat → Nat
  | retval, _, _, 0 => retval
  | retval, szAcc, j, fuel + 1 =>
    if j = 0 then retval
    else if sizeD s j < szAcc then mrvGo s j (sizeD s j) (rightD s j) fuel
    else mrvGo s retval szAcc (rightD s j) fuel

/-- `utility.mrv(root)` with the root at id 0. -/
def mrv (s : DNet) : Nat :=
  let j := rightD s 0
  mrvGo s 0 (sizeD s j + 1) j (s.right.length + 1)

/-- The horizontal ring of the object arena, in ring order from the root. -/
def ringWalkDGo (s : DNet) : Nat → Nat → List Nat
  | _, 0 => []
  | j, fuel + 1 => if j = 0 then [] else j :: ringWalkDGo s (rightD s j) fuel

/-- The item ids on the root's horizontal ring, in ring order. -/
def ringWalkD (s : DNet) : List Nat := ringWalkDGo s (rightD s 0) (s.right.length + 1)

/-- The specification's selection rule (section 4.4): the first header in
ring order whose size is minimal among all headers in the ring. -/
def specFirstMin (l : List Nat) (f : Nat → Nat) : Option Nat :=
  l.find? (fun x => l.all (fun y => f x ≤ f y))

/-! ### List access helper lemmas -/

theorem getD_append_lt {α : Type} (l l' : List α) (i : Nat) (d : α)
    (h : i < l.length) : (l ++ l').getD i d = l.getD i d := by
  induction l generalizing i with
  | nil => cases h
  | cons a as ih =>
    cases i with
    | zero => rfl
    | succ i => exact ih i (Nat.lt_of_succ_lt_succ h)

theorem getD_append_len {α : Type} (l : List α) (v : α) (d : α) :
    (l ++ [v]).getD l.length d = v := by
  induction l with
  | nil => rfl
  | cons a as ih => exact ih

theorem getD_set_self {α : Type} (l : List α) (i : Nat) (v d : α)
    (h : i < l.length) : (l.set i v).getD i d = v := by
  induction l generalizing i with
  | nil => cases h
  | cons a as ih =>
    cases i with
    | zero => rfl
    | succ i => exact ih i (Nat.lt_of_succ_lt_succ h)

theorem getD_set_ne {α : Type} (l : List α) (i j : Nat) (v d : α)
    (h : i ≠ j) : (l.set i v).getD j d = l.getD j d := by
  induction l generalizing i j with
  | nil => rfl
  | cons a as ih =>
    cases i with
    | zero => cases j with
      | zero => exact absurd rfl h
      | succ j => rfl
    | succ i => cases j with
      | zero => rfl
      | succ j => exact ih i j fun hij => h (congrArg Nat.succ hij)

/-! ### The horizontal ring of a freshly built object arena -/

/-- The `right` link of node `i` in a ring `0 → 1 → ⋯ → m → 0` with the
remaining headers self-looped. -/
def ringVal (m i : Nat) : Nat :=
  if i < m then i + 1 else if i = m then 0 else i

/-- Walking `right` from a node `j` of the ring enumerates `j, j+1, …, m`. -/
theorem ringWalkDGo_range (s : DNet) (m : Nat)
    (hval : ∀ i, i ≤ m → rightD s i = ringVal m i) :
    ∀ fuel j, 1 ≤ j → j ≤ m → m - j + 2 ≤ fuel →
      ringWalkDGo s j fuel = List.range' j (m - j + 1) := by
  intro fuel
  induction fuel with
  | zero => intro j _ _ hf; omega
  | succ fuel ih =>
    intro j hj1 hjm hf
    rw [ringWalkDGo]
    rw [if_neg (by omega)]
    rcases Nat.lt_or_ge j m with hlt | hge
    · have hr : rightD s j = j + 1 := by rw [hval j hjm, ringVal, if_pos hlt]
      rw [hr, ih (j + 1) (by omega) (by omega) (by omega)]
      have : m - j + 1 = (m - (j + 1) + 1) + 1 := by omega
      rw [this, List.range'_succ j (m - (j + 1) + 1) 1]
    · have hjm' : j = m := by omega
      have hr : rightD s j = 0 := by
        rw [hval j hjm, ringVal, if_neg (by omega), if_pos hjm']
      rw [hr]
      have : m - j + 1 = 1 := by omega
      rw [this]
      cases fuel with
      | zero => omega
      | succ fuel => rw [ringWalkDGo, if_pos rfl, List.range'_one]

/-- One comparison step of the `mrv` scan, as a fold step on the
`(retval, size)` accumulator pair. -/
def mrvStep (s : DNet) (b : Nat × Nat) (y : Nat) : Nat × Nat :=
  if sizeD s y < b.2 then (y, sizeD s y) else b

/-- The running minimum of the scan (accumulator without the cached size). -/
def runMin (f : Nat → Nat) (b : Nat) (xs : List Nat) : Nat :=
  xs.foldl (fun acc y => if f y < f acc then y else acc) b

/-- The `mrv` while-loop equals the fold of `mrvStep` over the ring
interval it scans. -/
theorem mrvGo_fold (s : DNet) (m : Nat)
    (hval : ∀ i, i ≤ m → rightD s i = ringVal m i) :
    ∀ fuel j retval szAcc, 1 ≤ j → j ≤ m → m - j + 2 ≤ fuel →
      mrvGo s retval szAcc j fuel =
        ((List.range' j (m - j + 1)).foldl (mrvStep s) (retval, szAcc)).1 := by
  intro fuel
  induction fuel with
  | zero => intro j _ _ _ _ hf; omega
  | succ fuel ih =>
    intro j retval szAcc hj1 hjm hf
    have hsplit : m - j + 1 = (m - j) + 1 := rfl
    rw [hsplit, List.range'_succ, List.foldl_cons, mrvGo, if_neg (by omega)]
    rcases Nat.lt_or_ge j m with hlt | hge
    · have hr : rightD s j = j + 1 := by rw [hval j hjm, ringVal, if_pos hlt]
      by_cases hsz : sizeD s j < szAcc
      · rw [if_pos hsz, hr, ih (j + 1) j (sizeD s j) (by omega) (by omega) (by omega)]
        have h1 : m - j = m - (j + 1) + 1 := by omega
        rw [h1, mrvStep, if_pos hsz]
      · rw [if_neg hsz, hr, ih (j + 1) retval szAcc (by omega) (by omega) (by omega)]
        have h1 : m - j = m - (j + 1) + 1 := by omega
        rw [h1, mrvStep, if_neg hsz]
    · have hjm' : j = m := by omega
      have hr : rightD s j = 0 := by
        rw [hval j hjm, ringVal, if_neg (by omega), if_pos hjm']
      have h0 : m - j = 0 := by omega
      rw [h0] at *
      by_cases hsz : sizeD s j < szAcc
      · rw [if_pos hsz, hr]
        cases fuel with
        | zero => omega
        | succ fuel =>
          rw [mrvGo, if_pos rfl]
          simp [mrvStep, if_pos hsz]
      · rw [if_neg hsz, hr]
        cases fuel with
        | zero => omega
        | succ fuel =>
          rw [mrvGo, if_pos rfl]
          simp [mrvStep, if_neg hsz]

/-- The accumulator of the scan always carries the size of its current
best, so the pair-fold projects to `runMin`. -/
theorem foldl_mrvStep_pair (s : DNet) (xs : List Nat) : ∀ b,
    xs.foldl (mrvStep s) (b, sizeD s b) =
      (runMin (sizeD s) b xs, sizeD s (runMin (sizeD s) b xs)) := by
  induction xs with
  | nil => intro b; rfl
  | cons y ys ih =>
    intro b
    rw [List.foldl_cons, runMin, List.foldl_cons]
    by_cases h : sizeD s y < sizeD s b
    · rw [mrvStep, if_pos h, if_pos h]
      exact ih y
    · rw [mrvStep, if_neg h, if_neg h]
      exact ih b

/-- Merging the head comparison into the candidate list: the first global
minimum of `b :: y :: ys` is the first global minimum of `b' :: ys` where
`b'` is the better of `b` and `y` (ties keep `b`). -/
theorem specFirstMin_step (f : Nat → Nat) (b y : Nat) (ys : List Nat) :
    specFirstMin (b :: y :: ys) f =
      specFirstMin ((if f y < f b then y else b) :: ys) f := by
  by_cases hc : f y < f b
  · rw [if_pos hc]
    have hfun : (fun x => (b :: y :: ys).all fun z => f x ≤ f z) =
        (fun x => (y :: ys).all fun z => f x ≤ f z) := by
      funext x
      by_cases hxy : f x ≤ f y
      · have hxb : f x ≤ f b := le_of_lt (lt_of_le_of_lt hxy hc)
        simp [List.all_cons, hxy, hxb]
      · simp [List.all_cons, hxy]
    have hb : ¬ ((fun x => (b :: y :: ys).all fun z => f x ≤ f z) b = true) := by
      simp only [List.all_cons, Bool.and_eq_true, decide_eq_true_eq]
      intro h
      exact absurd h.2.1 (not_le_of_lt hc)
    rw [specFirstMin, specFirstMin,
      @List.find?_cons_of_neg Nat (fun x => (b :: y :: ys).all fun z => f x ≤ f z) b
        (y :: ys) hb, hfun]
  · rw [if_neg hc]
    have hyb : f b ≤ f y := le_of_not_lt hc
    have hfun : (fun x => (b :: y :: ys).all fun z => f x ≤ f z) =
        (fun x => (b :: ys).all fun z => f x ≤ f z) := by
      funext x
      by_cases hxb : f x ≤ f b
      · have hxy : f x ≤ f y := le_trans hxb hyb
        simp [List.all_cons, hxb, hxy]
      · simp [List.all_cons, hxb]
    rw [specFirstMin, specFirstMin, hfun]
    by_cases hPb : ((fun x => (b :: ys).all fun z => f x ≤ f z) b = true)
    · rw [@List.find?_cons_of_pos Nat (fun x => (b :: ys).all fun z => f x ≤ f z) b
        (y :: ys) hPb,
        @List.find?_cons_of_pos Nat (fun x => (b :: ys).all fun z => f x ≤ f z) b
        ys hPb]
    · rw [@List.find?_cons_of_neg Nat (fun x => (b :: ys).all fun z => f x ≤ f z) b
        (y :: ys) hPb,
        @List.find?_cons_of_neg Nat (fun x => (b :: ys).all fun z => f x ≤ f z) b
        ys hPb]
      have hPy : ¬ ((fun x => (b :: ys).all fun z => f x ≤ f z) y = true) := by
        simp only [List.all_cons, Bool.and_eq_true, decide_eq_true_eq,
          List.all_eq_true] at hPb ⊢
        intro h
        exact hPb ⟨le_refl _, fun z hz => le_trans hyb (h.2 z hz)⟩
      rw [@List.find?_cons_of_neg Nat (fun x => (b :: ys).all fun z => f x ≤ f z) y
        ys hPy]

/-- The specification's first minimum of a nonempty list is computed by the
left fold that keeps the earlier element on ties. -/
theorem specFirstMin_fold (f : Nat → Nat) : ∀ (xs : List Nat) (b : Nat),
    specFirstMin (b :: xs) f = some (runMin f b xs) := by
  intro xs
  induction xs with
  | nil =>
    intro b
    simp [specFirstMin, runMin, List.find?, List.all]
  | cons y ys ih =>
    intro b
    rw [specFirstMin_step, runMin, List.foldl_cons]
    by_cases h : f y < f b
    · rw [if_pos h]
      exact ih y
    · rw [if_neg h]
      exact ih b

/-! ### The horizontal ring produced by `create_network` -/

/-- Creating a link never touches the `right` list. -/
theorem dAddLink_right (s : DNet) (col : Option Nat) (colr : Option Int) :
    ((dAddLink s col colr).1).right = s.right := by
  cases col <;> rfl

/-- The row loop never touches the `right` list. -/
theorem dAddRow_goRow_right (hc : Nat) (p : Int) (cm : Bool) :
    ∀ (row : List Int) (s : DNet) (first link : Option Nat) (index : Nat),
      ((dAddRow.goRow hc p cm s first link row index).1).right = s.right := by
  intro row
  induction row with
  | nil => intro s first link index; rfl
  | cons val rest ih =>
    intro s first link index
    rw [dAddRow.goRow]
    by_cases hidx : index < hc
    · rw [if_pos hidx]
      by_cases hval : val ≠ 0
      · rw [if_pos hval]
        dsimp only
        rw [ih, dAddLink_right]
      · rw [if_neg hval]
        exact ih s first link (index + 1)
    · rw [if_neg hidx]

/-- A whole row of the node phase never touches the `right` list. -/
theorem dAddRow_right (s : DNet) (first link : Option Nat) (row : List Int)
    (hc : Nat) (p : Int) (cm : Bool) :
    ((dAddRow s first link row hc p cm).1).right = s.right := by
  rw [dAddRow]
  dsimp only
  rw [dAddRow_goRow_right, dAddLink_right]

/-- The node phase never touches the `right` list. -/
theorem dAddRows_go_right (hc : Nat) (p : Int) (cm : Bool) :
    ∀ (rows : XMatrix) (s : DNet) (first link : Option Nat),
      (dAddRows.go hc p cm s first link rows).right = s.right := by
  intro rows
  induction rows with
  | nil =>
    intro s first link
    rw [dAddRows.go]
    dsimp only
    rw [dAddLink_right]
  | cons row rest ih =>
    intro s first link
    rw [dAddRows.go]
    rw [ih, dAddRow_right]

/-- `rightD` reads only the `right` list. -/
theorem rightD_congr {s t : DNet} (h : s.right = t.right) (i : Nat) :
    rightD s i = rightD t i := by
  rw [rightD, rightD, h]

theorem dAddColumn_right (s : DNet) (nm : Option String) :
    ((dAddColumn s nm).1).right = s.right ++ [s.up.length] := rfl

theorem dAddColumn_up_length (s : DNet) (nm : Option String) :
    ((dAddColumn s nm).1).up.length = s.up.length + 1 := by
  show (s.up ++ [some s.up.length]).length = s.up.length + 1
  simp

theorem dAddColumn_id (s : DNet) (nm : Option String) :
    (dAddColumn s nm).2 = s.up.length := rfl

theorem dAddRight_right (s : DNet) (i j : Nat) :
    (dAddRight s i j).right = (s.right.set j (rightD s i)).set i j := rfl

theorem dAddRight_up (s : DNet) (i j : Nat) : (dAddRight s i j).up = s.up := rfl

/-- The header loop builds the ring `0 → 1 → ⋯ → m → 0` with
`m = min k P.toNat` headers linked after `k` headers, leaving later
headers self-looped. -/
theorem dAddHeaders_go_spec (P : Int) (names : List String) :
    ∀ (rem k : Nat) (s : DNet),
      s.up.length = k + 1 →
      s.right.length = k + 1 →
      (∀ i, i ≤ k → rightD s i = ringVal (min k P.toNat) i) →
      (dAddHeaders.go P names s k k rem).up.length = k + rem + 1 ∧
      (dAddHeaders.go P names s k k rem).right.length = k + rem + 1 ∧
      (∀ i, i ≤ k + rem →
        rightD (dAddHeaders.go P names s k k rem) i =
          ringVal (min (k + rem) P.toNat) i) := by
  intro rem
  induction rem with
  | zero =>
    intro k s hu hr hv
    rw [dAddHeaders.go]
    exact ⟨hu, hr, fun i hi => hv i hi⟩
  | succ rem ih =>
    intro k s hu hr hv
    rw [dAddHeaders.go]
    rw [dAddColumn_id, hu]
    by_cases hk : (k : Int) < P
    · rw [if_pos hk]
      have hkP : k < P.toNat := by omega
      have harg := ih (k + 1) (dAddRight (dAddColumn s (some (names.getD k ""))).1 k (k + 1))
        (by rw [dAddRight_up, dAddColumn_up_length, hu])
        (by simp [dAddRight_right, dAddColumn_right, hr])
        ?_
      · refine ⟨?_, ?_, fun i hi => ?_⟩
        · rw [harg.1]; omega
        · rw [harg.2.1]; omega
        · have hco : k + 1 + rem = k + (rem + 1) := by omega
          rw [← hco]
          exact harg.2.2 i (by omega)
      · intro i hi
        have hvk : rightD (dAddColumn s (some (names.getD k ""))).1 k = 0 := by
          rw [rightD, dAddColumn_right, getD_append_lt _ _ _ _ (by omega)]
          have := hv k (le_refl k)
          rw [rightD] at this
          rw [this, ringVal, if_neg (by omega), if_pos (by omega)]
        rw [rightD, dAddRight_right, hvk]
        have hlen : ((dAddColumn s (some (names.getD k ""))).1.right.set (k + 1) 0).length
            = k + 2 := by
          simp [dAddColumn_right, hr]
        rcases Nat.lt_trichotomy i k with hik | hik | hik
        · rw [getD_set_ne _ _ _ _ _ (by omega), getD_set_ne _ _ _ _ _ (by omega),
            dAddColumn_right, getD_append_lt _ _ _ _ (by omega)]
          have := hv i (by omega)
          rw [rightD] at this
          rw [this, ringVal, if_pos (by omega), ringVal, if_pos (by omega)]
        · subst hik
          rw [getD_set_self _ _ _ _ (by rw [hlen]; omega), ringVal, if_pos (by omega)]
        · have hik1 : i = k + 1 := by omega
          subst hik1
          rw [getD_set_ne _ _ _ _ _ (by omega),
            getD_set_self _ _ _ _
              (by rw [dAddColumn_right, List.length_append, hr]; simp),
            ringVal, if_neg (by omega), if_pos (by omega)]
    · rw [if_neg hk]
      have hkP : P.toNat ≤ k := by omega
      have harg := ih (k + 1) (dAddColumn s (some (names.getD k ""))).1
        (by rw [dAddColumn_up_length, hu])
        (by simp [dAddColumn_right, hr])
        ?_
      · refine ⟨?_, ?_, fun i hi => ?_⟩
        · rw [harg.1]; omega
        · rw [harg.2.1]; omega
        · have hco : k + 1 + rem = k + (rem + 1) := by omega
          rw [← hco]
          exact harg.2.2 i (by omega)
      · intro i hi
        rw [rightD, dAddColumn_right]
        rcases Nat.lt_or_ge i (k + 1) with hik | hik
        · rw [getD_append_lt _ _ _ _ (by omega)]
          have := hv i (by omega)
          rw [rightD] at this
          rw [this]
          have hmin : min k P.toNat = min (k + 1) P.toNat := by omega
          rw [hmin]
        · have hik1 : i = k + 1 := by omega
          subst hik1
          have hlast : (s.right ++ [s.up.length]).getD (k + 1) 0 = s.up.length := by
            have h2 := getD_append_len s.right s.up.length 0
            rw [hr] at h2
            exact h2
          rw [hlast, hu, ringVal, if_neg (by omega), if_neg (by omega)]

/-- The `right` structure of a freshly built object arena: a ring through
the first `min count P.toNat` headers, all other headers self-looped. -/
theorem dBuild_right_facts (matrix : XMatrix) (names : List String) (P : Int)
    (cm : Bool) :
    (dBuild matrix names P cm).right.length =
      max (matrix.headD []).length names.length + 1 ∧
    ∀ i, i ≤ max (matrix.headD []).length names.length →
      rightD (dBuild matrix names P cm) i =
        ringVal (min (max (matrix.headD []).length names.length) P.toNat) i := by
  have hbase := dAddHeaders_go_spec P names (max (matrix.headD []).length names.length)
    0 (dAddColumn DNet.empty none).1 rfl rfl ?_
  · have hpres : (dBuild matrix names P cm).right =
        (dAddHeaders (dAddColumn DNet.empty none).1
          (max (matrix.headD []).length names.length) P names).right := by
      rw [dBuild]
      exact dAddRows_go_right _ _ _ matrix _ none none
    constructor
    · rw [hpres]
      rw [dAddHeaders]
      have := hbase.2.1
      simpa using this
    · intro i hi
      rw [rightD_congr hpres i]
      rw [dAddHeaders]
      have := hbase.2.2 i (by omega)
      simpa using this
  · intro i hi
    interval_cases i
    rw [Nat.zero_min]
    rfl

/-- Extracting the built arena from a successful `create_network` call. -/
theorem objCreate_build (matrix : XMatrix) (names : List String)
    (p? s? : Option Int) (net : DNet)
    (hok : (objCreate matrix names p? s?).toOption = some net) :
    ∃ P cm, net = dBuild matrix names P cm := by
  cases matrix with
  | nil => simp [objCreate, Except.toOption] at hok
  | cons r rows =>
    rw [objCreate] at hok
    split at hok
    · simp [Except.toOption] at hok
    · rcases p? with _ | p <;> rcases s? with _ | sec
      · dsimp only at hok
        simp only [Except.toOption] at hok
        exact ⟨_, _, (Option.some_inj.mp hok).symm⟩
      · dsimp only at hok
        split at hok
        · simp [Except.toOption] at hok
        · simp only [Except.toOption] at hok
          exact ⟨_, _, (Option.some_inj.mp hok).symm⟩
      · dsimp only at hok
        split at hok
        · simp [Except.toOption] at hok
        · simp only [Except.toOption] at hok
          exact ⟨_, _, (Option.some_inj.mp hok).symm⟩
      · dsimp only at hok
        split at hok
        · simp [Except.toOption] at hok
        · simp only [Except.toOption] at hok
          exact ⟨_, _, (Option.some_inj.mp hok).symm⟩

/-- Claim C8: on every network built by `create_network` whose horizontal
ring is non-empty, `mrv` returns the first header in ring order from the
root whose size is minimal among all headers in the ring. -/
theorem mrv_returns_first_min_in_ring (matrix : XMatrix) (names : List String)
    (p? s? : Option Int) (net : DNet)
    (hok : (objCreate matrix names p? s?).toOption = some net)
    (hne : ringWalkD net ≠ []) :
    specFirstMin (ringWalkD net) (sizeD net) = some (mrv net) := by
  obtain ⟨P, cm, hnet⟩ := objCreate_build matrix names p? s? net hok
  subst hnet
  obtain ⟨hlen, hval⟩ := dBuild_right_facts matrix names P cm
  have hmc : min (max (matrix.headD []).length names.length) P.toNat ≤
      max (matrix.headD []).length names.length := min_le_left _ _
  set count := max (matrix.headD []).length names.length with hcount
  set m := min count P.toNat with hmdef
  set net := dBuild matrix names P cm with hnet
  have hval' : ∀ i, i ≤ m → rightD net i = ringVal m i :=
    fun i hi => hval i (le_trans hi hmc)
  have hm1 : 1 ≤ m := by
    by_contra hcon
    have hm0 : m = 0 := by omega
    apply hne
    rw [ringWalkD]
    have hr0 : rightD net 0 = 0 := by
      rw [hval 0 (by omega), hm0]
      rfl
    rw [hr0, hlen, ringWalkDGo, if_pos rfl]
  have hr0 : rightD net 0 = 1 := by
    rw [hval 0 (by omega), ringVal, if_pos (by omega)]
  have hsub : m - 1 + 1 = m := by omega
  have hring : ringWalkD net = List.range' 1 m := by
    rw [ringWalkD, hr0, hlen,
      ringWalkDGo_range net m hval' (count + 1 + 1) 1 (le_refl 1) hm1 (by omega),
      hsub]
  have hsplit : List.range' 1 m = 1 :: List.range' 2 (m - 1) := by
    conv_lhs => rw [← hsub]
    rw [List.range'_succ]
  have hmrv : mrv net = runMin (sizeD net) 1 (List.range' 2 (m - 1)) := by
    rw [mrv]
    rw [hr0, hlen,
      mrvGo_fold net m hval' (count + 1 + 1) 1 0 (sizeD net 1 + 1) (le_refl 1) hm1
        (by omega),
      hsub, hsplit, List.foldl_cons, mrvStep, if_pos (by omega),
      foldl_mrvStep_pair]
  rw [hring, hsplit, specFirstMin_fold, hmrv]

/-- The MRV scenario network (scenario 6): `[[0,1,0],[1,1,0],[1,0,1]]`. -/
def mrvNet : DNet :=
  match objCreate [[0, 1, 0], [1, 1, 0], [1, 0, 1]] [] none none with
  | .ok s => s
  | .error _ => DNet.empty

/-- Witness for C8 on the MRV scenario: `mrv` returns header 3 — the header
of column index 2, the unique size-1 column. -/
theorem mrv_returns_first_min_in_ring_witness :
    specFirstMin (ringWalkD mrvNet) (sizeD mrvNet) = some (mrv mrvNet) ∧
    mrv mrvNet = 3 := by
  refine ⟨mrv_returns_first_min_in_ring [[0, 1, 0], [1, 1, 0], [1, 0, 1]] [] none none
    mrvNet (by decide!) (by decide!), by decide!⟩

/-! ### The spacer layout of a freshly built list arena (claim C7)

Node ids in `Network.__init__` are assigned in creation order: the root is
0, the headers are `1..W`, and each row `r` contributes one spacer followed
by one option node per nonzero entry, so the spacer before row `r` sits at
`spacerId r` and row `r`'s option nodes at `spacerId r + 1 .. spacerId r +
rowCount r`.  The lemmas below prove this by following the build loop,
carrying the facts the loop relies on: every column's bottom pointer
(`up[c]`) names either the header itself or an option node of that same
column (never a spacer), and the bottom's `down` link points back at the
header.  That confines every link write of `_add_bottom` to the fresh node,
the column bottom, and the header — so spacer fields, once written, are
final. -/

/-- The number of option nodes a row contributes (its nonzero entries). -/
def rowCount (row : List Int) : Nat := (row.filter (· ≠ 0)).length

/-- The id of the spacer emitted just before row `r` (`W` headers precede);
`spacerId R` for `R` rows is the final spacer. -/
def spacerId (matrix : XMatrix) (W : Nat) : Nat → Nat
  | 0 => W + 1
  | r + 1 => spacerId matrix W r + 1 + rowCount (matrix.getD r [])

/-- All three per-node arrays have length `n`. -/
def lensEq (s : Net) (n : Nat) : Prop :=
  s.up.length = n ∧ s.down.length = n ∧ s.top.length = n

/-- Every column's bottom pointer is the header itself or an option node of
that column, its `down` link points back at the header, and it is in
bounds. -/
def VBC (W : Nat) (s : Net) : Prop :=
  ∀ c, 1 ≤ c → c ≤ W →
    (upN s c = c ∨ (W < upN s c ∧ topI s (upN s c) = (c : Int))) ∧
    downN s (upN s c) = c ∧ upN s c < s.up.length

/-- Creating a spacer (`add_link(None)`): a pure append plus the serial
bump; every existing entry is untouched. -/
theorem addLink_none_facts (s : Net) (n : Nat) (hlen : lensEq s n) :
    (addLink s none).2 = n ∧
    lensEq (addLink s none).1 (n + 1) ∧
    (∀ j, j < n → upO (addLink s none).1 j = upO s j ∧
      downO (addLink s none).1 j = downO s j ∧ topI (addLink s none).1 j = topI s j) ∧
    upO (addLink s none).1 n = some n ∧
    downO (addLink s none).1 n = some n ∧
    topI (addLink s none).1 n = s.spacerSer ∧
    (addLink s none).1.spacerSer = s.spacerSer - 1 ∧
    (addLink s none).1.left = s.left ∧ (addLink s none).1.right = s.right ∧
    (addLink s none).1.name = s.name := by
  obtain ⟨h1, h2, h3⟩ := hlen
  refine ⟨h1, ⟨?_, ?_, ?_⟩, ?_, ?_, ?_, ?_, rfl, rfl, rfl, rfl⟩
  · show (s.up ++ [some s.up.length]).length = n + 1
    simp [h1]
  · show (s.down ++ [some s.up.length]).length = n + 1
    simp [h1, h2]
  · show (s.top ++ [s.spacerSer]).length = n + 1
    simp [h3]
  · intro j hj
    refine ⟨?_, ?_, ?_⟩
    · show (s.up ++ [some s.up.length]).getD j none = upO s j
      exact getD_append_lt _ _ _ _ (by omega)
    · show (s.down ++ [some s.up.length]).getD j none = downO s j
      exact getD_append_lt _ _ _ _ (by omega)
    · show (s.top ++ [s.spacerSer]).getD j 0 = topI s j
      exact getD_append_lt _ _ _ _ (by omega)
  · show (s.up ++ [some s.up.length]).getD n none = some n
    rw [← h1]
    exact getD_append_len _ _ _
  · show (s.down ++ [some s.up.length]).getD n none = some n
    rw [h1, ← h2]
    exact getD_append_len _ _ _
  · show (s.top ++ [s.spacerSer]).getD n 0 = s.spacerSer
    rw [← h3]
    exact getD_append_len _ _ _

/-- Creating an option node in column `c` (`add_link(c)` with
`_add_bottom`): the writes hit only the fresh node `n`, the old column
bottom, and the header `c`; the bottom invariant is maintained and the
fresh node carries `top = c`. -/
theorem addLink_some_facts (W : Nat) (s : Net) (c : Nat) (n : Nat)
    (hlen : lensEq s n) (hc1 : 1 ≤ c) (hcW : c ≤ W) (hW : W + 1 ≤ n)
    (hv : VBC W s) :
    (addLink s (some c)).2 = n ∧
    lensEq (addLink s (some c)).1 (n + 1) ∧
    VBC W (addLink s (some c)).1 ∧
    (∀ j, j < n → W < j → topI (addLink s (some c)).1 j = topI s j) ∧
    (∀ j, j < n → W < j → topI s j ≤ 0 →
      upO (addLink s (some c)).1 j = upO s j ∧
      downO (addLink s (some c)).1 j = downO s j) ∧
    topI (addLink s (some c)).1 n = (c : Int) ∧
    (addLink s (some c)).1.left = s.left ∧
    (addLink s (some c)).1.right = s.right ∧
    (addLink s (some c)).1.name = s.name ∧
    (addLink s (some c)).1.spacerSer = s.spacerSer := by
  obtain ⟨h1, h2, h3⟩ := hlen
  obtain ⟨hvc, hvd, hvb⟩ := hv c hc1 hcW
  -- the old bottom pointer of column c
  set u := upN s c with hu
  have hun : u < n := h1 ▸ hvb
  have huc : u = c ∨ (W < u ∧ topI s u = (c : Int)) := hvc
  have hdu : downO s u = some c := by
    have hvd' : (downO s u).getD 0 = c := hvd
    cases hd : downO s u with
    | none => rw [hd] at hvd'; simp at hvd'; omega
    | some v => rw [hd] at hvd'; simp at hvd'; rw [hvd']
  -- name the final arrays
  have harr : (addLink s (some c)).1 =
      ⟨ s.name, s.left, s.right,
        ((s.top ++ [(c : Int)]).set c (topI s c + 1)),
        ((s.up ++ [some n]).set n (some u)).set c (some n),
        ((s.down ++ [some n]).set n (some c)).set u (some n),
        s.spacerSer ⟩ := by
    rw [addLink]
    dsimp only
    rw [addBottom]
    rw [addDown]
    dsimp only [upN, upO, downN, downO, topI]
    rw [h1]
    have r1 : (s.up ++ [some n]).getD c none = s.up.getD c none :=
      getD_append_lt _ _ _ _ (by rw [h1]; omega)
    have r2 : (s.up.getD c none).getD 0 = u := rfl
    have r3 : (s.down ++ [some n]).getD u none = s.down.getD u none :=
      getD_append_lt _ _ _ _ (by rw [h2]; omega)
    have r4 : s.down.getD u none = some c := hdu
    have r5 : ((s.down ++ [some n]).set n (some c)).getD u none =
        (s.down ++ [some n]).getD u none := getD_set_ne _ _ _ _ _ (by omega)
    have r6 : (s.top ++ [(c : Int)]).getD c 0 = s.top.getD c 0 :=
      getD_append_lt _ _ _ _ (by rw [h3]; omega)
    simp only [r1, r2, r3, r4, r5, r6, Option.getD_some]
  have h2nd : (addLink s (some c)).2 = n := by
    rw [← h1]
    rfl
  refine ⟨h2nd, ?_, ?_, ?_, ?_, ?_, by rw [harr], by rw [harr], by rw [harr],
    by rw [harr]⟩
  · rw [harr]
    refine ⟨?_, ?_, ?_⟩
    · show (((s.up ++ [some n]).set n (some u)).set c (some n)).length = n + 1
      simp [h1]
    · show (((s.down ++ [some n]).set n (some c)).set u (some n)).length = n + 1
      simp [h2]
    · show ((s.top ++ [(c : Int)]).set c (topI s c + 1)).length = n + 1
      simp [h3]
  · -- VBC is maintained
    rw [harr]
    intro c' hc'1 hc'W
    by_cases hcc : c' = c
    · subst hcc
      have hup : upN (⟨ s.name, s.left, s.right,
          ((s.top ++ [(c' : Int)]).set c' (topI s c' + 1)),
          ((s.up ++ [some n]).set n (some u)).set c' (some n),
          ((s.down ++ [some n]).set n (some c')).set u (some n),
          s.spacerSer ⟩ : Net) c' = n := by
        show ((((s.up ++ [some n]).set n (some u)).set c' (some n)).getD c' none).getD 0 = n
        rw [getD_set_self _ _ _ _ (by simp [h1]; omega)]
        rfl
      rw [hup]
      refine ⟨Or.inr ⟨by omega, ?_⟩, ?_, ?_⟩
      · show (((s.top ++ [(c' : Int)]).set c' (topI s c' + 1)).getD n 0) = (c' : Int)
        rw [getD_set_ne _ _ _ _ _ (by omega)]
        rw [← h3]
        exact getD_append_len _ _ _
      · show ((((s.down ++ [some n]).set n (some c')).set u (some n)).getD n none).getD 0 = c'
        rcases eq_or_ne u n with hun' | hun'
        · omega
        · rw [getD_set_ne _ _ _ _ _ hun',
            getD_set_self _ _ _ _
              (by simp only [List.length_append, List.length_cons,
                List.length_nil, h2]; omega)]
          rfl
      · show n < (((s.up ++ [some n]).set n (some u)).set c' (some n)).length
        simp [h1]
    · -- a different column: all its facts carry over
      obtain ⟨hvc', hvd', hvb'⟩ := hv c' hc'1 hc'W
      have hu'n : upN s c' < n := h1 ▸ hvb'
      have hne1 : upN s c' ≠ u ∨ c' = c := by
        rcases hvc' with h | h
        · rcases huc with h' | h'
          · left; omega
          · left; omega
        · rcases huc with h' | h'
          · left; omega
          · by_cases he : upN s c' = u
            · right
              have : (c' : Int) = (c : Int) := by rw [← h.2, he, h'.2]
              omega
            · left; exact he
      have hneu : upN s c' ≠ u := by
        rcases hne1 with h | h
        · exact h
        · exact absurd h hcc
      have hup : upN (⟨ s.name, s.left, s.right,
          ((s.top ++ [(c : Int)]).set c (topI s c + 1)),
          ((s.up ++ [some n]).set n (some u)).set c (some n),
          ((s.down ++ [some n]).set n (some c)).set u (some n),
          s.spacerSer ⟩ : Net) c' = upN s c' := by
        show ((((s.up ++ [some n]).set n (some u)).set c (some n)).getD c' none).getD 0
          = upN s c'
        rw [getD_set_ne _ _ _ _ _ (fun h => hcc h.symm),
          getD_set_ne _ _ _ _ _ (by omega),
          getD_append_lt _ _ _ _ (by rw [h1]; omega)]
        rfl
      rw [hup]
      refine ⟨?_, ?_, ?_⟩
      · rcases hvc' with h | h
        · exact Or.inl h
        · refine Or.inr ⟨h.1, ?_⟩
          show ((s.top ++ [(c : Int)]).set c (topI s c + 1)).getD (upN s c') 0 = (c' : Int)
          rw [getD_set_ne _ _ _ _ _ (by omega),
            getD_append_lt _ _ _ _ (by rw [h3]; omega)]
          exact h.2
      · show ((((s.down ++ [some n]).set n (some c)).set u (some n)).getD (upN s c') none).getD 0 = c'
        rw [getD_set_ne _ _ _ _ _ (fun h => hneu h.symm),
          getD_set_ne _ _ _ _ _ (by omega),
          getD_append_lt _ _ _ _ (by rw [h2]; omega)]
        exact hvd'
      · show upN s c' < (((s.up ++ [some n]).set n (some u)).set c (some n)).length
        simp [h1]
        omega
  · -- old non-header tops are unchanged
    intro j hj hjW
    rw [harr]
    show ((s.top ++ [(c : Int)]).set c (topI s c + 1)).getD j 0 = topI s j
    rw [getD_set_ne _ _ _ _ _ (by omega),
      getD_append_lt _ _ _ _ (by rw [h3]; omega)]
    rfl
  · -- old spacer links are unchanged
    intro j hj hjW hjtop
    have hju : j ≠ u := by
      rcases huc with h | h
      · omega
      · intro he
        rw [← he] at h
        omega
    constructor
    · rw [harr]
      show (((s.up ++ [some n]).set n (some u)).set c (some n)).getD j none = upO s j
      rw [getD_set_ne _ _ _ _ _ (by omega), getD_set_ne _ _ _ _ _ (by omega),
        getD_append_lt _ _ _ _ (by rw [h1]; omega)]
      rfl
    · rw [harr]
      show (((s.down ++ [some n]).set n (some c)).set u (some n)).getD j none = downO s j
      rw [getD_set_ne _ _ _ _ _ (fun h => hju h.symm), getD_set_ne _ _ _ _ _ (by omega),
        getD_append_lt _ _ _ _ (by rw [h2]; omega)]
      rfl
  · -- the fresh node carries top = c
    rw [harr]
    show ((s.top ++ [(c : Int)]).set c (topI s c + 1)).getD n 0 = (c : Int)
    rw [getD_set_ne _ _ _ _ _ (by omega), ← h3]
    exact getD_append_len _ _ _

/-- The inner loop of one row (lines 71-75): starting from `m` nodes, the
loop appends exactly `rowCount row` option nodes (ids `m .. m + rowCount row
- 1`), returns as `first` the id `m` of the first node created (unless a
first was already recorded), returns as `link` the id of the last node
created — or the *incoming* `link` unchanged when the row slice is all
zeros — and touches no existing spacer field. -/
theorem goRow_spec (W : Nat) :
    ∀ (row : List Int) (s : Net) (first link : Option Nat) (index m : Nat),
    lensEq s m → VBC W s → W + 1 ≤ m → 1 ≤ index →
    index + row.length ≤ W + 1 →
    lensEq (addRow.goRow s first link row index).1 (m + rowCount row) ∧
    VBC W (addRow.goRow s first link row index).1 ∧
    (addRow.goRow s first link row index).2.1 =
      (match first with
        | none => if rowCount row = 0 then none else some m
        | some f => some f) ∧
    (addRow.goRow s first link row index).2.2 =
      (if rowCount row = 0 then link else some (m + rowCount row - 1)) ∧
    (∀ j, j < m → W < j → topI (addRow.goRow s first link row index).1 j = topI s j) ∧
    (∀ j, j < m → W < j → topI s j ≤ 0 →
      upO (addRow.goRow s first link row index).1 j = upO s j ∧
      downO (addRow.goRow s first link row index).1 j = downO s j) ∧
    (∀ j, m ≤ j → j < m + rowCount row →
      1 ≤ topI (addRow.goRow s first link row index).1 j) ∧
    (addRow.goRow s first link row index).1.left = s.left ∧
    (addRow.goRow s first link row index).1.right = s.right ∧
    (addRow.goRow s first link row index).1.name = s.name ∧
    (addRow.goRow s first link row index).1.spacerSer = s.spacerSer := by
  intro row
  induction row with
  | nil =>
    intro s first link index m hlen hv hW hi hiW
    have hr : addRow.goRow s first link [] index = (s, first, link) := rfl
    have hc : rowCount ([] : List Int) = 0 := rfl
    rw [hr, hc]
    refine ⟨by simpa using hlen, hv, ?_, by simp, fun j hj hWj => rfl,
      fun j hj hWj ht => ⟨rfl, rfl⟩, fun j hj1 hj2 => absurd hj2 (by omega),
      rfl, rfl, rfl, rfl⟩
    cases first with
    | none => simp
    | some f => rfl
  | cons val rest ih =>
    intro s first link index m hlen hv hW hi hiW
    by_cases hval : val = 0
    · have hr : addRow.goRow s first link (val :: rest) index =
          addRow.goRow s first link rest (index + 1) := by
        rw [addRow.goRow]
        dsimp only
        rw [if_neg (by simpa using hval)]
      have hc : rowCount (val :: rest) = rowCount rest := by
        simp [rowCount, List.filter_cons, hval]
      rw [hr, hc]
      exact ih s first link (index + 1) m hlen hv hW (by omega)
        (by simp at hiW ⊢; omega)
    · have hval' : val ≠ 0 := hval
      have hc : rowCount (val :: rest) = rowCount rest + 1 := by
        simp [rowCount, List.filter_cons, hval]
      have hiW' : index ≤ W := by simp at hiW; omega
      obtain ⟨ha2, halen, hav, hatop, hasp, hatopn, hal, har, han, haser⟩ :=
        addLink_some_facts W s index m hlen hi hiW' (by omega) hv
      have hr : addRow.goRow s first link (val :: rest) index =
          addRow.goRow (addLink s (some index)).1
            (some (first.getD (addLink s (some index)).2))
            (some (addLink s (some index)).2) rest (index + 1) := by
        rw [addRow.goRow]
        dsimp only
        rw [if_pos hval']
        cases first <;> rfl
      obtain ⟨ih1, ih2, ih3, ih4, ih5, ih6, ih7, ih8, ih9, ih10, ih11⟩ :=
        ih (addLink s (some index)).1
          (some (first.getD (addLink s (some index)).2))
          (some (addLink s (some index)).2) (index + 1) (m + 1)
          halen hav (by omega) (by omega) (by simp at hiW ⊢; omega)
      rw [hr, hc]
      refine ⟨by rw [show m + (rowCount rest + 1) = m + 1 + rowCount rest from by omega]; exact ih1,
        ih2, ?_, ?_, ?_, ?_, ?_, by rw [ih8, hal], by rw [ih9, har],
        by rw [ih10, han], by rw [ih11, haser]⟩
      · rw [ih3, ha2]
        cases first with
        | none => simp [if_neg (by omega : ¬ (rowCount rest + 1 = 0))]
        | some f => rfl
      · rw [ih4, ha2]
        rw [if_neg (by omega : ¬ (rowCount rest + 1 = 0))]
        by_cases hz : rowCount rest = 0
        · rw [if_pos hz, hz]
          simp
        · rw [if_neg hz]
          congr 1
          omega
      · intro j hj hWj
        rw [ih5 j (by omega) hWj, hatop j hj hWj]
      · intro j hj hWj ht
        have h6 := ih6 j (by omega) hWj (by rw [hatop j hj hWj]; exact ht)
        have h5 := hasp j hj hWj ht
        exact ⟨by rw [h6.1, h5.1], by rw [h6.2, h5.2]⟩
      · intro j hj1 hj2
        rcases eq_or_ne j m with hjm | hjm
        · subst hjm
          rw [ih5 j (by omega) (by omega), hatopn]
          omega
        · exact ih7 j (by omega) (by omega)

/-- One full row iteration (lines 66-77): the spacer gets id `m`, its `up`
is set to the incoming `first`, the row's `rowCount` option nodes get ids
`m + 1 .. m + rowCount row`, and the spacer's `down` is set to the final
`link` value — the last node of THIS row when the row has a nonzero entry,
otherwise the *stale incoming* `link`.  The outgoing `first` is the first
node of this row (`none` for an all-zero row). -/
theorem addRow_spec (W : Nat) (row : List Int) (s : Net) (first link : Option Nat)
    (m : Nat) (hlen : lensEq s m) (hv : VBC W s) (hW : W + 1 ≤ m)
    (hrow : row.length ≤ W) (hsp : s.spacerSer ≤ 0) :
    lensEq (addRow s first link row).1 (m + 1 + rowCount row) ∧
    VBC W (addRow s first link row).1 ∧
    (addRow s first link row).2.1 =
      (if rowCount row = 0 then none else some (m + 1)) ∧
    (addRow s first link row).2.2 =
      (if rowCount row = 0 then link else some (m + rowCount row)) ∧
    upO (addRow s first link row).1 m = first ∧
    downO (addRow s first link row).1 m =
      (if rowCount row = 0 then link else some (m + rowCount row)) ∧
    topI (addRow s first link row).1 m = s.spacerSer ∧
    (∀ j, j < m → W < j → topI (addRow s first link row).1 j = topI s j) ∧
    (∀ j, j < m → W < j → topI s j ≤ 0 →
      upO (addRow s first link row).1 j = upO s j ∧
      downO (addRow s first link row).1 j = downO s j) ∧
    (∀ j, m < j → j < m + 1 + rowCount row →
      1 ≤ topI (addRow s first link row).1 j) ∧
    (addRow s first link row).1.left = s.left ∧
    (addRow s first link row).1.right = s.right ∧
    (addRow s first link row).1.name = s.name ∧
    (addRow s first link row).1.spacerSer = s.spacerSer - 1 := by
  obtain ⟨hn2, hnlen, hnold, hnu, hnd, hnt, hnser, hnl, hnr, hnn⟩ :=
    addLink_none_facts s m hlen
  set pr := addLink s none with hpr
  set s2 : Net := { pr.1 with up := pr.1.up.set pr.2 first } with hs2
  set r3 := addRow.goRow s2 none link row 1 with hr3
  have hrw : addRow s first link row =
      (({ r3.1 with down := r3.1.down.set pr.2 r3.2.2 } : Net), r3.2.1, r3.2.2) := rfl
  obtain ⟨h1, h2, h3⟩ := hlen
  obtain ⟨hn1, hn2', hn3⟩ := hnlen
  -- facts about s2
  have hs2len : lensEq s2 (m + 1) := by
    refine ⟨?_, hn2', hn3⟩
    show (pr.1.up.set pr.2 first).length = m + 1
    rw [List.length_set]
    exact hn1
  have hs2up : ∀ j, j ≠ m → upO s2 j = upO pr.1 j := by
    intro j hj
    show (pr.1.up.set pr.2 first).getD j none = upO pr.1 j
    rw [hn2]
    exact getD_set_ne _ _ _ _ _ hj.symm
  have hs2upm : upO s2 m = first := by
    show (pr.1.up.set pr.2 first).getD m none = first
    rw [hn2]
    exact getD_set_self _ _ _ _ (by omega)
  have hs2down : ∀ j, downO s2 j = downO pr.1 j := fun j => rfl
  have hs2top : ∀ j, topI s2 j = topI pr.1 j := fun j => rfl
  have hvpr : VBC W pr.1 := by
    intro c hc1 hcW
    obtain ⟨hvc, hvd, hvb⟩ := hv c hc1 hcW
    have hub : upN s c < m := h1 ▸ hvb
    have hcu : upO pr.1 c = upO s c := (hnold c (by omega)).1
    have hcup : upN pr.1 c = upN s c := by rw [upN, hcu]; rfl
    refine ⟨?_, ?_, ?_⟩
    · rw [hcup]
      rcases hvc with h | h
      · exact Or.inl h
      · exact Or.inr ⟨h.1, by rw [(hnold _ (by omega)).2.2]; exact h.2⟩
    · rw [hcup, downN, (hnold _ (by omega)).2.1]
      exact hvd
    · rw [hcup, hn1]
      omega
  have hvs2 : VBC W s2 := by
    intro c hc1 hcW
    obtain ⟨hvc, hvd, hvb⟩ := hvpr c hc1 hcW
    have hub : upN pr.1 c < m + 1 := hn1 ▸ hvb
    have hcu : upO s2 c = upO pr.1 c := hs2up c (by omega)
    have hcup : upN s2 c = upN pr.1 c := by rw [upN, hcu]; rfl
    refine ⟨?_, ?_, ?_⟩
    · rw [hcup]
      rcases hvc with h | h
      · exact Or.inl h
      · exact Or.inr ⟨h.1, by rw [hs2top]; exact h.2⟩
    · rw [hcup, downN, hs2down]
      exact hvd
    · rw [hcup]
      show upN pr.1 c < (pr.1.up.set pr.2 first).length
      rw [List.length_set]
      exact hvb
  obtain ⟨ig1, ig2, ig3, ig4, ig5, ig6, ig7, ig8, ig9, ig10, ig11⟩ :=
    goRow_spec W row s2 none link 1 (m + 1) hs2len hvs2 (by omega) (le_refl 1)
      (by omega)
  rw [← hr3] at ig1 ig2 ig3 ig4 ig5 ig6 ig7 ig8 ig9 ig10 ig11
  have hts2m : topI s2 m = s.spacerSer := by rw [hs2top]; exact hnt
  have htr3m : topI r3.1 m = s.spacerSer := by
    rw [ig5 m (by omega) (by omega)]
    exact hts2m
  have hur3m : upO r3.1 m = first := by
    rw [(ig6 m (by omega) (by omega) (by rw [hts2m]; exact hsp)).1]
    exact hs2upm
  -- the final down write is at the spacer m, which no column bottom names
  have hfin_len : lensEq (addRow s first link row).1 (m + 1 + rowCount row) := by
    rw [hrw]
    refine ⟨ig1.1, ?_, ig1.2.2⟩
    show (r3.1.down.set pr.2 r3.2.2).length = m + 1 + rowCount row
    rw [List.length_set]
    exact ig1.2.1
  have hfin_up : ∀ j, upO (addRow s first link row).1 j = upO r3.1 j := by
    intro j
    rw [hrw]
    rfl
  have hfin_top : ∀ j, topI (addRow s first link row).1 j = topI r3.1 j := by
    intro j
    rw [hrw]
    rfl
  have hfin_down : ∀ j, j ≠ m → downO (addRow s first link row).1 j = downO r3.1 j := by
    intro j hj
    rw [hrw]
    show (r3.1.down.set pr.2 r3.2.2).getD j none = downO r3.1 j
    rw [hn2]
    exact getD_set_ne _ _ _ _ _ hj.symm
  have hfin_downm : downO (addRow s first link row).1 m = r3.2.2 := by
    rw [hrw]
    show (r3.1.down.set pr.2 r3.2.2).getD m none = r3.2.2
    rw [hn2]
    exact getD_set_self _ _ _ _ (by rw [ig1.2.1]; omega)
  have hout2 : r3.2.2 = (if rowCount row = 0 then link else some (m + rowCount row)) := by
    rw [ig4]
    by_cases hz : rowCount row = 0
    · rw [if_pos hz, if_pos hz]
    · rw [if_neg hz, if_neg hz]
      congr 1
      omega
  refine ⟨hfin_len, ?_, ?_, ?_, ?_, ?_, ?_, ?_, ?_, ?_, ?_, ?_, ?_, ?_⟩
  · -- VBC of the final state
    intro c hc1 hcW
    obtain ⟨hvc, hvd, hvb⟩ := ig2 c hc1 hcW
    have hnm : upN r3.1 c ≠ m := by
      intro he
      rcases hvc with h | h
      · omega
      · rw [he] at h
        have := htr3m
        rw [this] at h
        omega
    have hcu : upO (addRow s first link row).1 c = upO r3.1 c := hfin_up c
    have hcup : upN (addRow s first link row).1 c = upN r3.1 c := by
      rw [upN, hcu]; rfl
    refine ⟨?_, ?_, ?_⟩
    · rw [hcup]
      rcases hvc with h | h
      · exact Or.inl h
      · exact Or.inr ⟨h.1, by rw [hfin_top]; exact h.2⟩
    · rw [hcup, downN, hfin_down _ hnm]
      exact hvd
    · rw [hcup, hrw]
      exact hvb
  · rw [hrw]
    exact ig3
  · rw [hrw, ig4]
    by_cases hz : rowCount row = 0
    · rw [if_pos hz, if_pos hz]
    · rw [if_neg hz, if_neg hz]
      congr 1
      omega
  · rw [hfin_up]
    exact hur3m
  · rw [hfin_downm]
    exact hout2
  · rw [hfin_top]
    exact htr3m
  · intro j hj hWj
    rw [hfin_top, ig5 j (by omega) hWj, hs2top]
    exact (hnold j hj).2.2
  · intro j hj hWj ht
    have hts2j : topI s2 j = topI s j := by
      rw [hs2top]
      exact (hnold j hj).2.2
    have h6 := ig6 j (by omega) hWj (by rw [hts2j]; exact ht)
    constructor
    · rw [hfin_up, h6.1, hs2up j (by omega), (hnold j hj).1]
    · rw [hfin_down j (by omega), h6.2, hs2down, (hnold j hj).2.1]
  · intro j hj1 hj2
    rw [hfin_top]
    exact ig7 j (by omega) (by omega)
  · rw [hrw]
    show r3.1.left = s.left
    rw [ig8]
    exact hnl
  · rw [hrw]
    show r3.1.right = s.right
    rw [ig9]
    exact hnr
  · rw [hrw]
    show r3.1.name = s.name
    rw [ig10]
    exact hnn
  · rw [hrw]
    show r3.1.spacerSer = s.spacerSer - 1
    rw [ig11]
    exact hnser

/-- The id of the spacer emitted before row `r` of `rows`, when the first
spacer of the batch gets id `m` (`relSid m rows rows.length` is the final
spacer). -/
def relSid (m : Nat) (rows : XMatrix) : Nat → Nat
  | 0 => m
  | r + 1 => relSid m rows r + 1 + rowCount (rows.getD r [])

/-- The value of the loop variable `first` just before the spacer of row
`r` is wired: the first option node of row `r - 1`, or `none` when that
row was all zeros (or `first` itself for `r = 0`). -/
def relFirst (m : Nat) (first : Option Nat) (rows : XMatrix) : Nat → Option Nat
  | 0 => first
  | r + 1 => if rowCount (rows.getD r []) = 0 then none
             else some (relSid m rows r + 1)

/-- The value of the loop variable `link` after row `r - 1` is processed:
the last option node of the most recent row with a nonzero entry — the
stale value survives across all-zero rows, exactly as in the source. -/
def relLink (m : Nat) (link : Option Nat) (rows : XMatrix) : Nat → Option Nat
  | 0 => link
  | r + 1 => if rowCount (rows.getD r []) = 0 then relLink m link rows r
             else some (relSid m rows r + rowCount (rows.getD r []))

theorem relSid_cons (m : Nat) (row : List Int) (rest : XMatrix) :
    ∀ r, relSid m (row :: rest) (r + 1) =
      relSid (m + 1 + rowCount row) rest r := by
  intro r
  induction r with
  | zero => rfl
  | succ r ihr =>
    show relSid m (row :: rest) (r + 1) + 1 + rowCount ((row :: rest).getD (r + 1) []) =
      relSid (m + 1 + rowCount row) rest r + 1 + rowCount (rest.getD r [])
    rw [ihr]
    rfl

theorem relFirst_cons (m : Nat) (first : Option Nat) (row : List Int)
    (rest : XMatrix) :
    ∀ r, relFirst m first (row :: rest) (r + 1) =
      relFirst (m + 1 + rowCount row)
        (if rowCount row = 0 then none else some (m + 1)) rest r := by
  intro r
  cases r with
  | zero =>
    show (if rowCount row = 0 then none else some (relSid m (row :: rest) 0 + 1)) =
      (if rowCount row = 0 then none else some (m + 1))
    rfl
  | succ r =>
    show (if rowCount (rest.getD r []) = 0 then none
        else some (relSid m (row :: rest) (r + 1) + 1)) =
      (if rowCount (rest.getD r []) = 0 then none
        else some (relSid (m + 1 + rowCount row) rest r + 1))
    rw [relSid_cons]

theorem relLink_cons (m : Nat) (link : Option Nat) (row : List Int)
    (rest : XMatrix) :
    ∀ r, relLink m link (row :: rest) (r + 1) =
      relLink (m + 1 + rowCount row)
        (if rowCount row = 0 then link else some (m + rowCount row)) rest r := by
  intro r
  induction r with
  | zero =>
    show (if rowCount row = 0 then relLink m link (row :: rest) 0
        else some (relSid m (row :: rest) 0 + rowCount row)) =
      (if rowCount row = 0 then link else some (m + rowCount row))
    rfl
  | succ r ihr =>
    show (if rowCount (rest.getD r []) = 0 then relLink m link (row :: rest) (r + 1)
        else some (relSid m (row :: rest) (r + 1) + rowCount (rest.getD r []))) =
      (if rowCount (rest.getD r []) = 0
        then relLink (m + 1 + rowCount row)
          (if rowCount row = 0 then link else some (m + rowCount row)) rest r
        else some (relSid (m + 1 + rowCount row) rest r + rowCount (rest.getD r [])))
    rw [ihr, relSid_cons]

/-- The node-creation phase (lines 62-83), relative form: starting from `m`
nodes, the spacers land at `relSid m rows r`, each spacer's `up` is the
`first` value at its creation (`relFirst`) and its `down` is the `link`
value after its row (`relLink`); the final spacer's `down` is `none`; ids
strictly between consecutive spacers carry positive `top` (option nodes),
spacers carry nonpositive `top`; existing fields below `m` survive. -/
theorem addRows_go_spec (W : Nat) :
    ∀ (rows : XMatrix) (s : Net) (first link : Option Nat) (m : Nat),
    lensEq s m → VBC W s → W + 1 ≤ m → s.spacerSer ≤ 0 →
    (∀ row ∈ rows, row.length ≤ W) →
    lensEq (addRows.go s first link rows) (relSid m rows rows.length + 1) ∧
    (∀ j, j < m → W < j → topI s j ≤ 0 →
      upO (addRows.go s first link rows) j = upO s j ∧
      downO (addRows.go s first link rows) j = downO s j) ∧
    (∀ j, j < m → W < j → topI (addRows.go s first link rows) j = topI s j) ∧
    (∀ r, r ≤ rows.length →
      upO (addRows.go s first link rows) (relSid m rows r) =
        relFirst m first rows r ∧
      topI (addRows.go s first link rows) (relSid m rows r) ≤ 0) ∧
    (∀ r, r < rows.length →
      downO (addRows.go s first link rows) (relSid m rows r) =
        relLink m link rows (r + 1)) ∧
    downO (addRows.go s first link rows) (relSid m rows rows.length) = none ∧
    (∀ r, r < rows.length → ∀ j, relSid m rows r < j →
      j ≤ relSid m rows r + rowCount (rows.getD r []) →
      1 ≤ topI (addRows.go s first link rows) j) := by
  intro rows
  induction rows with
  | nil =>
    intro s first link m hlen hv hW hsp hrows
    obtain ⟨hn2, hnlen, hnold, hnu, hnd, hnt, hnser, hnl, hnr, hnn⟩ :=
      addLink_none_facts s m hlen
    set pr := addLink s none with hpr
    set s2 : Net := { pr.1 with up := pr.1.up.set pr.2 first } with hs2
    have hrw : addRows.go s first link [] =
        ({ s2 with down := s2.down.set pr.2 none } : Net) := rfl
    obtain ⟨hn1, hn2', hn3⟩ := hnlen
    have hrsid : relSid m ([] : XMatrix) 0 = m := rfl
    have hfup : ∀ j, upO (addRows.go s first link []) j =
        (pr.1.up.set pr.2 first).getD j none := fun j => rfl
    have hfdown : ∀ j, downO (addRows.go s first link []) j =
        (pr.1.down.set pr.2 none).getD j none := fun j => rfl
    have hftop : ∀ j, topI (addRows.go s first link []) j = topI pr.1 j :=
      fun j => rfl
    refine ⟨?_, ?_, ?_, ?_, ?_, ?_, ?_⟩
    · refine ⟨?_, ?_, ?_⟩
      · show (pr.1.up.set pr.2 first).length = relSid m ([] : XMatrix) 0 + 1
        rw [List.length_set, hrsid]
        exact hn1
      · show (pr.1.down.set pr.2 none).length = relSid m ([] : XMatrix) 0 + 1
        rw [List.length_set, hrsid]
        exact hn2'
      · show pr.1.top.length = relSid m ([] : XMatrix) 0 + 1
        rw [hrsid]
        exact hn3
    · intro j hj hWj ht
      constructor
      · rw [hfup, hn2, getD_set_ne _ _ _ _ _ (by omega)]
        exact (hnold j hj).1
      · rw [hfdown, hn2, getD_set_ne _ _ _ _ _ (by omega)]
        exact (hnold j hj).2.1
    · intro j hj hWj
      rw [hftop]
      exact (hnold j hj).2.2
    · intro r hr
      have hr0 : r = 0 := by simpa using hr
      subst hr0
      rw [hrsid]
      constructor
      · rw [hfup, hn2, getD_set_self _ _ _ _ (by omega)]
        rfl
      · rw [hftop, hnt]
        exact hsp
    · intro r hr
      exact absurd hr (by simp)
    · have hms : relSid m ([] : XMatrix) ([] : XMatrix).length = m := rfl
      rw [hms, hfdown, hn2, getD_set_self _ _ _ _ (by omega)]
    · intro r hr
      exact absurd hr (by simp)
  | cons row rest ihr =>
    intro s first link m hlen hv hW hsp hrows
    obtain ⟨ha1, ha2, ha3, ha4, ha5, ha6, ha7, ha8, ha9, ha10, hal, har, han, haser⟩ :=
      addRow_spec W row s first link m hlen hv hW
        (hrows row (List.mem_cons_self row rest)) hsp
    have hrw : addRows.go s first link (row :: rest) =
        addRows.go (addRow s first link row).1 (addRow s first link row).2.1
          (addRow s first link row).2.2 rest := rfl
    obtain ⟨ih1, ih2, ih3, ih4, ih5, ih6, ih7⟩ :=
      ihr (addRow s first link row).1 (addRow s first link row).2.1
        (addRow s first link row).2.2 (m + 1 + rowCount row)
        ha1 ha2 (by omega) (by rw [haser]; omega)
        (fun rw hm => hrows rw (List.mem_cons_of_mem row hm))
    rw [hrw]
    have hlen' : (row :: rest).length = rest.length + 1 := rfl
    refine ⟨?_, ?_, ?_, ?_, ?_, ?_, ?_⟩
    · rw [hlen', relSid_cons]
      exact ih1
    · intro j hj hWj ht
      have hpr := ha9 j hj hWj ht
      have h2 := ih2 j (by omega) hWj (by rw [ha8 j hj hWj]; exact ht)
      exact ⟨by rw [h2.1, hpr.1], by rw [h2.2, hpr.2]⟩
    · intro j hj hWj
      rw [ih3 j (by omega) hWj, ha8 j hj hWj]
    · intro r hr
      cases r with
      | zero =>
        show upO _ m = first ∧ topI _ m ≤ 0
        have h2 := ih2 m (by omega) (by omega) (by rw [ha7]; exact hsp)
        have h3 := ih3 m (by omega) (by omega)
        exact ⟨by rw [h2.1, ha5], by rw [h3, ha7]; exact hsp⟩
      | succ r =>
        rw [relSid_cons, relFirst_cons, ← ha3]
        exact ih4 r (by rw [hlen'] at hr; omega)
    · intro r hr
      cases r with
      | zero =>
        show downO _ m = relLink m link (row :: rest) 1
        have h2 := ih2 m (by omega) (by omega) (by rw [ha7]; exact hsp)
        rw [h2.2, ha6]
        rfl
      | succ r =>
        rw [relSid_cons, show r + 1 + 1 = (r + 1) + 1 from rfl,
          relLink_cons, ← ha4]
        exact ih5 r (by rw [hlen'] at hr; omega)
    · rw [hlen', relSid_cons]
      exact ih6
    · intro r hr j hj1 hj2
      cases r with
      | zero =>
        have hj2' : j ≤ m + rowCount row := by
          have : relSid m (row :: rest) 0 + rowCount ((row :: rest).getD 0 []) =
            m + rowCount row := rfl
          omega
        have hjm : m < j := hj1
        rw [ih3 j (by omega) (by omega)]
        exact ha10 j hjm (by omega)
      | succ r =>
        rw [relSid_cons] at hj1 hj2
        have : rowCount ((row :: rest).getD (r + 1) []) = rowCount (rest.getD r []) := rfl
        rw [this] at hj2
        exact ih7 r (by rw [hlen'] at hr; omega) j hj1 hj2

theorem getD_map_some_range : ∀ (len a i : Nat), i < len →
    ((List.range' a len).map some).getD i none = some (a + i) := by
  intro len
  induction len with
  | zero => intro a i h; omega
  | succ len ihl =>
    intro a i h
    rw [List.range'_succ, List.map_cons]
    cases i with
    | zero => simp
    | succ i =>
      show ((List.range' (a + 1) len).map some).getD i none = some (a + (i + 1))
      rw [ihl (a + 1) i (by omega)]
      congr 1
      omega

theorem getD_replicate_int : ∀ (n i : Nat) (x d : Int), i < n →
    (List.replicate n x).getD i d = x := by
  intro n
  induction n with
  | zero => intro i x d h; omega
  | succ n ihn =>
    intro i x d h
    rw [List.replicate_succ]
    cases i with
    | zero => rfl
    | succ i => exact ihn i x d (by omega)

/-- The header loop (lines 51-60) only appends self-loops to the vertical
arrays and zeros to `top`; `left`/`right` splicing never touches them. -/
theorem addHeaders_go_vert (primary : Nat) (names : List String) :
    ∀ (rem : Nat) (s : Net) (k leftVar : Nat),
    (addHeaders.go primary names s k leftVar rem).up
      = s.up ++ (List.range' s.up.length rem).map some ∧
    (addHeaders.go primary names s k leftVar rem).down
      = s.down ++ (List.range' s.up.length rem).map some ∧
    (addHeaders.go primary names s k leftVar rem).top
      = s.top ++ List.replicate rem 0 ∧
    (addHeaders.go primary names s k leftVar rem).spacerSer = s.spacerSer := by
  intro rem
  induction rem with
  | zero =>
    intro s k leftVar
    have h0 : addHeaders.go primary names s k leftVar 0 = s := rfl
    rw [h0]
    refine ⟨by simp, by simp, by simp, rfl⟩
  | succ rem ihr =>
    intro s k leftVar
    have hgo : addHeaders.go primary names s k leftVar (rem + 1) =
        addHeaders.go primary names
          (if k < primary
            then addRightOp (addColumn s (some (names.getD k ""))).1 leftVar
              (addColumn s (some (names.getD k ""))).2
            else (addColumn s (some (names.getD k ""))).1)
          (k + 1) (addColumn s (some (names.getD k ""))).2 rem := rfl
    set s2 := (if k < primary
      then addRightOp (addColumn s (some (names.getD k ""))).1 leftVar
        (addColumn s (some (names.getD k ""))).2
      else (addColumn s (some (names.getD k ""))).1) with hs2
    have hup : s2.up = s.up ++ [some s.up.length] := by
      rw [hs2]
      by_cases h : k < primary
      · rw [if_pos h]
        rfl
      · rw [if_neg h]
        rfl
    have hdown : s2.down = s.down ++ [some s.up.length] := by
      rw [hs2]
      by_cases h : k < primary
      · rw [if_pos h]
        rfl
      · rw [if_neg h]
        rfl
    have htop : s2.top = s.top ++ [0] := by
      rw [hs2]
      by_cases h : k < primary
      · rw [if_pos h]
        rfl
      · rw [if_neg h]
        rfl
    have hser : s2.spacerSer = s.spacerSer := by
      rw [hs2]
      by_cases h : k < primary
      · rw [if_pos h]
        rfl
      · rw [if_neg h]
        rfl
    obtain ⟨ih1, ih2, ih3, ih4⟩ :=
      ihr s2 (k + 1) (addColumn s (some (names.getD k ""))).2
    have hlen2 : s2.up.length = s.up.length + 1 := by
      rw [hup, List.length_append, List.length_cons, List.length_nil]
    rw [hgo]
    refine ⟨?_, ?_, ?_, ?_⟩
    · rw [ih1, hlen2, hup, List.append_assoc, List.range'_succ, List.map_cons]
      rfl
    · rw [ih2, hlen2, hdown, List.append_assoc, List.range'_succ,
        List.map_cons]
      rfl
    · rw [ih3, htop, List.append_assoc, List.replicate_succ]
      rfl
    · rw [ih4, hser]

/-- Spacer layout of a full `buildArena`: the first spacer gets id
`count + 1` (root plus `count` headers precede it) and the relative layout
of `addRows_go_spec` holds with `first = link = none`. -/
theorem buildArena_spacer_layout (matrix : XMatrix) (names : List String)
    (prim : Nat) (W m : Nat)
    (hWd : W = max (matrix.headD []).length names.length)
    (hm : m = W + 1)
    (hrows : ∀ row ∈ matrix, row.length ≤ W) :
    lensEq (buildArena matrix names prim) (relSid m matrix matrix.length + 1) ∧
    (∀ r, r ≤ matrix.length →
      upO (buildArena matrix names prim) (relSid m matrix r) =
        relFirst m none matrix r ∧
      topI (buildArena matrix names prim) (relSid m matrix r) ≤ 0) ∧
    (∀ r, r < matrix.length →
      downO (buildArena matrix names prim) (relSid m matrix r) =
        relLink m none matrix (r + 1)) ∧
    downO (buildArena matrix names prim) (relSid m matrix matrix.length) = none ∧
    (∀ r, r < matrix.length → ∀ j, relSid m matrix r < j →
      j ≤ relSid m matrix r + rowCount (matrix.getD r []) →
      1 ≤ topI (buildArena matrix names prim) j) := by
  subst hWd
  subst hm
  set cnt := max (matrix.headD []).length names.length with hcnt
  set s2 := addHeaders (addColumn Net.empty none).1 cnt prim names with hs2
  have hba : buildArena matrix names prim = addRows.go s2 none none matrix := rfl
  obtain ⟨hgu, hgd, hgt, hgs⟩ :=
    addHeaders_go_vert prim names cnt (addColumn Net.empty none).1 0 0
  have hup : s2.up = some 0 :: (List.range' 1 cnt).map some := by
    rw [show s2.up =
      (addHeaders.go prim names (addColumn Net.empty none).1 0 0 cnt).up from rfl,
      hgu]
    rfl
  have hdown : s2.down = some 0 :: (List.range' 1 cnt).map some := by
    rw [show s2.down =
      (addHeaders.go prim names (addColumn Net.empty none).1 0 0 cnt).down from rfl,
      hgd]
    rfl
  have htop : s2.top = (0 : Int) :: List.replicate cnt 0 := by
    rw [show s2.top =
      (addHeaders.go prim names (addColumn Net.empty none).1 0 0 cnt).top from rfl,
      hgt]
    rfl
  have hser : s2.spacerSer = 0 := by
    rw [show s2.spacerSer =
      (addHeaders.go prim names (addColumn Net.empty none).1 0 0 cnt).spacerSer
      from rfl, hgs]
    rfl
  have hulen : s2.up.length = cnt + 1 := by
    rw [hup]
    simp
  have hlen2 : lensEq s2 (cnt + 1) :=
    ⟨hulen, by rw [hdown]; simp, by rw [htop]; simp⟩
  have hvbc : VBC cnt s2 := by
    intro c hc1 hcW
    obtain ⟨c', rfl⟩ : ∃ c', c = c' + 1 := ⟨c - 1, by omega⟩
    have hcu : upO s2 (c' + 1) = some (c' + 1) := by
      show s2.up.getD (c' + 1) none = some (c' + 1)
      rw [hup, List.getD_cons_succ, getD_map_some_range cnt 1 c' (by omega)]
      congr 1
      omega
    have hcd : downO s2 (c' + 1) = some (c' + 1) := by
      show s2.down.getD (c' + 1) none = some (c' + 1)
      rw [hdown, List.getD_cons_succ, getD_map_some_range cnt 1 c' (by omega)]
      congr 1
      omega
    have hcup : upN s2 (c' + 1) = c' + 1 := by
      rw [upN, hcu]
      rfl
    refine ⟨Or.inl hcup, ?_, ?_⟩
    · rw [hcup, downN, hcd]
      rfl
    · rw [hcup, hulen]
      omega
  obtain ⟨g1, g2, g3, g4, g5, g6, g7⟩ :=
    addRows_go_spec cnt matrix s2 none none (cnt + 1) hlen2 hvbc (le_refl _)
      (le_of_eq hser) hrows
  rw [hba]
  exact ⟨g1, g4, g5, g6, g7⟩

/-- **C7.**  Corrected spacer layout for the network built from any
rectangular matrix, including all-zero rows.  With `m = max(width,
len(names)) + 1` the spacer before row `r` has id `relSid m matrix r` and
the final spacer id `relSid m matrix R`; every id strictly between a
spacer and the next spacer carries a positive `top` (it is an option node
of that row).  Each spacer's `up` is `relFirst m none matrix r`: the first
option node of the preceding row, but `none` when that row is all zeros
(and for the first spacer) — as the claim says.  Each non-final spacer's
`down` is `relLink m none matrix (r+1)`: the last option node of the row
just processed — which, for an all-zero row, is the *stale* last option
node of the most recent earlier nonzero row rather than anything in the
row the claim names; the final spacer's `down` is `none`.  The claim's
description of `down` therefore fails on all-zero rows (see the
counterexample), and this theorem is the corrected layout. -/
theorem spacer_layout (matrix : XMatrix) (names : List String) (p? : Option Int)
    (net : Net) (W m : Nat)
    (hok : (networkInit matrix names p?).toOption = some net)
    (hrect : ∀ row ∈ matrix, row.length = (matrix.headD []).length)
    (hW : W = max (matrix.headD []).length names.length)
    (hm : m = W + 1) :
    lensEq net (relSid m matrix matrix.length + 1) ∧
    (∀ r, r ≤ matrix.length →
      upO net (relSid m matrix r) = relFirst m none matrix r ∧
      topI net (relSid m matrix r) ≤ 0) ∧
    (∀ r, r < matrix.length →
      downO net (relSid m matrix r) = relLink m none matrix (r + 1)) ∧
    downO net (relSid m matrix matrix.length) = none ∧
    (∀ r, r < matrix.length → ∀ j, relSid m matrix r < j →
      j ≤ relSid m matrix r + rowCount (matrix.getD r []) →
      1 ≤ topI net j) := by
  have hnet : ∃ prim, net = buildArena matrix names prim := by
    cases matrix with
    | nil => exact absurd hok (by simp [networkInit, Except.toOption])
    | cons r0 rest =>
      cases p? with
      | none =>
        refine ⟨r0.length, ?_⟩
        have e : networkInit (r0 :: rest) names none =
            .ok (buildArena (r0 :: rest) names r0.length) := rfl
        rw [e] at hok
        simp [Except.toOption] at hok
        exact hok.symm
      | some p =>
        have e : networkInit (r0 :: rest) names (some p) =
            (if 0 < p ∧ p < (r0.length : Int)
              then .ok (buildArena (r0 :: rest) names p.toNat)
              else .error "ValueError: Require 0 < primary < width.") := rfl
        rw [e] at hok
        by_cases hp : 0 < p ∧ p < (r0.length : Int)
        · rw [if_pos hp] at hok
          simp [Except.toOption] at hok
          exact ⟨p.toNat, hok.symm⟩
        · rw [if_neg hp] at hok
          simp [Except.toOption] at hok
  obtain ⟨prim, hnet⟩ := hnet
  subst hnet
  refine buildArena_spacer_layout matrix names prim W m hW hm ?_
  intro row hr
  rw [hrect row hr, hW]
  exact le_max_left _ _

/-- Witness for C7 on `[[1],[0],[1]]` (scenario with an all-zero middle
row): the layout theorem applies with `W = 1`, `m = 2`. -/
theorem spacer_layout_witness :
    lensEq zeroRowNet (relSid 2 [[1], [0], [1]] 3 + 1) ∧
    (∀ r, r ≤ ([[1], [0], [1]] : XMatrix).length →
      upO zeroRowNet (relSid 2 [[1], [0], [1]] r) =
        relFirst 2 none [[1], [0], [1]] r ∧
      topI zeroRowNet (relSid 2 [[1], [0], [1]] r) ≤ 0) ∧
    (∀ r, r < ([[1], [0], [1]] : XMatrix).length →
      downO zeroRowNet (relSid 2 [[1], [0], [1]] r) =
        relLink 2 none [[1], [0], [1]] (r + 1)) ∧
    downO zeroRowNet (relSid 2 [[1], [0], [1]] 3) = none ∧
    (∀ r, r < ([[1], [0], [1]] : XMatrix).length →
      ∀ j, relSid 2 [[1], [0], [1]] r < j →
      j ≤ relSid 2 [[1], [0], [1]] r + rowCount ([[1], [0], [1]].getD r []) →
      1 ≤ topI zeroRowNet j) := by
  have h := spacer_layout [[1], [0], [1]] [] none zeroRowNet 1 2
    (by decide!) (by decide) rfl rfl
  exact ⟨h.1, h.2.1, h.2.2.1, h.2.2.2.1, h.2.2.2.2⟩

/-! ### Claim C3 — reversibility of `cover`/`uncover` on a fresh network

The development below proves Knuth's dancing-links reversibility for the
list arena: each `vunlink` is cancelled exactly by the matching `vrelink`
(local splice algebra), the `hide`/`unhide` walks traverse the same row
nodes in opposite orders, and `cover`/`uncover` pair rows in LIFO order.
The facts the walks rely on (column rings, row layout) are derived from
the builder lemmas above. -/

theorem set_of_getD (l : List α) (k : Nat) (v d : α) (hk : k < l.length)
    (hv : l.getD k d = v) : l.set k v = l := by
  apply List.ext_getElem
  · simp
  · intro n h1 h2
    rcases eq_or_ne n k with h | h
    · subst h
      rw [List.getElem_set_self]
      rw [List.getD_eq_getElem l d hk] at hv
      exact hv.symm
    · rw [List.getElem_set_ne (fun hh => h hh.symm)]

/-- `vunlink` in closed form. -/
theorem vunlink_eq (s : Net) (q : Nat) :
    vunlink s q =
      ⟨ s.name, s.left, s.right,
        s.top.set (topI s q).toNat (topI s (topI s q).toNat - 1),
        s.up.set (downN s q) (some (upN s q)),
        s.down.set (upN s q) (some (downN s q)),
        s.spacerSer ⟩ := rfl

/-- `vrelink` in closed form. -/
theorem vrelink_eq (s : Net) (q : Nat) :
    vrelink s q =
      ⟨ s.name, s.left, s.right,
        s.top.set (topI s q).toNat (topI s (topI s q).toNat + 1),
        s.up.set (downN s q) (some q),
        s.down.set (upN s q) (some q),
        s.spacerSer ⟩ := rfl

theorem vunlink_downO_ne (s : Net) (q j : Nat) (h : j ≠ upN s q) :
    downO (vunlink s q) j = downO s j := by
  rw [vunlink_eq]
  show (s.down.set (upN s q) (some (downN s q))).getD j none = downO s j
  rw [getD_set_ne _ _ _ _ _ (fun hh => h hh.symm)]
  rfl

theorem vunlink_upO_ne (s : Net) (q j : Nat) (h : j ≠ downN s q) :
    upO (vunlink s q) j = upO s j := by
  rw [vunlink_eq]
  show (s.up.set (downN s q) (some (upN s q))).getD j none = upO s j
  rw [getD_set_ne _ _ _ _ _ (fun hh => h hh.symm)]
  rfl

theorem vunlink_topI_ne (s : Net) (q j : Nat) (h : j ≠ (topI s q).toNat) :
    topI (vunlink s q) j = topI s j := by
  rw [vunlink_eq]
  show (s.top.set (topI s q).toNat (topI s (topI s q).toNat - 1)).getD j 0 = topI s j
  rw [getD_set_ne _ _ _ _ _ (fun hh => h hh.symm)]
  rfl

theorem vrelink_downO_ne (s : Net) (q j : Nat) (h : j ≠ upN s q) :
    downO (vrelink s q) j = downO s j := by
  rw [vrelink_eq]
  show (s.down.set (upN s q) (some q)).getD j none = downO s j
  rw [getD_set_ne _ _ _ _ _ (fun hh => h hh.symm)]
  rfl

theorem vrelink_upO_ne (s : Net) (q j : Nat) (h : j ≠ downN s q) :
    upO (vrelink s q) j = upO s j := by
  rw [vrelink_eq]
  show (s.up.set (downN s q) (some q)).getD j none = upO s j
  rw [getD_set_ne _ _ _ _ _ (fun hh => h hh.symm)]
  rfl

theorem vrelink_topI_ne (s : Net) (q j : Nat) (h : j ≠ (topI s q).toNat) :
    topI (vrelink s q) j = topI s j := by
  rw [vrelink_eq]
  show (s.top.set (topI s q).toNat (topI s (topI s q).toNat + 1)).getD j 0 = topI s j
  rw [getD_set_ne _ _ _ _ _ (fun hh => h hh.symm)]
  rfl

/-- The splice cancellation: relinking `q` immediately after unlinking it
restores the arena exactly, provided `q`'s column links were proper. -/
theorem vrelink_vunlink_cancel (s : Net) (q : Nat)
    (hu : downO s (upN s q) = some q)
    (hd : upO s (downN s q) = some q)
    (huq : upN s q ≠ q)
    (hxq : (topI s q).toNat ≠ q)
    (hub : upN s q < s.down.length)
    (hdb : downN s q < s.up.length)
    (hxb : (topI s q).toNat < s.top.length) :
    vrelink (vunlink s q) q = s := by
  have hdq : downN s q ≠ q := by
    intro he
    apply huq
    rw [he] at hd
    show (upO s q).getD 0 = q
    rw [hd]
    rfl
  have ht' : topI (vunlink s q) q = topI s q := vunlink_topI_ne s q q (fun h => hxq h.symm)
  have hup' : upO (vunlink s q) q = upO s q := vunlink_upO_ne s q q (fun h => hdq h.symm)
  have hdn' : downO (vunlink s q) q = downO s q := vunlink_downO_ne s q q (fun h => huq h.symm)
  have hupN' : upN (vunlink s q) q = upN s q := by rw [upN, hup']; rfl
  have hdnN' : downN (vunlink s q) q = downN s q := by rw [downN, hdn']; rfl
  rw [vrelink_eq, vunlink_eq]
  have e1 : ((⟨ s.name, s.left, s.right,
      s.top.set (topI s q).toNat (topI s (topI s q).toNat - 1),
      s.up.set (downN s q) (some (upN s q)),
      s.down.set (upN s q) (some (downN s q)),
      s.spacerSer ⟩ : Net)) = vunlink s q := (vunlink_eq s q).symm
  rw [e1, ht', hupN', hdnN']
  have hvt : topI (vunlink s q) (topI s q).toNat = topI s (topI s q).toNat - 1 := by
    rw [vunlink_eq]
    show (s.top.set (topI s q).toNat (topI s (topI s q).toNat - 1)).getD (topI s q).toNat 0
      = topI s (topI s q).toNat - 1
    exact getD_set_self _ _ _ _ hxb
  have hvu : (vunlink s q).up = s.up.set (downN s q) (some (upN s q)) := by rw [vunlink_eq]
  have hvd : (vunlink s q).down = s.down.set (upN s q) (some (downN s q)) := by rw [vunlink_eq]
  have hvtl : (vunlink s q).top = s.top.set (topI s q).toNat (topI s (topI s q).toNat - 1) := by
    rw [vunlink_eq]
  have hname : (vunlink s q).name = s.name := rfl
  have hleft : (vunlink s q).left = s.left := rfl
  have hright : (vunlink s q).right = s.right := rfl
  have hser : (vunlink s q).spacerSer = s.spacerSer := rfl
  rw [hvt, hvu, hvd, hvtl, hname, hleft, hright, hser]
  have hupfix : (s.up.set (downN s q) (some (upN s q))).set (downN s q) (some q) = s.up := by
    rw [List.set_set]
    exact set_of_getD _ _ _ none hdb hd
  have hdnfix : (s.down.set (upN s q) (some (downN s q))).set (upN s q) (some q) = s.down := by
    rw [List.set_set]
    exact set_of_getD _ _ _ none hub hu
  have htfix : (s.top.set (topI s q).toNat (topI s (topI s q).toNat - 1)).set
      (topI s q).toNat (topI s (topI s q).toNat - 1 + 1) = s.top := by
    rw [List.set_set]
    have : topI s (topI s q).toNat - 1 + 1 = topI s (topI s q).toNat := by omega
    rw [this]
    exact set_of_getD _ _ _ 0 hxb rfl
  rw [hupfix, hdnfix, htfix]

/-- The doubly-linked edge relation of the vertical rings. -/
def edgeUD (s : Net) (a b : Nat) : Prop := downO s a = some b ∧ upO s b = some a

/-- `L` lists the option nodes of column `c`'s ring in `down` order: the
cycle is `c → L₀ → L₁ → ⋯ → c`. -/
def ringTo (s : Net) (c : Nat) (L : List Nat) : Prop :=
  List.Chain' (edgeUD s) (c :: L ++ [c])

/-- Transfer a `Chain'` along an edge implication that may inspect the
position of the adjacent pair. -/
theorem chain_imp_adj (R S : Nat → Nat → Prop) :
    ∀ (l : List Nat), List.Chain' R l →
    (∀ xs a b ys, l = xs ++ a :: b :: ys → R a b → S a b) →
    List.Chain' S l := by
  intro l
  induction l with
  | nil => intro _ _; exact List.chain'_nil
  | cons x xs ih =>
    intro hc hcond
    cases xs with
    | nil => exact List.chain'_singleton x
    | cons y rest =>
      rw [List.chain'_cons] at hc ⊢
      refine ⟨hcond [] x y rest rfl hc.1, ?_⟩
      exact ih hc.2 (fun as a b bs he hr => hcond (x :: as) a b bs (by rw [List.cons_append, he]) hr)

theorem getLast?_append_cons :
    ∀ (xs : List Nat) (y : Nat) (ys : List Nat),
    (xs ++ y :: ys).getLast? = (y :: ys).getLast? := by
  intro xs
  induction xs with
  | nil => intro y ys; rfl
  | cons x xs ih =>
    intro y ys
    show (x :: (xs ++ y :: ys)).getLast? = (y :: ys).getLast?
    rw [← ih y ys]
    cases h : xs ++ y :: ys with
    | nil => exact absurd h (by simp)
    | cons z zs => rw [List.getLast?_cons_cons]

/-- In a `Nodup` list, the left element of an adjacent pair is not the
last element of the list. -/
theorem adj_ne_getLast (l : List Nat) (hnd : l.Nodup) (xs : List Nat)
    (a b : Nat) (ys : List Nat) (he : l = xs ++ a :: b :: ys) (g : Nat)
    (hg : l.getLast? = some g) : a ≠ g := by
  intro hag
  subst hag
  rw [he, getLast?_append_cons, List.getLast?_cons_cons] at hg
  have hmem : a ∈ b :: ys := by
    have : (b :: ys).getLast? = some a := hg
    cases hys : (b :: ys).getLast? with
    | none => rw [hys] at this; cases this
    | some z =>
      rw [hys] at this
      cases this
      have h2 : (b :: ys).getLast (by simp) ∈ b :: ys := List.getLast_mem _
      rw [List.getLast?_eq_getLast _ (by simp)] at hys
      cases hys
      exact h2
  rw [he] at hnd
  have h3 := List.Nodup.of_append_right hnd
  rw [List.nodup_cons] at h3
  exact h3.1 hmem

/-- In a `Nodup` list, the right element of an adjacent pair is not the
head of the list. -/
theorem adj_ne_head (l : List Nat) (hnd : l.Nodup) (xs : List Nat)
    (a b : Nat) (ys : List Nat) (he : l = xs ++ a :: b :: ys) (h : Nat)
    (hh : l.head? = some h) : b ≠ h := by
  intro hbh
  subst hbh
  cases xs with
  | nil =>
    rw [he] at hh hnd
    have hab : a = b := by simpa using hh
    rw [List.nil_append, List.nodup_cons] at hnd
    exact hnd.1 (by rw [hab]; exact List.mem_cons_self b ys)
  | cons x xs' =>
    rw [he] at hh hnd
    have hxb : x = b := by simpa using hh
    rw [hxb, List.cons_append, List.nodup_cons] at hnd
    exact hnd.1 (by simp)

/-- Unlinking a member `q` of a proper ring: `q`'s links satisfy the
cancellation conditions, its neighbours are ring members, and the spliced
ring drops exactly `q`. -/
theorem ring_vunlink (s : Net) (n c q : Nat) (as bs : List Nat)
    (hring : ringTo s c (as ++ q :: bs))
    (hnd : (c :: (as ++ q :: bs)).Nodup)
    (hlen : lensEq s n)
    (hmem : ∀ j ∈ c :: (as ++ q :: bs), j < n) :
    downO s (upN s q) = some q ∧
    upO s (downN s q) = some q ∧
    upN s q ≠ q ∧
    upN s q ∈ c :: (as ++ q :: bs) ∧
    downN s q ∈ c :: (as ++ q :: bs) ∧
    ringTo (vunlink s q) c (as ++ bs) := by
  obtain ⟨hlu, hld, hlt⟩ := hlen
  have hsubL : ∀ x, x ∈ c :: as → x ∈ c :: (as ++ q :: bs) := by
    intro x hx
    rw [List.mem_cons] at hx ⊢
    rcases hx with h | h
    · exact Or.inl h
    · exact Or.inr (List.mem_append_left _ h)
  have hsubR : ∀ x, x ∈ bs ++ [c] → x ∈ c :: (as ++ q :: bs) := by
    intro x hx
    rcases List.mem_append.mp hx with h | h
    · exact List.mem_cons_of_mem _ (List.mem_append_right _ (List.mem_cons_of_mem _ h))
    · rw [List.mem_singleton] at h
      rw [h]
      exact List.mem_cons_self _ _
  -- split the cyclic chain around q
  have hl : c :: (as ++ q :: bs) ++ [c] = (c :: as) ++ (q :: (bs ++ [c])) := by simp
  rw [ringTo, hl, List.chain'_append] at hring
  obtain ⟨h1, h2, hconn⟩ := hring
  have hgl : (c :: as).getLast? = some ((c :: as).getLast (by simp)) :=
    List.getLast?_eq_getLast _ (by simp)
  set prev := (c :: as).getLast (by simp) with hprevdef
  have hedge1 : edgeUD s prev q :=
    hconn prev (by rw [hgl]; exact Option.mem_def.mpr rfl) q rfl
  rw [List.chain'_cons'] at h2
  obtain ⟨hq_next, h3⟩ := h2
  obtain ⟨next, hnexth⟩ : ∃ y, (bs ++ [c]).head? = some y := by
    cases bs with
    | nil => exact ⟨c, rfl⟩
    | cons b bs' => exact ⟨b, rfl⟩
  have hedge2 : edgeUD s q next :=
    hq_next next (by rw [hnexth]; exact Option.mem_def.mpr rfl)
  have hupq : upN s q = prev := by rw [upN, hedge1.2]; rfl
  have hdnq : downN s q = next := by rw [downN, hedge2.1]; rfl
  have hprevmem : prev ∈ c :: as := List.getLast_mem _
  have hnextmem : next ∈ bs ++ [c] := by
    cases bs with
    | nil =>
      have : next = c := by simpa using hnexth.symm
      rw [this]
      simp
    | cons b bs' =>
      have : next = b := by simpa using hnexth.symm
      rw [this]
      simp
  -- Nodup bookkeeping
  have hnd' : ((c :: as) ++ (q :: bs)).Nodup := by
    have hle : (c :: as) ++ (q :: bs) = c :: (as ++ q :: bs) := by simp
    rw [hle]
    exact hnd
  rw [List.nodup_append] at hnd'
  obtain ⟨hndl, hndqbs, hdisj⟩ := hnd'
  have hndbs : bs.Nodup := (List.nodup_cons.mp hndqbs).2
  have hcnbs : c ∉ bs := fun h => hdisj (List.mem_cons_self c as) (List.mem_cons_of_mem q h)
  have hnd2 : (bs ++ [c]).Nodup := by
    rw [List.nodup_append]
    exact ⟨hndbs, List.nodup_singleton c,
      fun x hx hxc => hcnbs ((List.mem_singleton.mp hxc) ▸ hx)⟩
  have hprevq : prev ≠ q := fun h => hdisj hprevmem (h ▸ List.mem_cons_self q bs)
  refine ⟨by rw [hupq]; exact hedge1.1, by rw [hdnq]; exact hedge2.2,
    by rw [hupq]; exact hprevq,
    by rw [hupq]; exact hsubL prev hprevmem,
    by rw [hdnq]; exact hsubR next hnextmem, ?_⟩
  -- the spliced ring
  have hprevb : prev < n := hmem prev (hsubL prev hprevmem)
  have hnextb : next < n := hmem next (hsubR next hnextmem)
  rw [ringTo]
  have hl2 : c :: (as ++ bs) ++ [c] = (c :: as) ++ (bs ++ [c]) := by simp
  rw [hl2, List.chain'_append]
  refine ⟨?_, ?_, ?_⟩
  · refine chain_imp_adj _ _ _ h1 ?_
    intro xs a b ys he hr
    have hane : a ≠ prev := adj_ne_getLast (c :: as) hndl xs a b ys he prev hgl
    have hbas : b ∈ as := by
      cases xs with
      | nil =>
        have h0 : c = a ∧ as = b :: ys := by
          rw [List.nil_append] at he
          exact ⟨(List.cons.injEq _ _ _ _).mp he |>.1, (List.cons.injEq _ _ _ _).mp he |>.2⟩
        rw [h0.2]
        simp
      | cons x xs' =>
        have h0 : as = xs' ++ a :: b :: ys := by
          rw [List.cons_append] at he
          exact ((List.cons.injEq _ _ _ _).mp he).2
        rw [h0]
        exact List.mem_append_right _ (List.mem_cons_of_mem _ (List.mem_cons_self _ _))
    have hbne : b ≠ next := by
      intro hbn
      rcases List.mem_append.mp hnextmem with h | h
      · exact hdisj (hsubL b (List.mem_cons_of_mem _ hbas) |> fun _ =>
          List.mem_cons_of_mem c hbas) (List.mem_cons_of_mem q (hbn ▸ h))
      · rw [List.mem_singleton] at h
        have : b = c := by rw [hbn, h]
        exact (List.nodup_cons.mp hndl).1 (this ▸ hbas)
    exact ⟨by rw [vunlink_downO_ne s q a (by rw [hupq]; exact hane)]; exact hr.1,
      by rw [vunlink_upO_ne s q b (by rw [hdnq]; exact hbne)]; exact hr.2⟩
  · refine chain_imp_adj _ _ _ h3 ?_
    intro xs a b ys he hr
    have hbne : b ≠ next := adj_ne_head (bs ++ [c]) hnd2 xs a b ys he next hnexth
    have hac : a ≠ c := adj_ne_getLast (bs ++ [c]) hnd2 xs a b ys he c
      (by rw [getLast?_append_cons bs c []]; rfl)
    have haM : a ∈ bs ++ [c] := by
      rw [he]
      exact List.mem_append_right _ (List.mem_cons_self _ _)
    have haB : a ∈ bs := by
      rcases List.mem_append.mp haM with h | h
      · exact h
      · exact absurd (List.mem_singleton.mp h) hac
    have hane : a ≠ prev := by
      intro hap
      exact hdisj (hap ▸ hprevmem) (List.mem_cons_of_mem q haB)
    exact ⟨by rw [vunlink_downO_ne s q a (by rw [hupq]; exact hane)]; exact hr.1,
      by rw [vunlink_upO_ne s q b (by rw [hdnq]; exact hbne)]; exact hr.2⟩
  · intro x hx y hy
    rw [hgl] at hx
    rw [hnexth] at hy
    have hxp : x = prev := (Option.some.inj (Option.mem_def.mp hx)).symm
    have hyn : y = next := (Option.some.inj (Option.mem_def.mp hy)).symm
    rw [hxp, hyn]
    constructor
    · show downO (vunlink s q) prev = some next
      rw [vunlink_eq]
      show (s.down.set (upN s q) (some (downN s q))).getD prev none = some next
      rw [hupq, hdnq]
      exact getD_set_self _ _ _ _ (by rw [hld]; exact hprevb)
    · show upO (vunlink s q) next = some prev
      rw [vunlink_eq]
      show (s.up.set (downN s q) (some (upN s q))).getD next none = some prev
      rw [hupq, hdnq]
      exact getD_set_self _ _ _ _ (by rw [hlu]; exact hnextb)

/-- A ring is insensitive to state changes that preserve the `up`/`down`
reads at its members. -/
theorem ringTo_mono (s s' : Net) (c : Nat) (L : List Nat)
    (h : ∀ j ∈ c :: L, upO s' j = upO s j ∧ downO s' j = downO s j)
    (hr : ringTo s c L) : ringTo s' c L := by
  rw [ringTo] at hr ⊢
  refine chain_imp_adj _ _ _ hr ?_
  intro xs a b ys he hedge
  have hmm : ∀ x : Nat, x ∈ c :: L ++ [c] → x ∈ c :: L := by
    intro x hx
    rcases List.mem_cons.mp hx with hh | hh
    · rw [hh]
      exact List.mem_cons_self c L
    · rcases List.mem_append.mp hh with hh2 | hh2
      · exact List.mem_cons_of_mem _ hh2
      · rw [List.mem_singleton.mp hh2]
        exact List.mem_cons_self c L
  have ha : a ∈ c :: L := hmm a (by rw [he]; exact List.mem_append_right _ (List.mem_cons_self _ _))
  have hb : b ∈ c :: L := hmm b
    (by rw [he]; exact List.mem_append_right _ (List.mem_cons_of_mem _ (List.mem_cons_self _ _)))
  exact ⟨by rw [(h a ha).2]; exact hedge.1, by rw [(h b hb).1]; exact hedge.2⟩

/-- Closed form of the option-node case of `add_link`. -/
theorem addLink_some_eq (s : Net) (c n : Nat) (hlen : lensEq s n)
    (hcn : c < n) (hun : upN s c < n)
    (hdu : downO s (upN s c) = some c) :
    (addLink s (some c)).1 =
      ⟨ s.name, s.left, s.right,
        ((s.top ++ [(c : Int)]).set c (topI s c + 1)),
        ((s.up ++ [some n]).set n (some (upN s c))).set c (some n),
        ((s.down ++ [some n]).set n (some c)).set (upN s c) (some n),
        s.spacerSer ⟩ := by
  obtain ⟨h1, h2, h3⟩ := hlen
  rw [addLink]
  dsimp only
  rw [addBottom]
  rw [addDown]
  dsimp only [upN, upO, downN, downO, topI]
  rw [h1]
  have r1 : (s.up ++ [some n]).getD c none = s.up.getD c none :=
    getD_append_lt _ _ _ _ (by rw [h1]; omega)
  have r2 : (s.up.getD c none).getD 0 = upN s c := rfl
  have r3 : (s.down ++ [some n]).getD (upN s c) none = s.down.getD (upN s c) none :=
    getD_append_lt _ _ _ _ (by rw [h2]; omega)
  have r4 : s.down.getD (upN s c) none = some c := hdu
  have r5 : ((s.down ++ [some n]).set n (some c)).getD (upN s c) none =
      (s.down ++ [some n]).getD (upN s c) none := getD_set_ne _ _ _ _ _ (by omega)
  have r6 : (s.top ++ [(c : Int)]).getD c 0 = s.top.getD c 0 :=
    getD_append_lt _ _ _ _ (by rw [h3]; omega)
  simp only [r1, r2, r3, r4, r5, r6, Option.getD_some]

/-- `add_link(c)` splices the fresh node at the bottom of column `c`'s
ring and leaves every other ring untouched. -/
theorem addLink_some_ring (W : Nat) (s : Net) (c n : Nat) (L : List Nat)
    (hlen : lensEq s n) (hc1 : 1 ≤ c) (hcW : c ≤ W) (hW : W + 1 ≤ n)
    (hring : ringTo s c L) (hnd : (c :: L).Nodup)
    (hmem : ∀ j ∈ L, W < j ∧ j < n ∧ topI s j = (c : Int)) :
    ringTo (addLink s (some c)).1 c (L ++ [n]) ∧
    (∀ c' L', c' ≠ c → 1 ≤ c' → c' ≤ W → ringTo s c' L' →
      (∀ j ∈ L', W < j ∧ j < n ∧ topI s j = (c' : Int)) →
      ringTo (addLink s (some c)).1 c' L') := by
  obtain ⟨h1, h2, h3⟩ := hlen
  -- decompose the ring to find the bottom node u
  have hsplit : c :: L ++ [c] = (c :: L) ++ [c] := by simp
  rw [ringTo, hsplit, List.chain'_append] at hring
  obtain ⟨hcl, _, hconn⟩ := hring
  have hgl : (c :: L).getLast? = some ((c :: L).getLast (by simp)) :=
    List.getLast?_eq_getLast _ (by simp)
  set u := (c :: L).getLast (by simp) with hudef
  have hedge : edgeUD s u c :=
    hconn u (by rw [hgl]; exact Option.mem_def.mpr rfl) c rfl
  have humem : u ∈ c :: L := List.getLast_mem _
  have hun : u < n := by
    rcases List.mem_cons.mp humem with h | h
    · omega
    · exact (hmem u h).2.1
  have huN : upN s c = u := by rw [upN, hedge.2]; rfl
  have hdu : downO s (upN s c) = some c := by rw [huN]; exact hedge.1
  have harr := addLink_some_eq s c n ⟨h1, h2, h3⟩ (by omega) (by rw [huN]; exact hun) hdu
  rw [huN] at harr
  -- reads in the new state
  have hup' : ∀ j, j ≠ c → j ≠ n → j < n → upO (addLink s (some c)).1 j = upO s j := by
    intro j hjc hjn hjlt
    rw [harr]
    show (((s.up ++ [some n]).set n (some u)).set c (some n)).getD j none = upO s j
    rw [getD_set_ne _ _ _ _ _ (fun h => hjc h.symm), getD_set_ne _ _ _ _ _ (fun h => hjn h.symm),
      getD_append_lt _ _ _ _ (by rw [h1]; omega)]
    rfl
  have hdn' : ∀ j, j ≠ u → j ≠ n → j < n → downO (addLink s (some c)).1 j = downO s j := by
    intro j hju hjn hjlt
    rw [harr]
    show (((s.down ++ [some n]).set n (some c)).set u (some n)).getD j none = downO s j
    rw [getD_set_ne _ _ _ _ _ (fun h => hju h.symm), getD_set_ne _ _ _ _ _ (fun h => hjn h.symm),
      getD_append_lt _ _ _ _ (by rw [h2]; omega)]
    rfl
  have hupc : upO (addLink s (some c)).1 c = some n := by
    rw [harr]
    show (((s.up ++ [some n]).set n (some u)).set c (some n)).getD c none = some n
    exact getD_set_self _ _ _ _ (by simp [h1]; omega)
  have hupn : upO (addLink s (some c)).1 n = some u := by
    rw [harr]
    show (((s.up ++ [some n]).set n (some u)).set c (some n)).getD n none = some u
    rw [getD_set_ne _ _ _ _ _ (by omega), getD_set_self _ _ _ _ (by simp [h1])]
  have hdnu : downO (addLink s (some c)).1 u = some n := by
    rw [harr]
    show (((s.down ++ [some n]).set n (some c)).set u (some n)).getD u none = some n
    exact getD_set_self _ _ _ _ (by simp [h2]; omega)
  have hdnn : downO (addLink s (some c)).1 n = some c := by
    rw [harr]
    show (((s.down ++ [some n]).set n (some c)).set u (some n)).getD n none = some c
    rcases eq_or_ne u n with h | h
    · omega
    · rw [getD_set_ne _ _ _ _ _ h, getD_set_self _ _ _ _ (by simp [h2])]
  constructor
  · -- the extended ring of column c
    rw [ringTo]
    have hl2 : c :: (L ++ [n]) ++ [c] = (c :: L) ++ [n, c] := by simp
    rw [hl2, List.chain'_append]
    refine ⟨?_, ?_, ?_⟩
    · refine chain_imp_adj _ _ _ hcl ?_
      intro xs a b ys he hr
      have hane : a ≠ u := adj_ne_getLast (c :: L) hnd xs a b ys he u hgl
      have hbne : b ≠ c := by
        intro hbc
        exact adj_ne_head (c :: L) hnd xs a b ys he c rfl hbc
      have haM : a ∈ c :: L := by
        rw [he]
        exact List.mem_append_right _ (List.mem_cons_self _ _)
      have hbM : b ∈ c :: L := by
        rw [he]
        exact List.mem_append_right _ (List.mem_cons_of_mem _ (List.mem_cons_self _ _))
      have haLt : a < n := by
        rcases List.mem_cons.mp haM with h | h
        · omega
        · exact (hmem a h).2.1
      have hbLt : b < n := by
        rcases List.mem_cons.mp hbM with h | h
        · omega
        · exact (hmem b h).2.1
      exact ⟨by rw [hdn' a hane (by omega) haLt]; exact hr.1,
        by rw [hup' b hbne (by omega) hbLt]; exact hr.2⟩
    · -- the tail [n, c]
      rw [List.chain'_cons]
      exact ⟨⟨hdnn, hupc⟩, List.chain'_singleton c⟩
    · intro x hx y hy
      rw [hgl] at hx
      have hxu : x = u := (Option.some.inj (Option.mem_def.mp hx)).symm
      have hyn : y = n := (Option.some.inj (Option.mem_def.mp hy)).symm
      rw [hxu, hyn]
      exact ⟨hdnu, hupn⟩
  · -- other rings untouched
    intro c' L' hcc hc'1 hc'W hr' hmem'
    refine ringTo_mono s _ c' L' ?_ hr'
    intro j hj
    have hjfacts : j = c' ∨ (W < j ∧ j < n ∧ topI s j = (c' : Int)) := by
      rcases List.mem_cons.mp hj with h | h
      · exact Or.inl h
      · exact Or.inr (hmem' j h)
    have hjc : j ≠ c := by
      rcases hjfacts with h | h
      · omega
      · intro he
        rw [he] at h
        omega
    have hjn : j ≠ n := by
      rcases hjfacts with h | h
      · omega
      · omega
    have hjlt : j < n := by
      rcases hjfacts with h | h
      · omega
      · exact h.2.1
    have hju : j ≠ u := by
      rcases List.mem_cons.mp humem with hu2 | hu2
      · rw [hu2]
        exact hjc
      · rcases hjfacts with h | h
        · have := (hmem u hu2).1
          omega
        · intro he
          rw [he] at h
          rw [(hmem u hu2).2.2] at h
          have : c' = c := by
            have hx := h.2.2
            omega
          exact hcc this
    exact ⟨hup' j hjc hjn hjlt, hdn' j hju hjn hjlt⟩

/-- The ring invariant carried through the node-creation phase: every
column's vertical ring is a proper cycle listing exactly the option nodes
whose `top` names that column, option tops stay within `[1, W]` ... the
spacer serial stays nonpositive. -/
def RB (W n : Nat) (s : Net) : Prop :=
  W + 1 ≤ n ∧
  lensEq s n ∧
  (∀ c, 1 ≤ c → c ≤ W → ∃ L, ringTo s c L ∧ (c :: L).Nodup ∧
    (∀ j, j ∈ L ↔ (W < j ∧ j < n ∧ topI s j = (c : Int)))) ∧
  (∀ j, W < j → j < n → topI s j ≤ (W : Int)) ∧
  s.spacerSer ≤ 0

/-- The ring invariant implies the bottom-pointer invariant `VBC`. -/
theorem RB_to_VBC (W n : Nat) (s : Net) (h : RB W n s) : VBC W s := by
  obtain ⟨hWn, ⟨h1, h2, h3⟩, hrings, htop, hser⟩ := h
  intro c hc1 hcW
  obtain ⟨L, hring, hnd, hiff⟩ := hrings c hc1 hcW
  have hsplit : c :: L ++ [c] = (c :: L) ++ [c] := by simp
  rw [ringTo, hsplit, List.chain'_append] at hring
  obtain ⟨_, _, hconn⟩ := hring
  have hgl : (c :: L).getLast? = some ((c :: L).getLast (by simp)) :=
    List.getLast?_eq_getLast _ (by simp)
  set u := (c :: L).getLast (by simp) with hudef
  have hedge : edgeUD s u c :=
    hconn u (by rw [hgl]; exact Option.mem_def.mpr rfl) c rfl
  have humem : u ∈ c :: L := List.getLast_mem _
  have huN : upN s c = u := by rw [upN, hedge.2]; rfl
  refine ⟨?_, ?_, ?_⟩
  · rw [huN]
    rcases List.mem_cons.mp humem with h | h
    · exact Or.inl h
    · obtain ⟨hw, _, ht⟩ := (hiff u).mp h
      exact Or.inr ⟨hw, ht⟩
  · rw [huN, downN, hedge.1]
    rfl
  · rw [huN, h1]
    rcases List.mem_cons.mp humem with h | h
    · omega
    · exact ((hiff u).mp h).2.1

theorem addLink_left (s : Net) (t : Option Nat) : (addLink s t).1.left = s.left := by
  cases t <;> rfl

theorem addLink_right (s : Net) (t : Option Nat) : (addLink s t).1.right = s.right := by
  cases t <;> rfl

theorem goRow_left_right :
    ∀ (row : List Int) (s : Net) (first link : Option Nat) (index : Nat),
    (addRow.goRow s first link row index).1.left = s.left ∧
    (addRow.goRow s first link row index).1.right = s.right := by
  intro row
  induction row with
  | nil => intro s first link index; exact ⟨rfl, rfl⟩
  | cons val rest ih =>
    intro s first link index
    rw [addRow.goRow]
    dsimp only
    by_cases hv : val ≠ 0
    · rw [if_pos hv]
      cases first with
      | none =>
        obtain ⟨ih1, ih2⟩ := ih (addLink s (some index)).1
          (some (addLink s (some index)).2) (some (addLink s (some index)).2) (index + 1)
        exact ⟨by rw [ih1, addLink_left], by rw [ih2, addLink_right]⟩
      | some f =>
        obtain ⟨ih1, ih2⟩ := ih (addLink s (some index)).1 (some f)
          (some (addLink s (some index)).2) (index + 1)
        exact ⟨by rw [ih1, addLink_left], by rw [ih2, addLink_right]⟩
    · rw [if_neg hv]
      exact ih s first link (index + 1)

theorem addRow_left_right (s : Net) (first link : Option Nat) (row : List Int) :
    (addRow s first link row).1.left = s.left ∧
    (addRow s first link row).1.right = s.right := by
  have h := goRow_left_right row
    ({ (addLink s none).1 with
        up := (addLink s none).1.up.set (addLink s none).2 first } : Net) none link 1
  have hrw : addRow s first link row =
      (({ (addRow.goRow ({ (addLink s none).1 with
            up := (addLink s none).1.up.set (addLink s none).2 first } : Net)
            none link row 1).1 with
          down := (addRow.goRow ({ (addLink s none).1 with
            up := (addLink s none).1.up.set (addLink s none).2 first } : Net)
            none link row 1).1.down.set (addLink s none).2
              (addRow.goRow ({ (addLink s none).1 with
                up := (addLink s none).1.up.set (addLink s none).2 first } : Net)
                none link row 1).2.2 } : Net),
        (addRow.goRow ({ (addLink s none).1 with
          up := (addLink s none).1.up.set (addLink s none).2 first } : Net)
          none link row 1).2.1,
        (addRow.goRow ({ (addLink s none).1 with
          up := (addLink s none).1.up.set (addLink s none).2 first } : Net)
          none link row 1).2.2) := rfl
  rw [hrw]
  exact ⟨by rw [show (addLink s none).1.left = s.left from rfl] at h; exact h.1,
    by rw [show (addLink s none).1.right = s.right from rfl] at h; exact h.2⟩

theorem addRows_go_left_right :
    ∀ (rows : XMatrix) (s : Net) (first link : Option Nat),
    (addRows.go s first link rows).left = s.left ∧
    (addRows.go s first link rows).right = s.right := by
  intro rows
  induction rows with
  | nil => intro s first link; exact ⟨rfl, rfl⟩
  | cons row rest ih =>
    intro s first link
    have hrw : addRows.go s first link (row :: rest) =
        addRows.go (addRow s first link row).1 (addRow s first link row).2.1
          (addRow s first link row).2.2 rest := rfl
    rw [hrw]
    obtain ⟨ih1, ih2⟩ := ih (addRow s first link row).1 (addRow s first link row).2.1
      (addRow s first link row).2.2
    obtain ⟨ha1, ha2⟩ := addRow_left_right s first link row
    exact ⟨by rw [ih1, ha1], by rw [ih2, ha2]⟩

/-- Rings through the inner row loop: each nonzero entry appends the fresh
node to its column's ring; the new nodes carry strictly increasing tops
starting at `index`. -/
theorem goRow_RB (W : Nat) :
    ∀ (row : List Int) (s : Net) (first link : Option Nat) (index m : Nat),
    RB W m s → 1 ≤ index → index + row.length ≤ W + 1 →
    RB W (m + rowCount row) (addRow.goRow s first link row index).1 ∧
    (∀ j, m ≤ j → j < m + rowCount row →
      (index : Int) ≤ topI (addRow.goRow s first link row index).1 j) ∧
    (∀ j k, m ≤ j → j < k → k < m + rowCount row →
      topI (addRow.goRow s first link row index).1 j <
      topI (addRow.goRow s first link row index).1 k) := by
  intro row
  induction row with
  | nil =>
    intro s first link index m hRB hi hiW
    have hr : addRow.goRow s first link [] index = (s, first, link) := rfl
    have hc : rowCount ([] : List Int) = 0 := rfl
    rw [hr, hc]
    exact ⟨by simpa using hRB, fun j hj1 hj2 => absurd hj2 (by omega),
      fun j k hj1 hjk hk => absurd hk (by omega)⟩
  | cons val rest ih =>
    intro s first link index m hRB hi hiW
    by_cases hval : val = 0
    · have hr : addRow.goRow s first link (val :: rest) index =
          addRow.goRow s first link rest (index + 1) := by
        rw [addRow.goRow]
        dsimp only
        rw [if_neg (by simpa using hval)]
      have hc : rowCount (val :: rest) = rowCount rest := by
        simp [rowCount, List.filter_cons, hval]
      rw [hr, hc]
      obtain ⟨hA, hB, hC⟩ := ih s first link (index + 1) m hRB (by omega)
        (by simp at hiW ⊢; omega)
      refine ⟨hA, ?_, hC⟩
      intro j hj1 hj2
      have := hB j hj1 hj2
      omega
    · have hval' : val ≠ 0 := hval
      have hc : rowCount (val :: rest) = rowCount rest + 1 := by
        simp [rowCount, List.filter_cons, hval]
      have hiW' : index ≤ W := by simp at hiW; omega
      obtain ⟨hWn, hlen, hrings, htop, hser⟩ := hRB
      have hvbc : VBC W s := RB_to_VBC W m s ⟨hWn, hlen, hrings, htop, hser⟩
      obtain ⟨ha2, halen, hav, hatop, hasp, hatopn, hal, har, han, haser⟩ :=
        addLink_some_facts W s index m hlen hi hiW' (by omega) hvbc
      obtain ⟨L, hringc, hndc, hiffc⟩ := hrings index hi hiW'
      have hmemL : ∀ j ∈ L, W < j ∧ j < m ∧ topI s j = (index : Int) := by
        intro j hj
        exact (hiffc j).mp hj
      obtain ⟨hringnew, hothers⟩ :=
        addLink_some_ring W s index m L hlen hi hiW' hWn hringc hndc hmemL
      -- the new state satisfies RB at m + 1
      have hRB' : RB W (m + 1) (addLink s (some index)).1 := by
        refine ⟨by omega, halen, ?_, ?_, by rw [haser]; exact hser⟩
        · intro c hc1 hcW
          by_cases hcind : c = index
          · subst hcind
            refine ⟨L ++ [m], hringnew, ?_, ?_⟩
            · rw [show c :: (L ++ [m]) = (c :: L) ++ [m] from rfl, List.nodup_append]
              refine ⟨hndc, List.nodup_singleton m, ?_⟩
              intro x hx hxm
              rw [List.mem_singleton] at hxm
              subst hxm
              rcases List.mem_cons.mp hx with h | h
              · omega
              · have := (hmemL x h).2.1
                omega
            · intro j
              rw [List.mem_append, List.mem_singleton]
              constructor
              · intro hj
                rcases hj with h | h
                · obtain ⟨hw, hb, ht⟩ := hmemL j h
                  exact ⟨hw, by omega, by rw [hatop j hb hw]; exact ht⟩
                · subst h
                  exact ⟨by omega, by omega, hatopn⟩
              · intro ⟨hw, hb, ht⟩
                rcases eq_or_ne j m with hjm | hjm
                · exact Or.inr hjm
                · refine Or.inl ((hiffc j).mpr ⟨hw, by omega, ?_⟩)
                  rw [← hatop j (by omega) hw]
                  exact ht
          · obtain ⟨L', hring', hnd', hiff'⟩ := hrings c hc1 hcW
            refine ⟨L', hothers c L' hcind hc1 hcW hring'
              (fun j hj => (hiff' j).mp hj), hnd', ?_⟩
            intro j
            rw [hiff' j]
            constructor
            · intro ⟨hw, hb, ht⟩
              exact ⟨hw, by omega, by rw [hatop j hb hw]; exact ht⟩
            · intro ⟨hw, hb, ht⟩
              rcases eq_or_ne j m with hjm | hjm
              · subst hjm
                rw [hatopn] at ht
                have hic : index = c := by exact_mod_cast ht
                exact absurd hic.symm hcind
              · refine ⟨hw, by omega, ?_⟩
                rw [← hatop j (by omega) hw]
                exact ht
        · intro j hw hb
          rcases eq_or_ne j m with hjm | hjm
          · subst hjm
            rw [hatopn]
            exact_mod_cast hiW'
          · rw [hatop j (by omega) hw]
            exact htop j hw (by omega)
      have hr : addRow.goRow s first link (val :: rest) index =
          addRow.goRow (addLink s (some index)).1
            (some (first.getD (addLink s (some index)).2))
            (some (addLink s (some index)).2) rest (index + 1) := by
        rw [addRow.goRow]
        dsimp only
        rw [if_pos hval']
        cases first <;> rfl
      obtain ⟨ihA, ihB, ihC⟩ :=
        ih (addLink s (some index)).1
          (some (first.getD (addLink s (some index)).2))
          (some (addLink s (some index)).2) (index + 1) (m + 1)
          hRB' (by omega) (by simp at hiW ⊢; omega)
      obtain ⟨ig1, ig2, ig3, ig4, ig5, ig6, ig7, ig8, ig9, ig10, ig11⟩ :=
        goRow_spec W rest (addLink s (some index)).1
          (some (first.getD (addLink s (some index)).2))
          (some (addLink s (some index)).2) (index + 1) (m + 1)
          halen hav (by omega) (by omega) (by simp at hiW ⊢; omega)
      rw [hr, hc]
      have harith : m + (rowCount rest + 1) = m + 1 + rowCount rest := by omega
      refine ⟨by rw [harith]; exact ihA, ?_, ?_⟩
      · intro j hj1 hj2
        rcases eq_or_ne j m with hjm | hjm
        · subst hjm
          rw [ig5 j (by omega) (by omega), hatopn]
        · have := ihB j (by omega) (by omega)
          omega
      · intro j k hj1 hjk hk
        rcases eq_or_ne j m with hjm | hjm
        · subst hjm
          rw [ig5 j (by omega) (by omega), hatopn]
          have := ihB k (by omega) (by omega)
          omega
        · exact ihC j k (by omega) hjk (by omega)

/-- `RB` survives any state change that preserves the links and tops of
headers and option nodes and gives fresh ids nonpositive tops. -/
theorem RB_transfer (W n n' : Nat) (s s' : Net) (h : RB W n s)
    (hnn : n ≤ n')
    (hlen : lensEq s' n')
    (hud : ∀ j, j < n → (j ≤ W ∨ 1 ≤ topI s j) →
      upO s' j = upO s j ∧ downO s' j = downO s j)
    (htoppres : ∀ j, W < j → j < n → topI s' j = topI s j)
    (htopnew : ∀ j, W < j → n ≤ j → j < n' → topI s' j ≤ 0)
    (hser : s'.spacerSer ≤ 0) :
    RB W n' s' := by
  obtain ⟨hWn, _, hrings, htop, _⟩ := h
  refine ⟨by omega, hlen, ?_, ?_, hser⟩
  · intro c hc1 hcW
    obtain ⟨L, hring, hnd, hiff⟩ := hrings c hc1 hcW
    refine ⟨L, ringTo_mono s s' c L ?_ hring, hnd, ?_⟩
    · intro j hj
      rcases List.mem_cons.mp hj with hh | hh
      · exact hud j (by omega) (Or.inl (by omega))
      · obtain ⟨hw, hb, ht⟩ := (hiff j).mp hh
        exact hud j hb (Or.inr (by rw [ht]; exact_mod_cast hc1))
    · intro j
      rw [hiff j]
      constructor
      · intro ⟨hw, hb, ht⟩
        exact ⟨hw, by omega, by rw [htoppres j hw hb]; exact ht⟩
      · intro ⟨hw, hb, ht⟩
        by_cases hjn : j < n
        · exact ⟨hw, hjn, by rw [← htoppres j hw hjn]; exact ht⟩
        · exfalso
          have := htopnew j hw (by omega) hb
          rw [ht] at this
          have : (c : Int) ≤ 0 := this
          omega
  · intro j hw hb
    by_cases hjn : j < n
    · rw [htoppres j hw hjn]
      exact htop j hw hjn
    · have := htopnew j hw (by omega) hb
      have hW0 : (0 : Int) ≤ (W : Int) := by exact_mod_cast Nat.zero_le W
      omega

/-- Rings through one full row iteration. -/
theorem addRow_RB (W : Nat) (row : List Int) (s : Net) (first link : Option Nat)
    (m : Nat) (hRB : RB W m s) (hrow : row.length ≤ W) :
    RB W (m + 1 + rowCount row) (addRow s first link row).1 ∧
    (∀ j k, m < j → j < k → k ≤ m + rowCount row →
      topI (addRow s first link row).1 j < topI (addRow s first link row).1 k) ∧
    (∀ j, m < j → j ≤ m + rowCount row →
      (1 : Int) ≤ topI (addRow s first link row).1 j) := by
  obtain ⟨hWn, hlen, hrings, htop, hser⟩ := hRB
  have hRB0 : RB W m s := ⟨hWn, hlen, hrings, htop, hser⟩
  obtain ⟨hn2, hnlen, hnold, hnu, hnd, hnt, hnser, hnl, hnr, hnn⟩ :=
    addLink_none_facts s m hlen
  set pr := addLink s none with hpr
  set s2 : Net := { pr.1 with up := pr.1.up.set pr.2 first } with hs2
  set r3 := addRow.goRow s2 none link row 1 with hr3
  have hrw : addRow s first link row =
      (({ r3.1 with down := r3.1.down.set pr.2 r3.2.2 } : Net), r3.2.1, r3.2.2) := rfl
  obtain ⟨hn1, hn2', hn3⟩ := hnlen
  -- RB after the spacer append
  have hRB1 : RB W (m + 1) pr.1 := by
    refine RB_transfer W m (m + 1) s pr.1 hRB0 (by omega) ⟨hn1, hn2', hn3⟩ ?_ ?_ ?_ ?_
    · intro j hj _
      exact ⟨(hnold j hj).1, (hnold j hj).2.1⟩
    · intro j _ hj
      exact (hnold j hj).2.2
    · intro j hw hj1 hj2
      have hjm : j = m := by omega
      subst hjm
      rw [hnt]
      exact hser
    · rw [hnser]
      omega
  -- RB after wiring the spacer's up
  have hs2len : lensEq s2 (m + 1) := by
    refine ⟨?_, hn2', hn3⟩
    show (pr.1.up.set pr.2 first).length = m + 1
    rw [List.length_set]
    exact hn1
  have hts2 : ∀ j, topI s2 j = topI pr.1 j := fun j => rfl
  have hRB2 : RB W (m + 1) s2 := by
    refine RB_transfer W (m + 1) (m + 1) pr.1 s2 hRB1 (le_refl _) hs2len ?_ ?_ ?_ ?_
    · intro j hj hcond
      have hjm : j ≠ m := by
        intro he
        subst he
        rcases hcond with h | h
        · omega
        · rw [hnt] at h
          omega
      constructor
      · show (pr.1.up.set pr.2 first).getD j none = upO pr.1 j
        rw [hn2]
        exact getD_set_ne _ _ _ _ _ (fun hh => hjm hh.symm)
      · rfl
    · intro j _ _
      rfl
    · intro j _ h1 h2
      omega
    · rw [show s2.spacerSer = pr.1.spacerSer from rfl, hnser]
      omega
  obtain ⟨hRB3, hlow1, hpair⟩ := goRow_RB W row s2 none link 1 (m + 1) hRB2
    (le_refl 1) (by omega)
  rw [← hr3] at hRB3 hlow1 hpair
  -- frame facts of the goRow call
  obtain ⟨ig1, ig2, ig3, ig4, ig5, ig6, ig7, ig8, ig9, ig10, ig11⟩ :=
    goRow_spec W row s2 none link 1 (m + 1) hs2len (RB_to_VBC W (m + 1) s2 hRB2)
      (by omega) (le_refl 1) (by omega)
  rw [← hr3] at ig1 ig2 ig3 ig4 ig5 ig6 ig7 ig8 ig9 ig10 ig11
  have htr3m : topI r3.1 m = s.spacerSer := by
    rw [ig5 m (by omega) (by omega), hts2]
    exact hnt
  have hfin_top : ∀ j, topI (addRow s first link row).1 j = topI r3.1 j := by
    intro j
    rw [hrw]
    rfl
  have hRB4 : RB W (m + 1 + rowCount row) (addRow s first link row).1 := by
    refine RB_transfer W (m + 1 + rowCount row) (m + 1 + rowCount row) r3.1
      (addRow s first link row).1 hRB3 (le_refl _) ?_ ?_ ?_ ?_ ?_
    · obtain ⟨g1, g2, g3⟩ := hRB3.2.1
      refine ⟨by rw [hrw]; exact g1, ?_, by rw [hrw]; exact g3⟩
      rw [hrw]
      show (r3.1.down.set pr.2 r3.2.2).length = m + 1 + rowCount row
      rw [List.length_set]
      exact g2
    · intro j hj hcond
      have hjm : j ≠ m := by
        intro he
        subst he
        rcases hcond with h | h
        · omega
        · rw [htr3m] at h
          omega
      constructor
      · rw [hrw]
        rfl
      · rw [hrw]
        show (r3.1.down.set pr.2 r3.2.2).getD j none = downO r3.1 j
        rw [hn2]
        exact getD_set_ne _ _ _ _ _ (fun hh => hjm hh.symm)
    · intro j _ _
      exact hfin_top j
    · intro j _ h1 h2
      omega
    · rw [hrw]
      show r3.1.spacerSer ≤ 0
      exact hRB3.2.2.2.2
  refine ⟨hRB4, ?_, ?_⟩
  · intro j k hj hjk hk
    rw [hfin_top j, hfin_top k]
    exact hpair j k (by omega) hjk (by omega)
  · intro j hj1 hj2
    rw [hfin_top j]
    have := hlow1 j (by omega) (by omega)
    exact_mod_cast this

/-- Rings and per-row top monotonicity through the whole node-creation
phase. -/
theorem addRows_go_RB (W : Nat) :
    ∀ (rows : XMatrix) (s : Net) (first link : Option Nat) (m : Nat),
    RB W m s → (∀ row ∈ rows, row.length ≤ W) →
    RB W (relSid m rows rows.length + 1) (addRows.go s first link rows) ∧
    (∀ r, r < rows.length → ∀ j k,
      relSid m rows r < j → j < k →
      k ≤ relSid m rows r + rowCount (rows.getD r []) →
      topI (addRows.go s first link rows) j <
      topI (addRows.go s first link rows) k) := by
  intro rows
  induction rows with
  | nil =>
    intro s first link m hRB hrows
    obtain ⟨hWn, hlen, hrings, htop, hser⟩ := hRB
    have hRB0 : RB W m s := ⟨hWn, hlen, hrings, htop, hser⟩
    obtain ⟨hn2, hnlen, hnold, hnu, hnd, hnt, hnser, hnl, hnr, hnn⟩ :=
      addLink_none_facts s m hlen
    set pr := addLink s none with hpr
    set s2 : Net := { pr.1 with up := pr.1.up.set pr.2 first } with hs2
    have hrw : addRows.go s first link [] =
        ({ s2 with down := s2.down.set pr.2 none } : Net) := rfl
    obtain ⟨hn1, hn2', hn3⟩ := hnlen
    have hmm : relSid m ([] : XMatrix) ([] : XMatrix).length + 1 = m + 1 := rfl
    rw [hmm]
    refine ⟨?_, fun r hr => absurd hr (by simp)⟩
    refine RB_transfer W m (m + 1) s _ hRB0 (by omega) ?_ ?_ ?_ ?_ ?_
    · rw [hrw]
      refine ⟨?_, ?_, ?_⟩
      · show (pr.1.up.set pr.2 first).length = m + 1
        rw [List.length_set]
        exact hn1
      · show (s2.down.set pr.2 none).length = m + 1
        rw [List.length_set]
        exact hn2'
      · exact hn3
    · intro j hj hcond
      rw [hrw]
      constructor
      · show (pr.1.up.set pr.2 first).getD j none = upO s j
        rw [hn2, getD_set_ne _ _ _ _ _ (by omega)]
        exact (hnold j hj).1
      · show (s2.down.set pr.2 none).getD j none = downO s j
        rw [hn2, getD_set_ne _ _ _ _ _ (by omega)]
        exact (hnold j hj).2.1
    · intro j _ hj
      rw [hrw]
      show topI pr.1 j = topI s j
      exact (hnold j hj).2.2
    · intro j hw hj1 hj2
      have hjm : j = m := by omega
      rw [hrw, hjm]
      show topI pr.1 m ≤ 0
      rw [hnt]
      exact hser
    · rw [hrw]
      show pr.1.spacerSer ≤ 0
      rw [hnser]
      omega
  | cons row rest ihr =>
    intro s first link m hRB hrows
    have hWm : W + 1 ≤ m := hRB.1
    obtain ⟨hRB1, hpair0, hlow0⟩ :=
      addRow_RB W row s first link m hRB (hrows row (List.mem_cons_self row rest))
    have hrw : addRows.go s first link (row :: rest) =
        addRows.go (addRow s first link row).1 (addRow s first link row).2.1
          (addRow s first link row).2.2 rest := rfl
    obtain ⟨ihA, ihB⟩ :=
      ihr (addRow s first link row).1 (addRow s first link row).2.1
        (addRow s first link row).2.2 (m + 1 + rowCount row) hRB1
        (fun rw hm => hrows rw (List.mem_cons_of_mem row hm))
    -- tops below m + 1 + rowCount row survive the remaining rows
    obtain ⟨hg1, hg2, hg3, hg4, hg5, hg6, hg7⟩ :=
      addRows_go_spec W rest (addRow s first link row).1
        (addRow s first link row).2.1 (addRow s first link row).2.2
        (m + 1 + rowCount row) hRB1.2.1 (RB_to_VBC W _ _ hRB1) hRB1.1
        hRB1.2.2.2.2 (fun rw hm => hrows rw (List.mem_cons_of_mem row hm))
    rw [hrw]
    have hlen' : (row :: rest).length = rest.length + 1 := rfl
    refine ⟨?_, ?_⟩
    · rw [hlen', relSid_cons]
      exact ihA
    · intro r hr j k hj hjk hk
      cases r with
      | zero =>
        have hs0 : relSid m (row :: rest) 0 = m := rfl
        have hc0 : rowCount ((row :: rest).getD 0 []) = rowCount row := rfl
        rw [hs0] at hj
        rw [hs0, hc0] at hk
        have hjb : j < m + 1 + rowCount row := by omega
        have hkb : k < m + 1 + rowCount row := by omega
        rw [hg3 j hjb (by omega), hg3 k hkb (by omega)]
        exact hpair0 j k hj hjk hk
      | succ r =>
        rw [relSid_cons] at hj hk
        have hcr : rowCount ((row :: rest).getD (r + 1) []) =
            rowCount (rest.getD r []) := rfl
        rw [hcr] at hk
        exact ihB r (by rw [hlen'] at hr; omega) j k hj hjk hk

/-- Propriety of the horizontal (header) ring: `left`/`right` are mutually
inverse and in bounds everywhere. -/
def HP2 (s : Net) : Prop :=
  s.left.length = s.right.length ∧
  ∀ x, x < s.left.length → leftN s x < s.left.length ∧
    rightN s x < s.left.length ∧
    rightN s (leftN s x) = x ∧ leftN s (rightN s x) = x

theorem addColumn_hp2 (s : Net) (nm : Option String)
    (hp : HP2 s) (hul : s.up.length = s.left.length) :
    HP2 (addColumn s nm).1 ∧ (addColumn s nm).1.left.length = s.left.length + 1 ∧
    (addColumn s nm).1.up.length = (addColumn s nm).1.left.length ∧
    leftN (addColumn s nm).1 s.left.length = s.left.length ∧
    rightN (addColumn s nm).1 s.left.length = s.left.length ∧
    (∀ x, x < s.left.length →
      leftN (addColumn s nm).1 x = leftN s x ∧
      rightN (addColumn s nm).1 x = rightN s x) := by
  obtain ⟨hlr, hprop⟩ := hp
  have hL : (addColumn s nm).1.left = s.left ++ [s.up.length] := rfl
  have hR : (addColumn s nm).1.right = s.right ++ [s.up.length] := rfl
  have hU : (addColumn s nm).1.up = s.up ++ [some s.up.length] := rfl
  have hpres : ∀ x, x < s.left.length →
      leftN (addColumn s nm).1 x = leftN s x ∧
      rightN (addColumn s nm).1 x = rightN s x := by
    intro x hx
    constructor
    · show (s.left ++ [s.up.length]).getD x 0 = leftN s x
      exact getD_append_lt _ _ _ _ hx
    · show (s.right ++ [s.up.length]).getD x 0 = rightN s x
      exact getD_append_lt _ _ _ _ (by omega)
  have hnewl : leftN (addColumn s nm).1 s.left.length = s.left.length := by
    show (s.left ++ [s.up.length]).getD s.left.length 0 = s.left.length
    have := getD_append_len s.left s.up.length (0 : Nat)
    rw [this, hul]
  have hnewr : rightN (addColumn s nm).1 s.left.length = s.left.length := by
    show (s.right ++ [s.up.length]).getD s.left.length 0 = s.left.length
    rw [hlr]
    have := getD_append_len s.right s.up.length (0 : Nat)
    rw [this, hul, hlr]
  have hlen : (addColumn s nm).1.left.length = s.left.length + 1 := by
    rw [hL, List.length_append, List.length_cons, List.length_nil]
  refine ⟨⟨?_, ?_⟩, hlen, ?_, hnewl, hnewr, hpres⟩
  · rw [hL, hR]
    simp [hlr]
  · intro x hx
    rw [hlen] at hx
    rcases eq_or_ne x s.left.length with hxl | hxl
    · subst hxl
      refine ⟨by rw [hnewl, hlen]; omega, by rw [hnewr, hlen]; omega, ?_, ?_⟩
      · rw [hnewl, hnewr]
      · rw [hnewr, hnewl]
    · have hx' : x < s.left.length := by omega
      obtain ⟨hp1, hp2', hp3, hp4⟩ := hprop x hx'
      obtain ⟨he1, he2⟩ := hpres x hx'
      rw [he1, he2, (hpres _ hp1).2, (hpres _ hp2').1, hp3, hp4, hlen]
      exact ⟨by omega, by omega, rfl, rfl⟩
  · rw [hlen, hU, List.length_append, List.length_cons, List.length_nil, hul]

theorem addRightOp_eq (s : Net) (i j : Nat) (hij : i ≠ j) :
    addRightOp s i j =
      ⟨ s.name, (s.left.set j i).set (rightN s i) j,
        (s.right.set j (rightN s i)).set i j,
        s.top, s.up, s.down, s.spacerSer ⟩ := by
  rw [addRightOp]
  dsimp only [rightN]
  have e1 : (s.right.set j (s.right.getD i 0)).getD i 0 = s.right.getD i 0 :=
    getD_set_ne _ _ _ _ _ (fun h => hij h.symm)
  rw [e1]

theorem addRightOp_hp2 (s : Net) (i j : Nat) (hp : HP2 s)
    (hi : i < s.left.length) (hj : j < s.left.length) (hij : i ≠ j)
    (hfl : leftN s j = j) (hfr : rightN s j = j) :
    HP2 (addRightOp s i j) ∧
    (addRightOp s i j).left.length = s.left.length := by
  obtain ⟨hlr, hprop⟩ := hp
  have hnpl : ∀ x, x < s.left.length → leftN s x = j → x = j := by
    intro x hx hlx
    have h := (hprop x hx).2.2.1
    rw [hlx, hfr] at h
    exact h.symm
  have hnpr : ∀ x, x < s.left.length → rightN s x = j → x = j := by
    intro x hx hrx
    have h := (hprop x hx).2.2.2
    rw [hrx, hfl] at h
    exact h.symm
  set r0 := rightN s i with hr0def
  have hr0b : r0 < s.left.length := (hprop i hi).2.1
  have hr0j : r0 ≠ j := by
    intro he
    exact hij (hnpr i hi he)
  have harr := addRightOp_eq s i j hij
  have hLlen : (addRightOp s i j).left.length = s.left.length := by
    rw [harr]
    show ((s.left.set j i).set r0 j).length = s.left.length
    rw [List.length_set, List.length_set]
  have hRlen : (addRightOp s i j).right.length = s.right.length := by
    rw [harr]
    show ((s.right.set j r0).set i j).length = s.right.length
    rw [List.length_set, List.length_set]
  -- reads of the final state
  have hLj : leftN (addRightOp s i j) j = i := by
    rw [harr]
    show ((s.left.set j i).set r0 j).getD j 0 = i
    rw [getD_set_ne _ _ _ _ _ hr0j]
    exact getD_set_self _ _ _ _ hj
  have hLr0 : leftN (addRightOp s i j) r0 = j := by
    rw [harr]
    show ((s.left.set j i).set r0 j).getD r0 0 = j
    exact getD_set_self _ _ _ _ (by rw [List.length_set]; exact hr0b)
  have hLx : ∀ x, x ≠ j → x ≠ r0 → leftN (addRightOp s i j) x = leftN s x := by
    intro x hx1 hx2
    rw [harr]
    show ((s.left.set j i).set r0 j).getD x 0 = leftN s x
    rw [getD_set_ne _ _ _ _ _ (fun h => hx2 h.symm), getD_set_ne _ _ _ _ _ (fun h => hx1 h.symm)]
    rfl
  have hRi : rightN (addRightOp s i j) i = j := by
    rw [harr]
    show ((s.right.set j r0).set i j).getD i 0 = j
    exact getD_set_self _ _ _ _ (by rw [List.length_set]; omega)
  have hRj : rightN (addRightOp s i j) j = r0 := by
    rw [harr]
    show ((s.right.set j r0).set i j).getD j 0 = r0
    rw [getD_set_ne _ _ _ _ _ hij]
    exact getD_set_self _ _ _ _ (by omega)
  have hRx : ∀ x, x ≠ i → x ≠ j → rightN (addRightOp s i j) x = rightN s x := by
    intro x hx1 hx2
    rw [harr]
    show ((s.right.set j r0).set i j).getD x 0 = rightN s x
    rw [getD_set_ne _ _ _ _ _ (fun h => hx1 h.symm), getD_set_ne _ _ _ _ _ (fun h => hx2 h.symm)]
    rfl
  refine ⟨⟨by rw [hLlen, hRlen]; exact hlr, ?_⟩, hLlen⟩
  intro x hx
  rw [hLlen] at hx ⊢
  have hir0 : leftN s r0 = i := (hprop i hi).2.2.2
  rcases eq_or_ne x j with hxj | hxj
  · subst hxj
    rw [hLj, hRj, hRi, hLr0]
    exact ⟨by omega, by omega, rfl, rfl⟩
  · rcases eq_or_ne x r0 with hxr | hxr
    · subst hxr
      rcases eq_or_ne r0 i with hri | hri
      · rw [hri] at hLr0
        refine ⟨by rw [hri, hLr0]; omega, by rw [hri, hRi]; omega, ?_, ?_⟩
        · rw [hri, hLr0, hRj]
          exact hri
        · rw [hri, hRi, hLj]
      · have hrr : rightN s r0 < s.left.length := (hprop r0 (by omega)).2.1
        have hrrx : leftN s (rightN s r0) = r0 := (hprop r0 (by omega)).2.2.2
        have hrrj : rightN s r0 ≠ j := by
          intro he
          exact hr0j (hnpr r0 (by omega) he)
        have hrrr0 : rightN s r0 ≠ r0 := by
          intro he
          rw [he] at hrrx
          rw [hrrx] at hir0
          exact hri hir0
        refine ⟨by rw [hLr0]; omega, by rw [hRx r0 hri hr0j]; omega, ?_, ?_⟩
        · rw [hLr0, hRj]
        · rw [hRx r0 hri hr0j, hLx (rightN s r0) hrrj hrrr0, hrrx]
    · have hlx : leftN s x < s.left.length := (hprop x hx).1
      have hrx : rightN s x < s.left.length := (hprop x hx).2.1
      have hplx : rightN s (leftN s x) = x := (hprop x hx).2.2.1
      have hprx : leftN s (rightN s x) = x := (hprop x hx).2.2.2
      rcases eq_or_ne x i with hxi | hxi
      · subst hxi
        have hlii : leftN s x ≠ x := by
          intro he
          rw [he] at hplx
          exact hxr hplx.symm
        have hlij : leftN s x ≠ j := by
          intro he
          exact hxj (hnpl x hx he)
        rw [hLx x hxj hxr, hRi, hRx (leftN s x) hlii hlij, hLj, hplx]
        exact ⟨by omega, by omega, rfl, rfl⟩
      · have hlxi : leftN s x ≠ i := by
          intro he
          rw [he] at hplx
          exact hxr hplx.symm
        have hlxj : leftN s x ≠ j := by
          intro he
          exact hxj (hnpl x hx he)
        have hrxj : rightN s x ≠ j := by
          intro he
          exact hxj (hnpr x hx he)
        have hrxr0 : rightN s x ≠ r0 := by
          intro he
          rw [he, hir0] at hprx
          exact hxi hprx.symm
        rw [hLx x hxj hxr, hRx x hxi hxj, hRx (leftN s x) hlxi hlxj,
          hLx (rightN s x) hrxj hrxr0, hplx, hprx]
        exact ⟨by omega, by omega, rfl, rfl⟩

theorem hp2_congr (s s' : Net) (hl : s'.left = s.left) (hr : s'.right = s.right)
    (h : HP2 s) : HP2 s' := by
  obtain ⟨h1, h2⟩ := h
  have hleft : ∀ x, leftN s' x = leftN s x := by
    intro x
    rw [leftN, hl]
    rfl
  have hright : ∀ x, rightN s' x = rightN s x := by
    intro x
    rw [rightN, hr]
    rfl
  refine ⟨by rw [hl, hr]; exact h1, ?_⟩
  intro x hx
  rw [hl] at hx
  obtain ⟨g1, g2, g3, g4⟩ := h2 x hx
  rw [hl, hleft, hright, hleft, hright, g3, g4]
  exact ⟨g1, g2, rfl, rfl⟩

/-- The header loop keeps the horizontal ring proper. -/
theorem addHeaders_go_hp2 (primary : Nat) (names : List String) :
    ∀ (rem : Nat) (s : Net) (k leftVar : Nat),
    HP2 s → s.up.length = s.left.length → leftVar < s.left.length →
    HP2 (addHeaders.go primary names s k leftVar rem) ∧
    (addHeaders.go primary names s k leftVar rem).left.length =
      s.left.length + rem := by
  intro rem
  induction rem with
  | zero =>
    intro s k leftVar hp hul hlv
    have h0 : addHeaders.go primary names s k leftVar 0 = s := rfl
    rw [h0]
    exact ⟨hp, by omega⟩
  | succ rem ihr =>
    intro s k leftVar hp hul hlv
    obtain ⟨hpc, hclen, hcul, hnewl, hnewr, hpres⟩ :=
      addColumn_hp2 s (some (names.getD k "")) hp hul
    have hp2 : (addColumn s (some (names.getD k ""))).2 = s.left.length := by
      show s.up.length = s.left.length
      exact hul
    have hgo : addHeaders.go primary names s k leftVar (rem + 1) =
        addHeaders.go primary names
          (if k < primary
            then addRightOp (addColumn s (some (names.getD k ""))).1 leftVar
              (addColumn s (some (names.getD k ""))).2
            else (addColumn s (some (names.getD k ""))).1)
          (k + 1) (addColumn s (some (names.getD k ""))).2 rem := rfl
    set s2 := (if k < primary
      then addRightOp (addColumn s (some (names.getD k ""))).1 leftVar
        (addColumn s (some (names.getD k ""))).2
      else (addColumn s (some (names.getD k ""))).1) with hs2
    have hs2hp : HP2 s2 ∧ s2.left.length = s.left.length + 1 := by
      rw [hs2]
      by_cases h : k < primary
      · rw [if_pos h]
        obtain ⟨ha, hb⟩ := addRightOp_hp2 (addColumn s (some (names.getD k ""))).1
          leftVar (addColumn s (some (names.getD k ""))).2 hpc
          (by rw [hclen]; omega) (by rw [hclen, hp2]; omega)
          (by rw [hp2]; omega)
          (by rw [hp2]; exact hnewl) (by rw [hp2]; exact hnewr)
        exact ⟨ha, by rw [hb, hclen]⟩
      · rw [if_neg h]
        exact ⟨hpc, hclen⟩
    have hs2ul : s2.up.length = s2.left.length := by
      rw [hs2]
      by_cases h : k < primary
      · rw [if_pos h]
        show (addColumn s (some (names.getD k ""))).1.up.length =
          (addRightOp _ _ _).left.length
        rw [(addRightOp_hp2 (addColumn s (some (names.getD k ""))).1
          leftVar (addColumn s (some (names.getD k ""))).2 hpc
          (by rw [hclen]; omega) (by rw [hclen, hp2]; omega)
          (by rw [hp2]; omega)
          (by rw [hp2]; exact hnewl) (by rw [hp2]; exact hnewr)).2]
        exact hcul
      · rw [if_neg h]
        exact hcul
    obtain ⟨ih1, ih2⟩ := ihr s2 (k + 1) (addColumn s (some (names.getD k ""))).2
      hs2hp.1 hs2ul (by rw [hs2hp.2, hp2]; omega)
    rw [hgo]
    exact ⟨ih1, by rw [ih2, hs2hp.2]; omega⟩

/-- The freshly built arena has a proper horizontal ring of `count + 1`
headers (root included). -/
theorem buildArena_hp2 (matrix : XMatrix) (names : List String) (prim : Nat) :
    HP2 (buildArena matrix names prim) ∧
    (buildArena matrix names prim).left.length =
      max (matrix.headD []).length names.length + 1 := by
  set cnt := max (matrix.headD []).length names.length with hcnt
  set s1 := (addColumn Net.empty none).1 with hs1
  have hp1 : HP2 s1 := by
    refine ⟨rfl, ?_⟩
    intro x hx
    have hx1 : s1.left.length = 1 := rfl
    have hx0 : x = 0 := by omega
    subst hx0
    exact ⟨by decide, by decide, by decide, by decide⟩
  obtain ⟨hgh, hglen⟩ := addHeaders_go_hp2 prim names cnt s1 0 0 hp1 rfl (by decide)
  have hsh : addHeaders s1 cnt prim names = addHeaders.go prim names s1 0 0 cnt := rfl
  have hba : buildArena matrix names prim =
      addRows.go (addHeaders s1 cnt prim names) none none matrix := rfl
  obtain ⟨hbl, hbr⟩ := addRows_go_left_right matrix (addHeaders s1 cnt prim names) none none
  constructor
  · rw [hba]
    refine hp2_congr (addHeaders s1 cnt prim names) _ hbl hbr ?_
    rw [hsh]
    exact hgh
  · rw [hba]
    show (addRows.go (addHeaders s1 cnt prim names) none none matrix).left.length = cnt + 1
    rw [hbl, hsh, hglen]
    have h1 : s1.left.length = 1 := rfl
    omega

/-- Rings and row monotonicity of the full build. -/
theorem buildArena_RB (matrix : XMatrix) (names : List String) (prim : Nat)
    (W m : Nat) (hWd : W = max (matrix.headD []).length names.length)
    (hm : m = W + 1)
    (hrows : ∀ row ∈ matrix, row.length ≤ W) :
    RB W (relSid m matrix matrix.length + 1) (buildArena matrix names prim) ∧
    (∀ r, r < matrix.length → ∀ j k,
      relSid m matrix r < j → j < k →
      k ≤ relSid m matrix r + rowCount (matrix.getD r []) →
      topI (buildArena matrix names prim) j <
      topI (buildArena matrix names prim) k) := by
  subst hWd
  subst hm
  set cnt := max (matrix.headD []).length names.length with hcnt
  set s2 := addHeaders (addColumn Net.empty none).1 cnt prim names with hs2
  have hba : buildArena matrix names prim = addRows.go s2 none none matrix := rfl
  obtain ⟨hgu, hgd, hgt, hgs⟩ :=
    addHeaders_go_vert prim names cnt (addColumn Net.empty none).1 0 0
  have hup : s2.up = some 0 :: (List.range' 1 cnt).map some := by
    rw [show s2.up =
      (addHeaders.go prim names (addColumn Net.empty none).1 0 0 cnt).up from rfl,
      hgu]
    rfl
  have hdown : s2.down = some 0 :: (List.range' 1 cnt).map some := by
    rw [show s2.down =
      (addHeaders.go prim names (addColumn Net.empty none).1 0 0 cnt).down from rfl,
      hgd]
    rfl
  have htop : s2.top = (0 : Int) :: List.replicate cnt 0 := by
    rw [show s2.top =
      (addHeaders.go prim names (addColumn Net.empty none).1 0 0 cnt).top from rfl,
      hgt]
    rfl
  have hser : s2.spacerSer = 0 := by
    rw [show s2.spacerSer =
      (addHeaders.go prim names (addColumn Net.empty none).1 0 0 cnt).spacerSer
      from rfl, hgs]
    rfl
  have hulen : s2.up.length = cnt + 1 := by
    rw [hup]
    simp
  have hlen2 : lensEq s2 (cnt + 1) :=
    ⟨hulen, by rw [hdown]; simp, by rw [htop]; simp⟩
  have hRB2 : RB cnt (cnt + 1) s2 := by
    refine ⟨by omega, hlen2, ?_, ?_, by rw [hser]⟩
    · intro c hc1 hcW
      obtain ⟨c', rfl⟩ : ∃ c', c = c' + 1 := ⟨c - 1, by omega⟩
      have hcu : upO s2 (c' + 1) = some (c' + 1) := by
        show s2.up.getD (c' + 1) none = some (c' + 1)
        rw [hup, List.getD_cons_succ, getD_map_some_range cnt 1 c' (by omega)]
        congr 1
        omega
      have hcd : downO s2 (c' + 1) = some (c' + 1) := by
        show s2.down.getD (c' + 1) none = some (c' + 1)
        rw [hdown, List.getD_cons_succ, getD_map_some_range cnt 1 c' (by omega)]
        congr 1
        omega
      refine ⟨[], ?_, List.nodup_singleton _, ?_⟩
      · rw [ringTo]
        show List.Chain' (edgeUD s2) [c' + 1, c' + 1]
        rw [List.chain'_cons]
        exact ⟨⟨hcd, hcu⟩, List.chain'_singleton _⟩
      · intro j
        simp only [List.not_mem_nil, false_iff]
        intro ⟨hw, hb, _⟩
        omega
    · intro j hw hb
      omega
  obtain ⟨hA, hB⟩ := addRows_go_RB cnt matrix s2 none none (cnt + 1) hRB2 hrows
  rw [hba]
  exact ⟨hA, hB⟩

/-- The column a node belongs to, read from the pristine arena `t`:
headers name themselves, other nodes their `top` entry. -/
def colT (W : Nat) (t : Net) (j : Nat) : Int :=
  if j ≤ W then (j : Int) else topI t j

/-- The invariant maintained while `cover` unlinks nodes (`rem` is the set
of unlinked nodes): lengths are fixed, non-header tops agree with the
pristine arena `t`, spacer links are pristine, links of any node whose
whole column is untouched are pristine, every column ring lists exactly
its still-linked option nodes, and the horizontal arrays are pristine. -/
def CI (W n : Nat) (t s : Net) (rem : List Nat) : Prop :=
  lensEq s n ∧
  (∀ j, W < j → j < n → topI s j = topI t j) ∧
  (∀ j, W < j → j < n → topI t j ≤ 0 → upO s j = upO t j ∧ downO s j = downO t j) ∧
  (∀ j, j < n → 1 ≤ colT W t j → colT W t j ≤ (W : Int) →
    (∀ k, k ∈ rem → colT W t k ≠ colT W t j) →
    upO s j = upO t j ∧ downO s j = downO t j) ∧
  (∀ c, 1 ≤ c → c ≤ W → ∃ L, ringTo s c L ∧ (c :: L).Nodup ∧
    (∀ j, j ∈ L ↔ (W < j ∧ j < n ∧ topI t j = (c : Int) ∧ j ∉ rem))) ∧
  s.left = t.left ∧ s.right = t.right ∧ s.name = t.name ∧
  s.spacerSer = t.spacerSer

theorem CI_init (W n : Nat) (t : Net) (h : RB W n t) : CI W n t t [] := by
  obtain ⟨hWn, hlen, hrings, htop, hser⟩ := h
  refine ⟨hlen, fun j _ _ => rfl, fun j _ _ _ => ⟨rfl, rfl⟩,
    fun j _ _ _ _ => ⟨rfl, rfl⟩, ?_, rfl, rfl, rfl, rfl⟩
  intro c hc1 hcW
  obtain ⟨L, hring, hnd, hiff⟩ := hrings c hc1 hcW
  refine ⟨L, hring, hnd, ?_⟩
  intro j
  rw [hiff j]
  simp

theorem CI_rem_congr (W n : Nat) (t s : Net) (rem rem' : List Nat)
    (hr : ∀ j, j ∈ rem ↔ j ∈ rem') (h : CI W n t s rem) : CI W n t s rem' := by
  obtain ⟨h1, h2, h3, h4, h5, h6, h7, h8, h9⟩ := h
  refine ⟨h1, h2, h3, ?_, ?_, h6, h7, h8, h9⟩
  · intro j hj hc1 hc2 hcond
    exact h4 j hj hc1 hc2 (fun k hk => hcond k ((hr k).mp hk))
  · intro c hc1 hcW
    obtain ⟨L, hring, hnd, hiff⟩ := h5 c hc1 hcW
    refine ⟨L, hring, hnd, ?_⟩
    intro j
    rw [hiff j]
    constructor
    · intro ⟨a, b, c', d⟩
      exact ⟨a, b, c', fun hj => d ((hr j).mpr hj)⟩
    · intro ⟨a, b, c', d⟩
      exact ⟨a, b, c', fun hj => d ((hr j).mp hj)⟩

/-- Unlinking a still-linked option node: the cancellation conditions hold
now, and the invariant survives with the node recorded as removed. -/
theorem CI_vunlink (W n : Nat) (t s : Net) (rem : List Nat) (q c : Nat)
    (hci : CI W n t s rem) (hq : W < q) (hqn : q < n)
    (hc1 : 1 ≤ c) (hcW : c ≤ W) (htq : topI t q = (c : Int))
    (hqrem : q ∉ rem) :
    (downO s (upN s q) = some q ∧ upO s (downN s q) = some q ∧
     upN s q ≠ q ∧ (topI s q).toNat ≠ q ∧
     upN s q < s.down.length ∧ downN s q < s.up.length ∧
     (topI s q).toNat < s.top.length) ∧
    CI W n t (vunlink s q) (q :: rem) := by
  obtain ⟨hlen, htagree, hsp, hF, hrings, hL, hR, hN, hS⟩ := hci
  obtain ⟨hl1, hl2, hl3⟩ := hlen
  obtain ⟨L, hring, hnd, hiff⟩ := hrings c hc1 hcW
  have hqL : q ∈ L := (hiff q).mpr ⟨hq, hqn, htq, hqrem⟩
  obtain ⟨as, bs, hLsplit⟩ := List.append_of_mem hqL
  subst hLsplit
  have hmemn : ∀ j ∈ c :: (as ++ q :: bs), j < n := by
    intro j hj
    rcases List.mem_cons.mp hj with h | h
    · omega
    · exact ((hiff j).mp h).2.1
  obtain ⟨hu, hd, huq, hum, hdm, hringnew⟩ :=
    ring_vunlink s n c q as bs hring hnd ⟨hl1, hl2, hl3⟩ hmemn
  have htsq : topI s q = (c : Int) := by rw [htagree q hq hqn]; exact htq
  have htsqn : (topI s q).toNat = c := by rw [htsq]; exact Int.toNat_natCast c
  have hcanc : downO s (upN s q) = some q ∧ upO s (downN s q) = some q ∧
      upN s q ≠ q ∧ (topI s q).toNat ≠ q ∧
      upN s q < s.down.length ∧ downN s q < s.up.length ∧
      (topI s q).toNat < s.top.length := by
    refine ⟨hu, hd, huq, by omega, ?_, ?_, by omega⟩
    · rw [hl2]
      exact hmemn _ hum
    · rw [hl1]
      exact hmemn _ hdm
  -- column facts of the two spliced cells
  have hcell : ∀ x, x ∈ c :: (as ++ q :: bs) → colT W t x = (c : Int) := by
    intro x hx
    rcases List.mem_cons.mp hx with h | h
    · rw [h, colT, if_pos (by omega)]
    · obtain ⟨hw, _, ht, _⟩ := (hiff x).mp h
      rw [colT, if_neg (by omega)]
      exact ht
  have hcolq : colT W t q = (c : Int) := by
    rw [colT, if_neg (by omega)]
    exact htq
  refine ⟨hcanc, ⟨?_, ?_, ?_, ?_, ?_, ?_, ?_, ?_, ?_⟩⟩
  · rw [vunlink_eq]
    refine ⟨?_, ?_, ?_⟩
    · show (s.up.set (downN s q) (some (upN s q))).length = n
      rw [List.length_set]
      exact hl1
    · show (s.down.set (upN s q) (some (downN s q))).length = n
      rw [List.length_set]
      exact hl2
    · show (s.top.set (topI s q).toNat (topI s (topI s q).toNat - 1)).length = n
      rw [List.length_set]
      exact hl3
  · intro j hw hb
    rw [vunlink_topI_ne s q j (by omega)]
    exact htagree j hw hb
  · -- spacer links untouched
    intro j hw hb ht
    have hne : ∀ x, x ∈ c :: (as ++ q :: bs) → j ≠ x := by
      intro x hx he
      rcases List.mem_cons.mp hx with h | h
      · omega
      · obtain ⟨_, _, htx, _⟩ := (hiff x).mp h
        rw [he, htx] at ht
        omega
    constructor
    · rw [vunlink_upO_ne s q j (hne _ hdm)]
      exact (hsp j hw hb ht).1
    · rw [vunlink_downO_ne s q j (hne _ hum)]
      exact (hsp j hw hb ht).2
  · -- untouched-column links stay pristine
    intro j hj hj1 hj2 hcond
    have hqj : colT W t q ≠ colT W t j := hcond q (List.mem_cons_self q rem)
    have hju : j ≠ upN s q := by
      intro he
      apply hqj
      rw [hcolq, he]
      exact (hcell _ hum).symm
    have hjd : j ≠ downN s q := by
      intro he
      apply hqj
      rw [hcolq, he]
      exact (hcell _ hdm).symm
    have hFj := hF j hj hj1 hj2 (fun k hk => hcond k (List.mem_cons_of_mem _ hk))
    exact ⟨by rw [vunlink_upO_ne s q j hjd]; exact hFj.1,
      by rw [vunlink_downO_ne s q j hju]; exact hFj.2⟩
  · -- the rings
    intro c' hc'1 hc'W
    by_cases hcc : c' = c
    · subst hcc
      have hndtail : (as ++ q :: bs).Nodup := (List.nodup_cons.mp hnd).2
      have hqas : q ∉ as := by
        rw [List.nodup_append] at hndtail
        exact fun h => hndtail.2.2 h (List.mem_cons_self q bs)
      have hqbs : q ∉ bs := by
        rw [List.nodup_append] at hndtail
        exact (List.nodup_cons.mp hndtail.2.1).1
      refine ⟨as ++ bs, hringnew, ?_, ?_⟩
      · have hsub : (c' :: (as ++ bs)).Sublist (c' :: (as ++ q :: bs)) :=
          List.Sublist.cons₂ c' (List.Sublist.append_left (List.sublist_cons_self q bs) as)
        exact List.Nodup.sublist hsub hnd
      · intro j
        constructor
        · intro hjm
          have hjL : j ∈ as ++ q :: bs := by
            rcases List.mem_append.mp hjm with h | h
            · exact List.mem_append_left _ h
            · exact List.mem_append_right _ (List.mem_cons_of_mem _ h)
          obtain ⟨hw, hb, ht, hr⟩ := (hiff j).mp hjL
          have hjq : j ≠ q := by
            intro he
            subst he
            rcases List.mem_append.mp hjm with h | h
            · exact hqas h
            · exact hqbs h
          refine ⟨hw, hb, ht, ?_⟩
          intro hmem
          rcases List.mem_cons.mp hmem with h | h
          · exact hjq h
          · exact hr h
        · intro ⟨hw, hb, ht, hr⟩
          have hjq : j ≠ q := fun he => hr (he ▸ List.mem_cons_self q rem)
          have hjL : j ∈ as ++ q :: bs :=
            (hiff j).mpr ⟨hw, hb, ht, fun hmem => hr (List.mem_cons_of_mem _ hmem)⟩
          rcases List.mem_append.mp hjL with h | h
          · exact List.mem_append_left _ h
          · rcases List.mem_cons.mp h with h2 | h2
            · exact absurd h2 hjq
            · exact List.mem_append_right _ h2
    · obtain ⟨L', hring', hnd', hiff'⟩ := hrings c' hc'1 hc'W
      have hccI : (c' : Int) ≠ (c : Int) := by
        intro he
        exact hcc (by exact_mod_cast he)
      have hcell' : ∀ x, x ∈ c' :: L' → x ≠ upN s q ∧ x ≠ downN s q := by
        intro x hx
        have hcx : colT W t x = (c' : Int) := by
          rcases List.mem_cons.mp hx with h | h
          · rw [h, colT, if_pos (by omega)]
          · obtain ⟨hw, _, ht, _⟩ := (hiff' x).mp h
            rw [colT, if_neg (by omega)]
            exact ht
        constructor
        · intro he
          apply hccI
          rw [← hcx, he]
          exact hcell _ hum
        · intro he
          apply hccI
          rw [← hcx, he]
          exact hcell _ hdm
      refine ⟨L', ringTo_mono s _ c' L' ?_ hring', hnd', ?_⟩
      · intro x hx
        obtain ⟨hx1, hx2⟩ := hcell' x hx
        exact ⟨vunlink_upO_ne s q x hx2, vunlink_downO_ne s q x hx1⟩
      · intro j
        rw [hiff' j]
        constructor
        · intro ⟨hw, hb, ht, hr⟩
          refine ⟨hw, hb, ht, ?_⟩
          intro hmem
          rcases List.mem_cons.mp hmem with h | h
          · rw [h, htq] at ht
            exact hccI ht.symm
          · exact hr h
        · intro ⟨hw, hb, ht, hr⟩
          exact ⟨hw, hb, ht, fun hmem => hr (List.mem_cons_of_mem _ hmem)⟩
  · rw [vunlink_eq]
    exact hL
  · rw [vunlink_eq]
    exact hR
  · rw [vunlink_eq]
    exact hN
  · rw [vunlink_eq]
    exact hS

/-- Unlinking a list of distinct still-linked option nodes keeps the
invariant, and relinking them in reverse order undoes everything. -/
theorem CI_foldl_unwind (W n : Nat) (t : Net) :
    ∀ (qs : List Nat) (s : Net) (rem : List Nat),
    CI W n t s rem →
    (∀ x ∈ qs, W < x ∧ x < n ∧
      (∃ c, 1 ≤ c ∧ c ≤ W ∧ topI t x = (c : Int)) ∧ x ∉ rem) →
    qs.Nodup →
    CI W n t (List.foldl vunlink s qs) (qs ++ rem) ∧
    List.foldl vrelink (List.foldl vunlink s qs) qs.reverse = s := by
  intro qs
  induction qs with
  | nil =>
    intro s rem hci _ _
    exact ⟨by simpa using hci, rfl⟩
  | cons q rest ih =>
    intro s rem hci hfacts hnd
    obtain ⟨hw, hb, ⟨c, hc1, hcW, htc⟩, hr⟩ := hfacts q (List.mem_cons_self q rest)
    obtain ⟨hcanc, hci'⟩ := CI_vunlink W n t s rem q c hci hw hb hc1 hcW htc hr
    have hqrest : q ∉ rest := (List.nodup_cons.mp hnd).1
    obtain ⟨ihA, ihB⟩ := ih (vunlink s q) (q :: rem) hci'
      (fun x hx => by
        obtain ⟨a, b, cc, d⟩ := hfacts x (List.mem_cons_of_mem _ hx)
        refine ⟨a, b, cc, ?_⟩
        intro hmem
        rcases List.mem_cons.mp hmem with h | h
        · exact hqrest (h ▸ hx)
        · exact d h)
      (List.nodup_cons.mp hnd).2
    have hfold : List.foldl vunlink s (q :: rest) = List.foldl vunlink (vunlink s q) rest := rfl
    constructor
    · rw [hfold]
      refine CI_rem_congr W n t _ (rest ++ q :: rem) ((q :: rest) ++ rem) ?_ ihA
      intro j
      simp only [List.mem_append, List.mem_cons]
      tauto
    · rw [hfold, List.reverse_cons, List.foldl_append]
      show vrelink (List.foldl vrelink (List.foldl vunlink (vunlink s q) rest)
        rest.reverse) q = s
      rw [ihB]
      exact vrelink_vunlink_cancel s q hcanc.1 hcanc.2.1 hcanc.2.2.1
        hcanc.2.2.2.1 hcanc.2.2.2.2.1 hcanc.2.2.2.2.2.1 hcanc.2.2.2.2.2.2

/-- The ascending leg of `hide`'s walk unlinks the consecutive nodes
`q, q+1, …, q+len-1`. -/
theorem hideGo_phase (W n : Nat) (t : Net) :
    ∀ (len : Nat) (s : Net) (rem : List Nat) (p q fuel : Nat),
    CI W n t s rem →
    (∀ x, q ≤ x → x < q + len → W < x ∧ x < n ∧
      (∃ c, 1 ≤ c ∧ c ≤ W ∧ topI t x = (c : Int)) ∧ x ∉ rem ∧ x ≠ p) →
    len ≤ fuel →
    hideGo s p q fuel =
      hideGo (List.foldl vunlink s (List.range' q len)) p (q + len) (fuel - len) ∧
    CI W n t (List.foldl vunlink s (List.range' q len)) (List.range' q len ++ rem) := by
  intro len
  induction len with
  | zero =>
    intro s rem p q fuel hci _ _
    refine ⟨?_, ?_⟩
    · simp only [List.range'_zero, List.foldl_nil, Nat.add_zero, Nat.sub_zero]
    · simpa using hci
  | succ len ihl =>
    intro s rem p q fuel hci hfacts hfuel
    obtain ⟨f, rfl⟩ : ∃ f, fuel = f + 1 := ⟨fuel - 1, by omega⟩
    obtain ⟨hw, hb, ⟨c, hc1, hcW, htc⟩, hr, hp⟩ :=
      hfacts q (le_refl q) (by omega)
    obtain ⟨hcanc, hci'⟩ := CI_vunlink W n t s rem q c hci hw hb hc1 hcW htc hr
    have hts : topI s q = (c : Int) := by
      rw [hci.2.1 q hw hb]
      exact htc
    have hstep : hideGo s p q (f + 1) = hideGo (vunlink s q) p (q + 1) f := by
      rw [hideGo, if_neg hp, if_neg (by rw [hts]; omega)]
    obtain ⟨ihA, ihB⟩ := ihl (vunlink s q) (q :: rem) p (q + 1) f hci'
      (fun x hx1 hx2 => by
        obtain ⟨a, b, cc, d, e⟩ := hfacts x (by omega) (by omega)
        refine ⟨a, b, cc, ?_, e⟩
        intro hmem
        rcases List.mem_cons.mp hmem with h | h
        · omega
        · exact d h)
      (by omega)
    have hrange : List.range' q (len + 1) = q :: List.range' (q + 1) len :=
      List.range'_succ q len 1
    rw [hrange]
    have hfold : List.foldl vunlink s (q :: List.range' (q + 1) len) =
        List.foldl vunlink (vunlink s q) (List.range' (q + 1) len) := rfl
    rw [hfold]
    constructor
    · have e1 : q + 1 + len = q + (len + 1) := by omega
      have e2 : f - len = f + 1 - (len + 1) := by omega
      rw [hstep, ihA, e1, e2]
    · refine CI_rem_congr W n t _ _ _ ?_ ihB
      intro j
      simp only [List.mem_append, List.mem_cons, List.mem_range'_1]
      constructor
      · rintro (h | h | h)
        · exact Or.inl (by omega)
        · exact Or.inl (by omega)
        · exact Or.inr h
      · rintro (h | h)
        · rcases eq_or_ne j q with hq | hq
          · exact Or.inr (Or.inl hq)
          · exact Or.inl (by omega)
        · exact Or.inr (Or.inr h)

/-- The descending leg of `unhide`'s walk relinks `b+len-1, …, b` and
restores the state that existed before they were unlinked. -/
theorem unhideGo_phase (W n : Nat) (t : Net) :
    ∀ (len : Nat) (s0 : Net) (rem : List Nat) (p b fuel : Nat),
    CI W n t s0 rem →
    (∀ x, b ≤ x → x < b + len → W < x ∧ x < n ∧
      (∃ c, 1 ≤ c ∧ c ≤ W ∧ topI t x = (c : Int)) ∧ x ∉ rem ∧ x ≠ p) →
    1 ≤ b → len ≤ fuel →
    unhideGo (List.foldl vunlink s0 (List.range' b len)) p (b + len - 1) fuel =
      unhideGo s0 p (b - 1) (fuel - len) := by
  intro len
  induction len with
  | zero =>
    intro s0 rem p b fuel _ _ _ _
    simp only [List.range'_zero, List.foldl_nil, Nat.add_zero, Nat.sub_zero]
  | succ len ihl =>
    intro s0 rem p b fuel hci hfacts hb1 hfuel
    obtain ⟨f, rfl⟩ : ∃ f, fuel = f + 1 := ⟨fuel - 1, by omega⟩
    have hrange : List.range' b (len + 1) = List.range' b len ++ [b + len] := by
      have h1 : List.range' b (len + 1) 1 = List.range' b len 1 ++ [b + 1 * len] :=
        List.range'_concat b len
      rw [h1, one_mul]
    set q := b + len with hq
    obtain ⟨hw, hbn, ⟨c, hc1, hcW, htc⟩, hr, hp⟩ :=
      hfacts q (by omega) (by omega)
    obtain ⟨hciA, _⟩ := CI_foldl_unwind W n t (List.range' b len) s0 rem hci
      (fun x hx => by
        have hxx := List.mem_range'_1.mp hx
        obtain ⟨a, b', cc, d, e⟩ := hfacts x (by omega) (by omega)
        exact ⟨a, b', cc, d⟩)
      (List.nodup_range' b len)
    obtain ⟨hcanc, _⟩ := CI_vunlink W n t
      (List.foldl vunlink s0 (List.range' b len)) (List.range' b len ++ rem) q c
      hciA hw hbn hc1 hcW htc
      (by
        intro hmem
        rcases List.mem_append.mp hmem with h | h
        · have := List.mem_range'_1.mp h
          omega
        · exact hr h)
    set X' := List.foldl vunlink s0 (List.range' b len) with hX'
    have hfold : List.foldl vunlink s0 (List.range' b (len + 1)) =
        vunlink X' q := by
      rw [hrange, List.foldl_append]
      rfl
    have htX : topI (vunlink X' q) q = (c : Int) := by
      rw [vunlink_topI_ne X' q q ?hne]
      · rw [hciA.2.1 q hw hbn]
        exact htc
      case hne =>
        have : topI X' q = (c : Int) := by
          rw [hciA.2.1 q hw hbn]
          exact htc
        rw [this]
        have : ((c : Int)).toNat = c := Int.toNat_natCast c
        omega
    have hstep : unhideGo (vunlink X' q) p q (f + 1) =
        unhideGo (vrelink (vunlink X' q) q) p (q - 1) f := by
      rw [unhideGo, if_neg hp, if_neg (by rw [htX]; omega)]
    have hcancel : vrelink (vunlink X' q) q = X' :=
      vrelink_vunlink_cancel X' q hcanc.1 hcanc.2.1 hcanc.2.2.1
        hcanc.2.2.2.1 hcanc.2.2.2.2.1 hcanc.2.2.2.2.2.1 hcanc.2.2.2.2.2.2
    rw [hfold]
    have hpt : b + (len + 1) - 1 = q := by omega
    rw [hpt, hstep, hcancel]
    have hih := ihl s0 rem p b f hci
      (fun x hx1 hx2 => hfacts x (by omega) (by omega)) hb1 (by omega)
    have hq1 : q - 1 = b + len - 1 := by omega
    rw [hq1, hih]
    congr 1
    omega

/-- `hide p` unlinks exactly the other nodes of `p`'s row: first those to
the right of `p`, then — after bouncing off the trailing spacer — those to
its left. -/
theorem hide_eq (W n : Nat) (t s : Net) (rem : List Nat) (p first last : Nat)
    (hci : CI W n t s rem)
    (hfp : first ≤ p) (hpl : p ≤ last) (hWf : W < first) (hln : last + 1 < n)
    (hnodes : ∀ x, first ≤ x → x ≤ last → W < x ∧ x < n ∧
      (∃ c, 1 ≤ c ∧ c ≤ W ∧ topI t x = (c : Int)) ∧ (x ≠ p → x ∉ rem))
    (hsp_top : topI t (last + 1) ≤ 0)
    (hsp_up : upO t (last + 1) = some first) :
    hide s p = List.foldl vunlink s
      (List.range' (p + 1) (last - p) ++ List.range' first (p - first)) ∧
    CI W n t (hide s p)
      ((List.range' (p + 1) (last - p) ++ List.range' first (p - first)) ++ rem) := by
  have hlen1 : s.up.length = n := hci.1.1
  obtain ⟨hph1, hph1CI⟩ := hideGo_phase W n t (last - p) s rem p (p + 1) (n + 1)
    hci
    (fun x hx1 hx2 => by
      obtain ⟨a, b, cc, d⟩ := hnodes x (by omega) (by omega)
      exact ⟨a, b, cc, d (by omega), by omega⟩)
    (by omega)
  set SA := List.foldl vunlink s (List.range' (p + 1) (last - p)) with hSA
  have hsp1 : p + 1 + (last - p) = last + 1 := by omega
  rw [hsp1] at hph1
  -- the spacer bounce
  obtain ⟨f, hf⟩ : ∃ f, n + 1 - (last - p) = f + 1 + 1 := ⟨n - 1 - (last - p), by omega⟩
  have htSA : topI SA (last + 1) = topI t (last + 1) :=
    hph1CI.2.1 (last + 1) (by omega) (by omega)
  have huSA : upO SA (last + 1) = upO t (last + 1) :=
    (hph1CI.2.2.1 (last + 1) (by omega) (by omega) hsp_top).1
  have hspstep : hideGo SA p (last + 1) (n + 1 - (last - p)) =
      hideGo SA p first (f + 1) := by
    rw [hf, hideGo, if_neg (by omega), if_pos (by rw [htSA]; exact hsp_top)]
    congr 1
    rw [upN, huSA, hsp_up]
    rfl
  -- the second leg
  obtain ⟨hph2, hph2CI⟩ := hideGo_phase W n t (p - first) SA
    (List.range' (p + 1) (last - p) ++ rem) p first (f + 1) hph1CI
    (fun x hx1 hx2 => by
      obtain ⟨a, b, cc, d⟩ := hnodes x (by omega) (by omega)
      refine ⟨a, b, cc, ?_, by omega⟩
      intro hmem
      rcases List.mem_append.mp hmem with h | h
      · have := List.mem_range'_1.mp h
        omega
      · exact d (by omega) h)
    (by omega)
  have hsp2 : first + (p - first) = p := by omega
  rw [hsp2] at hph2
  have hstop : hideGo (List.foldl vunlink SA (List.range' first (p - first))) p p
      (f + 1 - (p - first)) = List.foldl vunlink SA (List.range' first (p - first)) := by
    obtain ⟨g, hg⟩ : ∃ g, f + 1 - (p - first) = g + 1 := ⟨f - (p - first), by omega⟩
    rw [hg, hideGo, if_pos rfl]
  have hmain : hide s p = List.foldl vunlink SA (List.range' first (p - first)) := by
    rw [hide, hlen1, hph1, hspstep, hph2, hstop]
  have hfold : List.foldl vunlink s
      (List.range' (p + 1) (last - p) ++ List.range' first (p - first)) =
      List.foldl vunlink SA (List.range' first (p - first)) := by
    rw [List.foldl_append]
  constructor
  · rw [hmain, hfold]
  · rw [hmain]
    refine CI_rem_congr W n t _ _ _ ?_ hph2CI
    intro j
    simp only [List.mem_append]
    tauto

/-- `unhide p`, run in the state `hide p` produced, relinks the row in the
exact reverse order and restores the starting arena. -/
theorem unhide_hide (W n : Nat) (t s : Net) (rem : List Nat) (p first last : Nat)
    (hci : CI W n t s rem)
    (hfp : first ≤ p) (hpl : p ≤ last) (hWf : W + 1 < first) (hln : last + 1 < n)
    (hnodes : ∀ x, first ≤ x → x ≤ last → W < x ∧ x < n ∧
      (∃ c, 1 ≤ c ∧ c ≤ W ∧ topI t x = (c : Int)) ∧ (x ≠ p → x ∉ rem))
    (hsp_top : topI t (last + 1) ≤ 0)
    (hsp_up : upO t (last + 1) = some first)
    (hsp0_top : topI t (first - 1) ≤ 0)
    (hsp0_down : downO t (first - 1) = some last)
    (hsp0_n : first - 1 < n) :
    unhide (hide s p) p = s := by
  obtain ⟨hmain, hciS⟩ := hide_eq W n t s rem p first last hci hfp hpl (by omega)
    hln hnodes hsp_top hsp_up
  set A := List.range' (p + 1) (last - p) with hA
  set B := List.range' first (p - first) with hB
  have hAfacts : ∀ x ∈ A, W < x ∧ x < n ∧
      (∃ c, 1 ≤ c ∧ c ≤ W ∧ topI t x = (c : Int)) ∧ x ∉ rem := by
    intro x hx
    have hxx := List.mem_range'_1.mp hx
    obtain ⟨a, b, cc, d⟩ := hnodes x (by omega) (by omega)
    exact ⟨a, b, cc, d (by omega)⟩
  obtain ⟨hciA, _⟩ := CI_foldl_unwind W n t A s rem hci hAfacts
    (List.nodup_range' _ _)
  set SA := List.foldl vunlink s A with hSA
  have hlenS : (hide s p).up.length = n := hciS.1.1
  -- phase 1: descend over B
  have hph1 := unhideGo_phase W n t (p - first) SA (A ++ rem) p first (n + 1)
    hciA
    (fun x hx1 hx2 => by
      obtain ⟨a, b, cc, d⟩ := hnodes x (by omega) (by omega)
      refine ⟨a, b, cc, ?_, by omega⟩
      intro hmem
      rcases List.mem_append.mp hmem with h | h
      · have := List.mem_range'_1.mp h
        omega
      · exact d (by omega) h)
    (by omega) (by omega)
  have hBp : first + (p - first) - 1 = p - 1 := by omega
  rw [hBp] at hph1
  -- the spacer bounce at first - 1
  obtain ⟨f, hf⟩ : ∃ f, n + 1 - (p - first) = f + 1 + 1 := ⟨n - 1 - (p - first), by omega⟩
  have htSA : topI SA (first - 1) = topI t (first - 1) :=
    hciA.2.1 (first - 1) (by omega) (by omega)
  have hdSA : downO SA (first - 1) = downO t (first - 1) :=
    (hciA.2.2.1 (first - 1) (by omega) (by omega) hsp0_top).2
  have hspstep : unhideGo SA p (first - 1) (n + 1 - (p - first)) =
      unhideGo SA p last (f + 1) := by
    rw [hf, unhideGo, if_neg (by omega), if_pos (by rw [htSA]; exact hsp0_top)]
    congr 1
    rw [downN, hdSA, hsp0_down]
    rfl
  -- phase 2: descend over A, back to the untouched state
  have hph2 := unhideGo_phase W n t (last - p) s rem p (p + 1) (f + 1)
    hci
    (fun x hx1 hx2 => by
      obtain ⟨a, b, cc, d⟩ := hnodes x (by omega) (by omega)
      exact ⟨a, b, cc, d (by omega), by omega⟩)
    (by omega) (by omega)
  have hAp : p + 1 + (last - p) - 1 = last := by omega
  rw [hAp] at hph2
  have hstop : unhideGo s p (p + 1 - 1) (f + 1 - (last - p)) = s := by
    obtain ⟨g, hg⟩ : ∃ g, f + 1 - (last - p) = g + 1 := ⟨f - (last - p), by omega⟩
    have hpp : p + 1 - 1 = p := by omega
    rw [hg, hpp, unhideGo, if_pos rfl]
  have hSfold : hide s p = List.foldl vunlink SA B := by
    rw [hmain, List.foldl_append]
  rw [unhide, hlenS, hSfold, hph1, hspstep, hph2, hstop]

/-- The shape of one row of option nodes `[first, last]` in the pristine
arena: spacers on both sides wired as the build leaves them, positive and
strictly increasing tops inside. -/
def RowAt (W n : Nat) (t : Net) (first last : Nat) : Prop :=
  W + 1 < first ∧ first ≤ last ∧ last + 1 < n ∧
  (∀ x, first ≤ x → x ≤ last → 1 ≤ topI t x) ∧
  topI t (last + 1) ≤ 0 ∧ upO t (last + 1) = some first ∧
  topI t (first - 1) ≤ 0 ∧ downO t (first - 1) = some last ∧
  (∀ x y, first ≤ x → x < y → y ≤ last → topI t x < topI t y)

/-- Every option node lies in a row. -/
def RowOf (W n : Nat) (t : Net) : Prop :=
  ∀ p, W < p → p < n → 1 ≤ topI t p →
    ∃ first last, first ≤ p ∧ p ≤ last ∧ RowAt W n t first last

/-- Two rows sharing a node coincide. -/
theorem rowAt_unique (W n : Nat) (t : Net) (f l f' l' x : Nat)
    (h1 : RowAt W n t f l) (h2 : RowAt W n t f' l')
    (hx1 : f ≤ x) (hx2 : x ≤ l) (hx1' : f' ≤ x) (hx2' : x ≤ l') :
    f = f' ∧ l = l' := by
  obtain ⟨a1, b1, c1, d1, e1, _, g1, _, _⟩ := h1
  obtain ⟨a2, b2, c2, d2, e2, _, g2, _, _⟩ := h2
  constructor
  · rcases Nat.lt_trichotomy f f' with h | h | h
    · have := d1 (f' - 1) (by omega) (by omega)
      omega
    · exact h
    · have := d2 (f - 1) (by omega) (by omega)
      omega
  · rcases Nat.lt_trichotomy l l' with h | h | h
    · have := d2 (l + 1) (by omega) (by omega)
      omega
    · exact h
    · have := d1 (l' + 1) (by omega) (by omega)
      omega

theorem nodup_length_le (L : List Nat) (n : Nat) (hnd : L.Nodup)
    (hb : ∀ x ∈ L, x < n) : L.length ≤ n := by
  have hsub : L.toFinset ⊆ Finset.range n := by
    intro x hx
    exact Finset.mem_range.mpr (hb x (List.mem_toFinset.mp hx))
  have hcard := Finset.card_le_card hsub
  rw [Finset.card_range] at hcard
  rw [← List.toFinset_card_of_nodup hnd]
  exact hcard

theorem getLast_cons_eq_getLastD :
    ∀ (l : List Nat) (a : Nat), (a :: l).getLast (by simp) = l.getLastD a := by
  intro l
  induction l with
  | nil => intro a; rfl
  | cons b l ih =>
    intro a
    rw [List.getLast_cons_cons, ih b, List.getLastD_cons]

/-- The row siblings `hide p` unlinks, in unlink order. -/
def sibsOf (u first last : Nat) : List Nat :=
  List.range' (u + 1) (last - u) ++ List.range' first (u - first)

/-- Hiding one row: the state is invariant-preserving with the row's
siblings recorded, and `unhide` undoes it exactly. -/
theorem hideRow (W n : Nat) (t s : Net) (rem : List Nat) (u first last : Nat)
    (hci : CI W n t s rem)
    (hTle : ∀ j, W < j → j < n → topI t j ≤ (W : Int))
    (hrowat : RowAt W n t first last)
    (hfu : first ≤ u) (hul : u ≤ last)
    (hremdisj : ∀ k ∈ rem, ¬(first ≤ k ∧ k ≤ last)) :
    unhide (hide s u) u = s ∧
    CI W n t (hide s u) (sibsOf u first last ++ rem) ∧
    (∀ k ∈ sibsOf u first last, first ≤ k ∧ k ≤ last ∧ k ≠ u) := by
  obtain ⟨ha, hb, hc, hd, he, hf, hg, hh, hmono⟩ := hrowat
  have hnodes : ∀ x, first ≤ x → x ≤ last → W < x ∧ x < n ∧
      (∃ c, 1 ≤ c ∧ c ≤ W ∧ topI t x = (c : Int)) ∧ (x ≠ u → x ∉ rem) := by
    intro x hx1 hx2
    have ht1 : 1 ≤ topI t x := hd x hx1 hx2
    have ht2 : topI t x ≤ (W : Int) := hTle x (by omega) (by omega)
    refine ⟨by omega, by omega, ⟨(topI t x).toNat, by omega, by omega, ?_⟩, ?_⟩
    · exact (Int.toNat_of_nonneg (by omega)).symm
    · intro _ hmem
      exact hremdisj x hmem ⟨hx1, hx2⟩
  obtain ⟨hmain, hciS⟩ := hide_eq W n t s rem u first last hci hfu hul (by omega)
    hc hnodes he hf
  refine ⟨?_, hciS, ?_⟩
  · exact unhide_hide W n t s rem u first last hci hfu hul ha hc hnodes he hf
      hg hh (by omega)
  · intro k hk
    rcases List.mem_append.mp hk with h | h
    · have := List.mem_range'_1.mp h
      exact ⟨by omega, by omega, by omega⟩
    · have := List.mem_range'_1.mp h
      exact ⟨by omega, by omega, by omega⟩

/-- The head of a list with one element appended. -/
theorem headq_append_single (l : List Nat) (a : Nat) :
    (l ++ [a]).head? = some (l.headD a) := by
  cases l <;> rfl

/-- The heart of claim C3: walking a suffix `post` of column `i`'s ring,
hiding each member's row, and then unhiding them in reverse order is the
same as not touching the arena at all; the covered state also keeps the
invariant with no `i`-column node removed. -/
theorem cover_uncover_loop (W n : Nat) (t : Net) (i : Nat)
    (hi1 : 1 ≤ i) (hiW : i ≤ W)
    (hTle : ∀ j, W < j → j < n → topI t j ≤ (W : Int))
    (hrowof : RowOf W n t) :
    ∀ (post : List Nat) (s : Net) (rem : List Nat) (fuel fuel2 : Nat),
    CI W n t s rem →
    (∀ k ∈ rem, colT W t k ≠ (i : Int)) →
    (∀ k ∈ rem, ∀ u ∈ post, ∀ f l, RowAt W n t f l → f ≤ u → u ≤ l →
      ¬(f ≤ k ∧ k ≤ l)) →
    (∀ x ∈ post, W < x ∧ x < n ∧ topI t x = (i : Int)) →
    post.Nodup →
    List.Chain' (edgeUD t) (post ++ [i]) →
    post.length < fuel → post.length < fuel2 →
    (uncoverGo (coverGo s i (post.headD i) fuel) i (post.getLastD i) fuel2 =
      uncoverGo s i ((post.map (upN t)).headD i) (fuel2 - post.length)) ∧
    (∃ rem2, CI W n t (coverGo s i (post.headD i) fuel) rem2 ∧
      ∀ k ∈ rem2, colT W t k ≠ (i : Int)) := by
  intro post
  induction post with
  | nil =>
    intro s rem fuel fuel2 hci hremcol _ _ _ _ hfuel _
    obtain ⟨f, rfl⟩ : ∃ f, fuel = f + 1 := ⟨fuel - 1, by omega⟩
    have hcg : coverGo s i (List.headD [] i) (f + 1) = s := by
      rw [coverGo, List.headD_nil, if_pos rfl]
    rw [hcg]
    exact ⟨rfl, rem, hci, hremcol⟩
  | cons u rest ih =>
    intro s rem fuel fuel2 hci hremcol hremrow hpost hnd hchain hfuel hfuel2
    obtain ⟨f, rfl⟩ : ∃ f, fuel = f + 1 := ⟨fuel - 1, by omega⟩
    obtain ⟨f2, rfl⟩ : ∃ f2, fuel2 = f2 + 1 := ⟨fuel2 - 1, by omega⟩
    obtain ⟨hwu, hbu, htu⟩ := hpost u (List.mem_cons_self u rest)
    have hui : u ≠ i := by omega
    obtain ⟨first, last, hfu, hul, hrowat⟩ := hrowof u hwu hbu
      (by rw [htu]; exact_mod_cast hi1)
    have hrowat2 := hrowat
    obtain ⟨hw1, hw2, hw3, hw4, hw5, hw6, hw7, hw8, hw9⟩ := hrowat2
    have hremdisjU : ∀ k ∈ rem, ¬(first ≤ k ∧ k ≤ last) := fun k hk =>
      hremrow k hk u (List.mem_cons_self u rest) first last hrowat hfu hul
    obtain ⟨hcancel, hciS, hsibs⟩ := hideRow W n t s rem u first last hci hTle
      hrowat hfu hul hremdisjU
    have hsibcol : ∀ k ∈ sibsOf u first last, topI t k ≠ (i : Int) := by
      intro k hk hik
      obtain ⟨h1, h2, h3⟩ := hsibs k hk
      rcases Nat.lt_or_ge k u with h | h
      · have := hw9 k u h1 h hul
        rw [hik, htu] at this
        omega
      · have := hw9 u k hfu (by omega) h2
        rw [hik, htu] at this
        omega
    have hremcolS : ∀ k ∈ sibsOf u first last ++ rem, colT W t k ≠ (i : Int) := by
      intro k hk
      rcases List.mem_append.mp hk with h | h
      · obtain ⟨h1, h2, h3⟩ := hsibs k h
        rw [colT, if_neg (by omega)]
        exact hsibcol k h
      · exact hremcol k h
    have hndu := List.nodup_cons.mp hnd
    have hremrowS : ∀ k ∈ sibsOf u first last ++ rem, ∀ x ∈ rest,
        ∀ f1 l1, RowAt W n t f1 l1 → f1 ≤ x → x ≤ l1 → ¬(f1 ≤ k ∧ k ≤ l1) := by
      intro k hk x hx f1 l1 hrow1 hfx hxl hkk
      obtain ⟨hk1, hk2⟩ := hkk
      rcases List.mem_append.mp hk with h | h
      · obtain ⟨h1, h2, h3⟩ := hsibs k h
        obtain ⟨hfe, hle⟩ := rowAt_unique W n t f1 l1 first last k hrow1 hrowat
          hk1 hk2 h1 h2
        subst hfe
        subst hle
        obtain ⟨hwx, hbx, htx⟩ := hpost x (List.mem_cons_of_mem u hx)
        have hxu : x = u := by
          rcases Nat.lt_trichotomy x u with hlt | he | hgt
          · have := hw9 x u hfx hlt hul
            rw [htx, htu] at this
            omega
          · exact he
          · have := hw9 u x hfu hgt hxl
            rw [htx, htu] at this
            omega
        rw [hxu] at hx
        exact hndu.1 hx
      · exact hremrow k h x (List.mem_cons_of_mem u hx) f1 l1 hrow1 hfx hxl
          ⟨hk1, hk2⟩
    rw [List.cons_append, List.chain'_cons'] at hchain
    obtain ⟨hhd, hchtail⟩ := hchain
    have hedgeU : edgeUD t u (rest.headD i) := by
      apply hhd
      rw [headq_append_single]
      rfl
    have hcoltu : colT W t u = (i : Int) := by
      rw [colT, if_neg (by omega)]
      exact htu
    have hupre : upO s u = upO t u ∧ downO s u = downO t u := by
      apply hci.2.2.2.1 u hbu
      · rw [hcoltu]
        exact_mod_cast hi1
      · rw [hcoltu]
        exact_mod_cast hiW
      · intro k hk
        rw [hcoltu]
        exact hremcol k hk
    have hpostS : upO (hide s u) u = upO t u ∧ downO (hide s u) u = downO t u := by
      apply hciS.2.2.2.1 u hbu
      · rw [hcoltu]
        exact_mod_cast hi1
      · rw [hcoltu]
        exact_mod_cast hiW
      · intro k hk
        rw [hcoltu]
        exact hremcolS k hk
    have hdnS : downN (hide s u) u = rest.headD i := by
      rw [downN, hpostS.2, hedgeU.1]
      rfl
    have hupnS : upN s u = upN t u := by
      rw [upN, upN, hupre.1]
    have hcov : coverGo s i u (f + 1) = coverGo (hide s u) i (downN (hide s u) u) f := by
      rw [coverGo, if_neg hui]
    have hstep : ∀ m, uncoverGo (hide s u) i u (m + 1) = uncoverGo s i (upN t u) m := by
      intro m
      rw [uncoverGo, if_neg hui]
      show uncoverGo (unhide (hide s u) u) i (upN (unhide (hide s u) u) u) m =
        uncoverGo s i (upN t u) m
      rw [hcancel, hupnS]
    rcases rest with _ | ⟨v, rest1⟩
    · obtain ⟨g, hgf⟩ : ∃ g, f = g + 1 := by
        refine ⟨f - 1, ?_⟩
        have h := hfuel
        rw [List.length_cons, List.length_nil] at h
        omega
      simp only [List.headD_nil] at hdnS
      constructor
      · simp only [List.headD_cons, List.getLastD_cons, List.getLastD_nil,
          List.map_cons, List.map_nil, List.length_cons, List.length_nil]
        rw [show f2 + 1 - (0 + 1) = f2 from by omega]
        rw [hcov, hdnS, hgf, coverGo, if_pos rfl, hstep f2]
      · refine ⟨sibsOf u first last ++ rem, ?_, hremcolS⟩
        simp only [List.headD_cons]
        rw [hcov, hdnS, hgf, coverGo, if_pos rfl]
        exact hciS
    · specialize ih (hide s u) (sibsOf u first last ++ rem) f (f2 + 1) hciS
        hremcolS hremrowS
        (fun x hx => hpost x (List.mem_cons_of_mem u hx))
        hndu.2 hchtail
        (by
          have h := hfuel
          rw [List.length_cons] at h
          omega)
        (by
          have h := hfuel2
          rw [List.length_cons] at h
          omega)
      obtain ⟨ihEq, rem2, ihCI, ihcol⟩ := ih
      simp only [List.headD_cons] at hedgeU hdnS ihCI
      simp only [List.headD_cons, List.getLastD_cons, List.map_cons,
        List.length_cons] at ihEq
      have huv : upN t v = u := by
        rw [upN, hedgeU.2]
        rfl
      constructor
      · simp only [List.headD_cons, List.getLastD_cons, List.map_cons,
          List.length_cons]
        rw [hcov, hdnS, ihEq, huv]
        obtain ⟨g, hg⟩ : ∃ g, f2 + 1 - (rest1.length + 1) = g + 1 := by
          refine ⟨f2 - rest1.length - 1, ?_⟩
          have h := hfuel2
          rw [List.length_cons, List.length_cons] at h
          omega
        have hg2 : f2 + 1 - (rest1.length + 1 + 1) = g := by omega
        rw [hg, hg2, hstep g]
      · refine ⟨rem2, ?_, ihcol⟩
        simp only [List.headD_cons]
        rw [hcov, hdnS]
        exact ihCI

theorem relSid_ge (m : Nat) (rows : XMatrix) : ∀ r, m ≤ relSid m rows r := by
  intro r
  induction r with
  | zero => exact le_rfl
  | succ r ih =>
    show m ≤ relSid m rows r + 1 + rowCount (rows.getD r [])
    omega

theorem relSid_mono (m : Nat) (rows : XMatrix) :
    ∀ r r', r ≤ r' → relSid m rows r ≤ relSid m rows r' := by
  intro r r' h
  induction r' with
  | zero =>
    have hr0 : r = 0 := by omega
    subst hr0
    exact le_rfl
  | succ r' ih =>
    rcases Nat.eq_or_lt_of_le h with he | hlt
    · rw [he]
    · have h2 := ih (by omega)
      show relSid m rows r ≤ relSid m rows r' + 1 + rowCount (rows.getD r' [])
      omega

/-- Every id between the first and the final spacer is either a spacer or
lies in the half-open option interval of some row. -/
theorem relSid_locate (m : Nat) (rows : XMatrix) :
    ∀ R p, m ≤ p → p ≤ relSid m rows R →
    (∃ r, r ≤ R ∧ p = relSid m rows r) ∨
    (∃ r, r < R ∧ relSid m rows r < p ∧
      p ≤ relSid m rows r + rowCount (rows.getD r [])) := by
  intro R
  induction R with
  | zero =>
    intro p h1 h2
    left
    refine ⟨0, le_rfl, ?_⟩
    have h0 : relSid m rows 0 = m := rfl
    omega
  | succ R ihR =>
    intro p h1 h2
    rcases le_or_lt p (relSid m rows R) with h | h
    · rcases ihR p h1 h with ⟨r, hr, he⟩ | ⟨r, hr, ha, hb⟩
      · exact Or.inl ⟨r, by omega, he⟩
      · exact Or.inr ⟨r, by omega, ha, hb⟩
    · have hs : relSid m rows (R + 1) = relSid m rows R + 1 + rowCount (rows.getD R []) := rfl
      rcases le_or_lt p (relSid m rows R + rowCount (rows.getD R [])) with hc | hc
      · exact Or.inr ⟨R, by omega, h, hc⟩
      · exact Or.inl ⟨R + 1, le_rfl, by omega⟩

/-- Every option node of the built arena lies in a proper row. -/
theorem buildArena_RowOf (matrix : XMatrix) (names : List String) (prim : Nat)
    (W m : Nat) (hWd : W = max (matrix.headD []).length names.length)
    (hm : m = W + 1)
    (hrows : ∀ row ∈ matrix, row.length ≤ W) :
    RowOf W (relSid m matrix matrix.length + 1) (buildArena matrix names prim) := by
  obtain ⟨hlen, hsp, hdn, hdfin, hpos⟩ :=
    buildArena_spacer_layout matrix names prim W m hWd hm hrows
  obtain ⟨hRB, hmono⟩ := buildArena_RB matrix names prim W m hWd hm hrows
  intro p hWp hpn htp
  have hmp : m ≤ p := by omega
  have hple : p ≤ relSid m matrix matrix.length := by omega
  rcases relSid_locate m matrix matrix.length p hmp hple with ⟨r, hr, he⟩ | ⟨r, hr, ha, hb⟩
  · exfalso
    have hsp2 := (hsp r hr).2
    rw [← he] at hsp2
    omega
  · set a := relSid m matrix r
    set c := rowCount (matrix.getD r [])
    have hc1 : 1 ≤ c := by omega
    have hsucc : relSid m matrix (r + 1) = a + 1 + c := rfl
    refine ⟨a + 1, a + c, by omega, hb, ?_, by omega, ?_, ?_, ?_, ?_, ?_, ?_, ?_⟩
    · have := relSid_ge m matrix r
      omega
    · have := relSid_mono m matrix (r + 1) matrix.length (by omega)
      rw [hsucc] at this
      omega
    · intro x hx1 hx2
      exact hpos r hr x (by omega) (by omega)
    · have h1 := (hsp (r + 1) (by omega)).2
      rw [hsucc] at h1
      have he2 : a + 1 + c = a + c + 1 := by omega
      rw [he2] at h1
      exact h1
    · have h1 := (hsp (r + 1) (by omega)).1
      have hrf : relFirst m none matrix (r + 1) = some (a + 1) := by
        show (if rowCount (matrix.getD r []) = 0 then none
          else some (relSid m matrix r + 1)) = some (a + 1)
        rw [if_neg (by omega)]
      rw [hrf, hsucc] at h1
      have he2 : a + 1 + c = a + c + 1 := by omega
      rw [he2] at h1
      exact h1
    · have h1 := (hsp r (by omega)).2
      have he2 : a + 1 - 1 = a := by omega
      rw [he2]
      exact h1
    · have h1 := hdn r hr
      have hrl : relLink m none matrix (r + 1) = some (a + c) := by
        show (if rowCount (matrix.getD r []) = 0 then relLink m none matrix r
          else some (relSid m matrix r + rowCount (matrix.getD r []))) = some (a + c)
        rw [if_neg (by omega)]
      rw [hrl] at h1
      have he2 : a + 1 - 1 = a := by omega
      rw [he2]
      exact h1
    · intro x y hx hxy hy
      exact hmono r hr x y (by omega) hxy (by omega)

/-! ### Claim C3: cover; uncover is the identity on a fresh arena -/

theorem cover_left (s : Net) (i : Nat) :
    (cover s i).left = (coverGo s i (downN s i) (s.up.length + 1)).left.set
      (rightN (coverGo s i (downN s i) (s.up.length + 1)) i)
      (leftN (coverGo s i (downN s i) (s.up.length + 1)) i) := rfl

theorem cover_right (s : Net) (i : Nat) :
    (cover s i).right = (coverGo s i (downN s i) (s.up.length + 1)).right.set
      (leftN (coverGo s i (downN s i) (s.up.length + 1)) i)
      (rightN (coverGo s i (downN s i) (s.up.length + 1)) i) := rfl

theorem cover_name (s : Net) (i : Nat) :
    (cover s i).name = (coverGo s i (downN s i) (s.up.length + 1)).name := rfl

theorem cover_top (s : Net) (i : Nat) :
    (cover s i).top = (coverGo s i (downN s i) (s.up.length + 1)).top := rfl

theorem cover_up (s : Net) (i : Nat) :
    (cover s i).up = (coverGo s i (downN s i) (s.up.length + 1)).up := rfl

theorem cover_down (s : Net) (i : Nat) :
    (cover s i).down = (coverGo s i (downN s i) (s.up.length + 1)).down := rfl

theorem cover_spacerSer (s : Net) (i : Nat) :
    (cover s i).spacerSer = (coverGo s i (downN s i) (s.up.length + 1)).spacerSer := rfl

/-- `uncover` with the horizontal restore written as one record literal. -/
theorem uncover_eq (s : Net) (i : Nat) :
    uncover s i =
      uncoverGo (⟨s.name, s.left.set (rightN s i) i, s.right.set (leftN s i) i,
          s.top, s.up, s.down, s.spacerSer⟩ : Net) i
        (upN (⟨s.name, s.left.set (rightN s i) i, s.right.set (leftN s i) i,
          s.top, s.up, s.down, s.spacerSer⟩ : Net) i)
        (s.up.length + 1) := rfl

/-- C3: on any freshly built arena (any rectangular matrix, any accepted
`primary`), covering an item header and immediately uncovering it restores
every field of every node — `uncover(i)` after `cover(i)` is the identity
on the whole arena. -/
theorem cover_uncover_roundtrip (matrix : XMatrix) (names : List String)
    (p? : Option Int) (net : Net) (i W : Nat)
    (hok : (networkInit matrix names p?).toOption = some net)
    (hrect : ∀ row ∈ matrix, row.length = (matrix.headD []).length)
    (hW : W = max (matrix.headD []).length names.length)
    (hi1 : 1 ≤ i) (hiW : i ≤ W) :
    uncover (cover net i) i = net := by
  have hnet : ∃ prim, net = buildArena matrix names prim := by
    cases matrix with
    | nil => exact absurd hok (by simp [networkInit, Except.toOption])
    | cons r0 rest =>
      cases p? with
      | none =>
        refine ⟨r0.length, ?_⟩
        have e : networkInit (r0 :: rest) names none =
            .ok (buildArena (r0 :: rest) names r0.length) := rfl
        rw [e] at hok
        simp [Except.toOption] at hok
        exact hok.symm
      | some p =>
        have e : networkInit (r0 :: rest) names (some p) =
            (if 0 < p ∧ p < (r0.length : Int)
              then .ok (buildArena (r0 :: rest) names p.toNat)
              else .error "ValueError: Require 0 < primary < width.") := rfl
        rw [e] at hok
        by_cases hp : 0 < p ∧ p < (r0.length : Int)
        · rw [if_pos hp] at hok
          simp [Except.toOption] at hok
          exact ⟨p.toNat, hok.symm⟩
        · rw [if_neg hp] at hok
          simp [Except.toOption] at hok
  obtain ⟨prim, hnet⟩ := hnet
  subst hnet
  have hrows : ∀ row ∈ matrix, row.length ≤ W := by
    intro row hr
    rw [hrect row hr, hW]
    exact le_max_left _ _
  set t := buildArena matrix names prim with htdef
  set n := relSid (W + 1) matrix matrix.length + 1 with hndef
  have hRBall := buildArena_RB matrix names prim W (W + 1) hW rfl hrows
  obtain ⟨hRB, hmonoRows⟩ := hRBall
  obtain ⟨hhp2all, hhplen⟩ := buildArena_hp2 matrix names prim
  have hRowOf := buildArena_RowOf matrix names prim W (W + 1) hW rfl hrows
  have hWn : W + 1 ≤ n := hRB.1
  have hTle := hRB.2.2.2.1
  have hci0 := CI_init W n t hRB
  obtain ⟨L, hring, hndL, hiff⟩ := hRB.2.2.1 i hi1 hiW
  -- first edge of the ring
  have hring1 := hring
  rw [ringTo, List.cons_append, List.chain'_cons'] at hring1
  obtain ⟨hhd0, hchtail0⟩ := hring1
  have hdowni : downO t i = some (L.headD i) := by
    refine (hhd0 _ ?_).1
    rw [headq_append_single]
    rfl
  -- last edge of the ring
  have hring2 := hring
  rw [ringTo, List.chain'_append] at hring2
  obtain ⟨hc1, hc2, hconn⟩ := hring2
  have hglast : (i :: L).getLast? = some ((i :: L).getLast (by simp)) :=
    List.getLast?_eq_getLast _ (by simp)
  have hedgelast : edgeUD t ((i :: L).getLast (by simp)) i := by
    refine hconn _ ?_ i rfl
    rw [hglast]
    rfl
  have hupi : upO t i = some (L.getLastD i) := by
    have h1 := hedgelast.2
    rw [getLast_cons_eq_getLastD] at h1
    exact h1
  -- ring members and fuel
  have hpostL : ∀ x ∈ L, W < x ∧ x < n ∧ topI t x = (i : Int) :=
    fun x hx => (hiff x).mp hx
  have hndL2 : L.Nodup := (List.nodup_cons.mp hndL).2
  have hLlen : L.length ≤ n :=
    nodup_length_le L n hndL2 (fun x hx => ((hiff x).mp hx).2.1)
  -- the vertical phase
  obtain ⟨hloopEq, rem2, hciCov, hcolCov⟩ :=
    cover_uncover_loop W n t i hi1 hiW hTle hRowOf L t [] (n + 1) (n + 1) hci0
      (by intro k hk; cases hk)
      (by intro k hk; cases hk)
      hpostL hndL2 hchtail0 (by omega) (by omega)
  -- the state after the down-walk of cover
  have hulen : t.up.length = n := hci0.1.1
  have hdni : downN t i = L.headD i := by
    rw [downN, hdowni]
    rfl
  set s1 := coverGo t i (downN t i) (t.up.length + 1) with hs1def
  have hs1eq : s1 = coverGo t i (L.headD i) (n + 1) := by
    rw [hs1def, hdni, hulen]
  have hciS1 : CI W n t s1 rem2 := by
    rw [hs1eq]
    exact hciCov
  have hs1L : s1.left = t.left := hciS1.2.2.2.2.2.1
  have hs1R : s1.right = t.right := hciS1.2.2.2.2.2.2.1
  have hs1len : s1.up.length = n := hciS1.1.1
  have hcolti : colT W t i = (i : Int) := by
    rw [colT, if_pos (by omega)]
  have hups1 : upO s1 i = upO t i := by
    refine (hciS1.2.2.2.1 i (by omega) ?_ ?_ ?_).1
    · rw [hcolti]
      exact_mod_cast hi1
    · rw [hcolti]
      exact_mod_cast hiW
    · intro k hk
      rw [hcolti]
      exact hcolCov k hk
  -- horizontal bookkeeping
  have hhplen2 : t.left.length = W + 1 := by
    rw [hhplen, ← hW]
  have hib : i < t.left.length := by omega
  obtain ⟨hlb, hrb, hrl, hlr⟩ := hhp2all.2 i hib
  have hlenLR : t.left.length = t.right.length := hhp2all.1
  set l0 := leftN t i with hl0def
  set r0 := rightN t i with hr0def
  -- projections of `cover t i`
  have hXname : (cover t i).name = s1.name := by
    rw [hs1def]
    exact cover_name t i
  have hXtop : (cover t i).top = s1.top := by
    rw [hs1def]
    exact cover_top t i
  have hXup : (cover t i).up = s1.up := by
    rw [hs1def]
    exact cover_up t i
  have hXdown : (cover t i).down = s1.down := by
    rw [hs1def]
    exact cover_down t i
  have hXser : (cover t i).spacerSer = s1.spacerSer := by
    rw [hs1def]
    exact cover_spacerSer t i
  have hleftN_s1 : leftN s1 i = l0 := by
    rw [leftN, hs1L, hl0def, leftN]
  have hrightN_s1 : rightN s1 i = r0 := by
    rw [rightN, hs1R, hr0def, rightN]
  have hXl : (cover t i).left = t.left.set r0 l0 := by
    have h0 : (cover t i).left =
        s1.left.set (rightN s1 i) (leftN s1 i) := by
      rw [hs1def]
      exact cover_left t i
    rw [h0, hleftN_s1, hrightN_s1, hs1L]
  have hXr : (cover t i).right = t.right.set l0 r0 := by
    have h0 : (cover t i).right =
        s1.right.set (leftN s1 i) (rightN s1 i) := by
      rw [hs1def]
      exact cover_right t i
    rw [h0, hleftN_s1, hrightN_s1, hs1R]
  -- the reads uncover performs come back unchanged
  have hlX : leftN (cover t i) i = l0 := by
    rw [leftN, hXl]
    rcases eq_or_ne i r0 with he | hne
    · rw [← he]
      exact getD_set_self _ _ _ _ hib
    · rw [getD_set_ne t.left r0 i l0 0 (fun h => hne h.symm), hl0def, leftN]
  have hrX : rightN (cover t i) i = r0 := by
    rw [rightN, hXr]
    rcases eq_or_ne i l0 with he | hne
    · rw [← he]
      exact getD_set_self _ _ _ _ (by rw [← hlenLR]; exact hib)
    · rw [getD_set_ne t.right l0 i r0 0 (fun h => hne h.symm), hr0def, rightN]
  -- the horizontal restore cancels exactly
  have hresR : (cover t i).right.set (leftN (cover t i) i) i = t.right := by
    rw [hlX, hXr, List.set_set]
    exact set_of_getD t.right l0 i 0 (by rw [← hlenLR]; exact hlb) hrl
  have hresL : (cover t i).left.set (rightN (cover t i) i) i = t.left := by
    rw [hrX, hXl, List.set_set]
    exact set_of_getD t.left r0 i 0 hrb hlr
  have hX2 : (⟨(cover t i).name,
      (cover t i).left.set (rightN (cover t i) i) i,
      (cover t i).right.set (leftN (cover t i) i) i,
      (cover t i).top, (cover t i).up, (cover t i).down,
      (cover t i).spacerSer⟩ : Net) = s1 := by
    rw [hresR, hresL, hXname, hXtop, hXup, hXdown, hXser, ← hs1L, ← hs1R]
  -- assemble
  rw [uncover_eq (cover t i) i, hX2, hXup, hs1len]
  have hupn_s1 : upN s1 i = L.getLastD i := by
    rw [upN, hups1, hupi]
    rfl
  rw [hupn_s1, hs1eq, hloopEq]
  -- the trailing uncover loop stops at once
  cases L with
  | nil =>
    simp only [List.map_nil, List.headD_nil, List.length_nil, Nat.sub_zero]
    rw [uncoverGo, if_pos rfl]
  | cons u L1 =>
    have hedge0 : edgeUD t i u := hhd0 u rfl
    have hptr : upN t u = i := by
      rw [upN, hedge0.2]
      rfl
    simp only [List.map_cons, List.headD_cons, List.length_cons]
    rw [hptr]
    rw [List.length_cons] at hLlen
    obtain ⟨g, hg⟩ : ∃ g, n + 1 - (L1.length + 1) = g + 1 :=
      ⟨n - (L1.length + 1), by omega⟩
    rw [hg, uncoverGo, if_pos rfl]

/-- Witness for C3: on the arena built from Knuth's 7-item example,
`uncover(1)` after `cover(1)` restores the arena exactly. -/
theorem cover_uncover_roundtrip_witness :
    uncover (cover knuth7Net 1) 1 = knuth7Net :=
  cover_uncover_roundtrip knuth7 ["A", "B", "C", "D", "E", "F", "G"] none
    knuth7Net 1 7 rfl (by decide) (by decide) (by decide) (by decide)

end Pydlx
